import Mathlib

/-!
# simple_sdf: the CPU signed-distance-field renderer

Shallow embedding of the renderer core of `Clib/raylib/simple_raylib_impl.c`
(lines 39-246): the `vec3f` kernel, the SDF primitives, `scene_sdf`,
`compute_normal` and `srl_render_sdf_scene`.

Modelling conventions.

* The `vec3f` kernel, the SDF primitives, `scene_sdf` and the ray construction are
  polymorphic in the type `F` of a `float` and use only the operations the C code
  applies to it (`+ - * /`, unary minus, `<`, literals, the conversion of an `int`,
  and the libm calls `sqrtf`, `cosf`, `sinf` of the classes `Sqrtf` and `Trig`).
  They are read in two arithmetics:
  - `binary32`: the IEEE 754 single format with round-to-nearest-even after every
    operation, infinities and NaN, and the correctly rounded `sqrtf`. Properties that
    depend on rounding, on a NaN or on an infinity are stated and proved here.
    `cosf` and `sinf` are not fixed by IEEE 754: theorems hold for every instance of
    `Trig`, under stated bounds on the values returned; closed statements use the
    values at the arguments 0, 1 and 2 (`trig_sample`).
  - an exact arithmetic: any linearly ordered field `F` with the laws of the class
    `Libm` for the libm calls. It has no rounding, no NaN and no infinity; it is used
    for properties that are inequalities with room for rounding, and for the
    renderer loop, its stores and its colours.
* `int` is a 32-bit two's complement integer: results of `int` arithmetic are
  reduced by `wrap32`.
* The pixel memory `buf->image.data` is a map from signed byte offsets
  (relative to the base pointer) to bytes, together with a ghost log of the
  offsets stored to, in program order.
* The OpenMP pragma distributes the rows of the outer loop; the rows are
  executed here in increasing order (the build without `_OPENMP`).
* `fast_inv_sqrt` (lines 73-80) reinterprets the bits of a float and is called
  nowhere in the file (`vec3f_normalize` divides by `sqrtf`); it is not embedded.

Theorems of the exact arithmetic are stated for every such `F`; their closed witnesses
and counterexamples are instances on the real numbers (`instLibmReal`) or, where no
libm call is involved, on the rationals. Closed statements in `binary32` are evaluated
by the kernel.
-/

namespace SimpleSdf

/-! ## Arithmetic interface -/

/-- The libm function `sqrtf` called by the renderer (lines 69 and 85). -/
class Sqrtf (F : Type) where
  /-- The libm `sqrtf`. -/
  sqrtf : F → F

/-- The libm functions `cosf` and `sinf` called by the renderer (lines 153-156). -/
class Trig (F : Type) where
  /-- The libm `cosf`. -/
  cosf : F → F
  /-- The libm `sinf`. -/
  sinf : F → F

/-- The libm functions on an ordered field, with their exact-arithmetic laws. -/
class Libm (F : Type) [LinearOrderedField F] extends Sqrtf F, Trig F where
  sqrtf_nonneg : ∀ x : F, 0 ≤ sqrtf x
  sqrtf_mul_self : ∀ x : F, 0 ≤ x → sqrtf x * sqrtf x = x
  cosf_zero : cosf 0 = 1
  sinf_zero : sinf 0 = 0
  cosf_sq_add_sinf_sq : ∀ x : F, cosf x * cosf x + sinf x * sinf x = 1

/-- The real numbers with the real square root, cosine and sine. -/
noncomputable instance instLibmReal : Libm ℝ where
  sqrtf := Real.sqrt
  cosf := Real.cos
  sinf := Real.sin
  sqrtf_nonneg := Real.sqrt_nonneg
  sqrtf_mul_self := fun x hx => Real.mul_self_sqrt hx
  cosf_zero := Real.cos_zero
  sinf_zero := Real.sin_zero
  cosf_sq_add_sinf_sq := fun x => by
    have h := Real.cos_sq_add_sin_sq x
    show Real.cos x * Real.cos x + Real.sin x * Real.sin x = 1
    nlinarith [h]

/-- Reduction of an integer to the range of a 32-bit `int` (two's complement). -/
def wrap32 (n : Int) : Int := (n + 2147483648) % 4294967296 - 2147483648

/-! ## Binary32 arithmetic

The C type `float` as the IEEE 754 binary32 format, with round-to-nearest-even after
every operation. -/

/-- A binary32 value. `num n` is the finite number `n * 2^-149`: every finite binary32
number is an integer multiple of the least subnormal `2^-149`, and it is binary32 when
`n` has at most 24 significant bits and `|n| < 2^277`. `inf neg` is the infinity with
sign bit `neg`, `nan` is a NaN. The sign of a zero is not tracked. -/
inductive binary32 where
  | num (n : Int)
  | inf (neg : Bool)
  | nan
deriving DecidableEq

namespace binary32

/-- The quotient `a / b` rounded to the nearest natural number, ties to the even one. -/
def round_half_even (a b : Nat) : Nat :=
  if 2 * (a % b) < b then a / b
  else if b < 2 * (a % b) then a / b + 1
  else if a / b % 2 = 0 then a / b else a / b + 1

/-- The number of halvings that bring `q` below `2^24` (at most `fuel`): the number of
low-order bits that a 24-bit significand cannot hold. -/
def excess_bits : Nat → Nat → Nat
  | 0, _ => 0
  | fuel + 1, q => if q < 2 ^ 24 then 0 else excess_bits fuel (q / 2) + 1

/-- The quotient `a / b` rounded to the nearest natural number with at most 24
significant bits, ties to the even significand. -/
def round_units (a b : Nat) : Nat :=
  let s := excess_bits 256 (a / b)
  round_half_even a (b * 2 ^ s) * 2 ^ s

/-- The magnitude `2^128`, in units of `2^-149`: the least rounded magnitude that
overflows. -/
@[irreducible] def overflow_units : Nat := 2 ^ 277

/-- The binary32 rounding of the exact result `a / b` (in units of `2^-149`): round to
nearest, ties to even; a rounded magnitude of `2^128` or more overflows to an infinity. -/
def round32 (a : Int) (b : Nat) : binary32 :=
  if overflow_units ≤ round_units a.natAbs b then inf (decide (a < 0))
  else num (if a < 0 then -(round_units a.natAbs b : Int) else (round_units a.natAbs b : Int))

/-- Binary32 addition. -/
def add : binary32 → binary32 → binary32
  | num a, num b => round32 (a + b) 1
  | num _, inf s => inf s
  | inf s, num _ => inf s
  | inf s, inf t => if s = t then inf s else nan
  | _, _ => nan

/-- Binary32 negation. -/
def neg : binary32 → binary32
  | num a => num (-a)
  | inf s => inf (!s)
  | nan => nan

/-- Binary32 subtraction. -/
def sub (x y : binary32) : binary32 := add x (neg y)

/-- Binary32 multiplication. -/
def mul : binary32 → binary32 → binary32
  | num a, num b => round32 (a * b) (2 ^ 149)
  | num a, inf s => if a = 0 then nan else inf (xor (decide (a < 0)) s)
  | inf s, num b => if b = 0 then nan else inf (xor s (decide (b < 0)))
  | inf s, inf t => inf (xor s t)
  | _, _ => nan

/-- Binary32 division. A non-zero number divided by zero is the infinity with the sign
of the dividend (the zero divisor counts as `+0`). -/
def div : binary32 → binary32 → binary32
  | num a, num b =>
    if b = 0 then (if a = 0 then nan else inf (decide (a < 0)))
    else round32 (a * 2 ^ 149 * Int.sign b) b.natAbs
  | num _, inf _ => num 0
  | inf s, num b => inf (xor s (decide (b < 0)))
  | _, _ => nan

/-- The comparison `x < y` of binary32 values: false when an operand is a NaN. -/
def lt : binary32 → binary32 → Bool
  | num a, num b => decide (a < b)
  | num _, inf s => !s
  | inf s, num _ => s
  | inf s, inf t => s && !t
  | _, _ => false

/-- The comparison `x <= y` of binary32 values: false when an operand is a NaN. -/
def le : binary32 → binary32 → Bool
  | num a, num b => decide (a ≤ b)
  | num _, inf s => !s
  | inf s, num _ => s
  | inf s, inf t => s || !t
  | _, _ => false

/-- One step per bit, from bit `i - 1` down to bit 0, of the integer square root of `m`:
a bit is set when the square stays at most `m`. -/
def isqrt_aux (m : Nat) : Nat → Nat → Nat
  | 0, r => r
  | i + 1, r => isqrt_aux m i (if (r + 2 ^ i) * (r + 2 ^ i) ≤ m then r + 2 ^ i else r)

/-- The integer square root of `m < 2^428`. -/
def isqrt (m : Nat) : Nat := isqrt_aux m 214 0

/-- The correctly rounded binary32 square root. In units of `2^-149` the root of `num n`
is the root of `m = n * 2^149`; it is rounded from `isqrt m`, or from `isqrt m + 1/2`
when `m` is not a square (the root has at least 75 bits, so that no rounding boundary
lies between it and this value). -/
def sqrt : binary32 → binary32
  | num n =>
    if n < 0 then nan
    else
      let m := n.toNat * 2 ^ 149
      let r := isqrt m
      round32 ((2 * r + (if r * r = m then 0 else 1) : Nat) : Int) 2
  | inf s => if s then nan else inf false
  | nan => nan

/-- The conversion `(float)k` of an `int`. -/
def of_int (k : Int) : binary32 := round32 (k * 2 ^ 149) 1

/-- A decimal literal `m * 10^-e` (`s` true) or `m * 10^e` (`s` false). -/
def of_scientific (m : Nat) (s : Bool) (e : Nat) : binary32 :=
  if s then round32 ((m : Int) * 2 ^ 149) (10 ^ e) else round32 ((m : Int) * 10 ^ e * 2 ^ 149) 1

/-- The rational number denoted by a finite value (and 0 for an infinity or a NaN). -/
def to_rat : binary32 → ℚ
  | num n => (n : ℚ) / 2 ^ 149
  | _ => 0

/-- The finite values that are binary32 numbers: rounding leaves them as they are. -/
def is_float : binary32 → Bool
  | num n => decide (round32 n 1 = num n)
  | _ => false

/-- The point is inside a box along one axis by more than the rounding error of the
difference `p - c`: `|p - c| * (1 + 2^-23) + 2^-149 <= half`, with `half <= 2^126`. -/
def inside_margin (p c half : binary32) : Prop :=
  to_rat half ≤ 2 ^ 126 ∧
  |to_rat p - to_rat c| * (1 + 1 / 2 ^ 23) + 1 / 2 ^ 149 ≤ to_rat half

/-- The point is outside a box along one axis by more than the rounding errors:
`|p - c| * (1 - 2^-23) >= half + 2^-73 + 2^-149`. -/
def outside_margin (p c half : binary32) : Prop :=
  to_rat half + 1 / 2 ^ 73 + 1 / 2 ^ 149 ≤ |to_rat p - to_rat c| * (1 - 1 / 2 ^ 23)

/-- The point is exactly on the face of a box along one axis: `|p - c| = half`, with
`half` a binary32 number. -/
def on_face (p c half : binary32) : Prop :=
  is_float half = true ∧ |to_rat p - to_rat c| = to_rat half

instance instAdd : Add binary32 := ⟨add⟩

instance instNeg : Neg binary32 := ⟨neg⟩

instance instSub : Sub binary32 := ⟨sub⟩

instance instMul : Mul binary32 := ⟨mul⟩

instance instDiv : Div binary32 := ⟨div⟩

instance instLT : LT binary32 := ⟨fun x y => lt x y = true⟩

instance instDecidableLT : DecidableRel (fun x y : binary32 => x < y) :=
  fun x y => inferInstanceAs (Decidable (lt x y = true))

instance instLE : LE binary32 := ⟨fun x y => le x y = true⟩

instance instDecidableLE : DecidableRel (fun x y : binary32 => x ≤ y) :=
  fun x y => inferInstanceAs (Decidable (le x y = true))

instance instOfNat (n : Nat) : OfNat binary32 n := ⟨of_int n⟩

instance instOfScientific : OfScientific binary32 := ⟨of_scientific⟩

instance instIntCast : IntCast binary32 := ⟨of_int⟩

instance instSqrtf : Sqrtf binary32 := ⟨sqrt⟩

end binary32

section Kernel

variable {F : Type} [Add F] [Sub F] [Mul F] [Div F] [Neg F] [LT F]
  [DecidableRel (fun a b : F => a < b)] [OfNat F 0] [OfScientific F] [IntCast F]

/-! ## Vector kernel (lines 39-93) -/

/-- The struct `vec3f` of lines 39-41: three floats `x`, `y`, `z`. -/
structure vec3f (F : Type) where
  x : F
  y : F
  z : F

/-- Function `vec3f_make`, line 43. -/
def vec3f_make (x y z : F) : vec3f F := ⟨x, y, z⟩

/-- Function `vec3f_add`, line 48. -/
def vec3f_add (a b : vec3f F) : vec3f F :=
  vec3f_make (a.x + b.x) (a.y + b.y) (a.z + b.z)

/-- Function `vec3f_sub`, line 52. -/
def vec3f_sub (a b : vec3f F) : vec3f F :=
  vec3f_make (a.x - b.x) (a.y - b.y) (a.z - b.z)

/-- Function `vec3f_scale`, line 56. -/
def vec3f_scale (v : vec3f F) (s : F) : vec3f F :=
  vec3f_make (v.x * s) (v.y * s) (v.z * s)

/-- Function `vec3f_dot`, line 60. -/
def vec3f_dot (a b : vec3f F) : F := a.x * b.x + a.y * b.y + a.z * b.z

/-- Function `vec3f_length_sq`, line 64. -/
def vec3f_length_sq (v : vec3f F) : F := v.x * v.x + v.y * v.y + v.z * v.z

/-- Function `maxf`, line 91: `a > b ? a : b`. -/
def maxf (a b : F) : F := if a > b then a else b

/-- Function `minf`, line 92: `a < b ? a : b`. -/
def minf (a b : F) : F := if a < b then a else b

/-- Function `absf`, line 93: `a < 0 ? -a : a`. -/
def absf (a : F) : F := if a < 0 then -a else a

/-- Function `sdf_plane`, line 110. -/
def sdf_plane (p : vec3f F) (height : F) : F := p.y - height

/-- Function `sdf_smooth_min`, lines 115-118. -/
def sdf_smooth_min (a b k : F) : F :=
  let h := maxf (k - absf (a - b)) 0.0 / k
  minf a b - h * h * k * 0.25

end Kernel

section Scene

variable {F : Type} [Add F] [Sub F] [Mul F] [Div F] [Neg F] [LT F]
  [DecidableRel (fun a b : F => a < b)] [OfNat F 0] [OfScientific F] [IntCast F]
  [Sqrtf F] [Trig F]

/-- Function `vec3f_length`, line 68. -/
def vec3f_length (v : vec3f F) : F := Sqrtf.sqrtf (vec3f_length_sq v)

/-- Function `vec3f_normalize`, lines 82-89. -/
def vec3f_normalize (v : vec3f F) : vec3f F :=
  let len_sq := vec3f_length_sq v
  if len_sq > 1e-12 then
    let inv_len := 1.0 / Sqrtf.sqrtf len_sq
    vec3f_make (v.x * inv_len) (v.y * inv_len) (v.z * inv_len)
  else
    vec3f_make 0.0 1.0 0.0

/-- Function `sdf_sphere`, lines 96-98. -/
def sdf_sphere (p center : vec3f F) (radius : F) : F :=
  vec3f_length (vec3f_sub p center) - radius

/-- The excess along one axis, lines 102-104 of `sdf_box`: `absf(p - c) - half`. -/
def box_excess (p c half : F) : F := absf (p - c) - half

/-- Function `sdf_box`, lines 100-108. -/
def sdf_box (p center half_size : vec3f F) : F :=
  let d := vec3f_sub p center
  let dx := absf d.x - half_size.x
  let dy := absf d.y - half_size.y
  let dz := absf d.z - half_size.z
  let outside := vec3f_length (vec3f_make (maxf dx 0) (maxf dy 0) (maxf dz 0))
  let inside := minf (maxf dx (maxf dy dz)) 0
  outside + inside

/-- Function `scene_sdf`, lines 121-131: sphere, box and ground of the demo scene. -/
def scene_sdf (p : vec3f F) : F :=
  let d_sphere := sdf_sphere p (vec3f_make 0 0 0) 1.0
  let d_box := sdf_box p (vec3f_make 2.0 0 0) (vec3f_make 0.4 0.4 0.4)
  let d_ground := sdf_plane p (-1.5)
  let d_shapes := sdf_smooth_min d_sphere d_box 0.3
  minf d_shapes d_ground

/-- Function `compute_normal`, lines 134-141. -/
def compute_normal (p : vec3f F) : vec3f F :=
  let eps : F := 0.001
  let nx := scene_sdf (vec3f_make (p.x + eps) p.y p.z) - scene_sdf (vec3f_make (p.x - eps) p.y p.z)
  let ny := scene_sdf (vec3f_make p.x (p.y + eps) p.z) - scene_sdf (vec3f_make p.x (p.y - eps) p.z)
  let nz := scene_sdf (vec3f_make p.x p.y (p.z + eps)) - scene_sdf (vec3f_make p.x p.y (p.z - eps))
  vec3f_normalize ⟨nx, ny, nz⟩

/-- The row coordinate `v` of line 179. -/
def row_v (height py : Int) : F :=
  let inv_height : F := 1.0 / (height : F)
  1.0 - (py : F) * inv_height * 2.0

/-- The un-normalised ray vector of pixel `(px, py)`: the argument of `vec3f_normalize`
at lines 194-198, built as in lines 150-156 and 179-191. -/
def pixel_ray_vec (width height : Int) (cam_yaw cam_pitch : F) (py px : Int) : vec3f F :=
  let aspect : F := (width : F) / (height : F)
  let inv_width : F := 1.0 / (width : F)
  let cos_yaw := Trig.cosf cam_yaw
  let sin_yaw := Trig.sinf cam_yaw
  let cos_pitch := Trig.cosf cam_pitch
  let sin_pitch := Trig.sinf cam_pitch
  let v : F := row_v height py
  let ry_base := v * cos_pitch + sin_pitch
  let rz_base := v * sin_pitch - cos_pitch
  let u := ((px : F) * inv_width * 2.0 - 1.0) * aspect
  let rx := u
  let ry := ry_base
  let rz := rz_base
  vec3f_make (rx * cos_yaw + rz * sin_yaw) ry (-rx * sin_yaw + rz * cos_yaw)

/-- The normalised ray direction of pixel `(px, py)`, lines 150-156 and 179-198. -/
def pixel_ray_dir (width height : Int) (cam_yaw cam_pitch : F) (py px : Int) : vec3f F :=
  let aspect : F := (width : F) / (height : F)
  let inv_width : F := 1.0 / (width : F)
  let cos_yaw := Trig.cosf cam_yaw
  let sin_yaw := Trig.sinf cam_yaw
  let cos_pitch := Trig.cosf cam_pitch
  let sin_pitch := Trig.sinf cam_pitch
  let v : F := row_v height py
  let ry_base := v * cos_pitch + sin_pitch
  let rz_base := v * sin_pitch - cos_pitch
  let u := ((px : F) * inv_width * 2.0 - 1.0) * aspect
  let rx := u
  let ry := ry_base
  let rz := rz_base
  vec3f_normalize (vec3f_make (rx * cos_yaw + rz * sin_yaw) ry (-rx * sin_yaw + rz * cos_yaw))

end Scene

/-- The values of libm `cosf` and `sinf` at three binary32 arguments. At zero, the values
that the C standard fixes (Annex F, F.10.1): `cosf(0) = 1` and `sinf(0) = 0`. At `1` and
`2`, the values that glibc returns: `cosf(1) = 0x1.14a28p-1`, `sinf(1) = 0x1.aed548p-1`,
`cosf(2) = -0x1.aa2266p-2`, `sinf(2) = 0x1.d18f6ep-1`. Every other argument is given a
NaN. -/
def trig_sample : Trig binary32 where
  cosf := fun x =>
    if x = binary32.num 0 then binary32.num (2 ^ 149)
    else if x = binary32.num (2 ^ 149) then binary32.num (0x114a280 * 2 ^ 124)
    else if x = binary32.num (2 ^ 150) then binary32.num (-(0x1aa2266 * 2 ^ 123))
    else binary32.nan
  sinf := fun x =>
    if x = binary32.num 0 then binary32.num 0
    else if x = binary32.num (2 ^ 149) then binary32.num (0x1aed548 * 2 ^ 124)
    else if x = binary32.num (2 ^ 150) then binary32.num (0x1d18f6e * 2 ^ 124)
    else binary32.nan

/-- The binary32 ray direction of pixel `(px, py)` for a camera with yaw and pitch zero:
`pixel_ray_dir` with the values of `cosf` and `sinf` at zero. -/
def level_ray_dir (width height py px : Int) : vec3f binary32 :=
  letI : Trig binary32 := trig_sample
  pixel_ray_dir width height 0 0 py px

/-- The binary32 un-normalised ray vector of pixel `(px, py)` for a camera with yaw `1`
and pitch `2`: `pixel_ray_vec` with the sample values of `cosf` and `sinf`. -/
def sample_ray_vec (width height py px : Int) : vec3f binary32 :=
  letI : Trig binary32 := trig_sample
  pixel_ray_vec width height 1.0 2.0 py px

/-- The binary32 ray direction of pixel `(px, py)` for a camera with yaw `1` and pitch
`2`: `pixel_ray_dir` with the sample values of `cosf` and `sinf`. -/
def sample_ray_dir (width height py px : Int) : vec3f binary32 :=
  letI : Trig binary32 := trig_sample
  pixel_ray_dir width height 1.0 2.0 py px


section Render

variable {F : Type} [LinearOrderedField F] [FloorRing F] [Libm F]

/-! ## Renderer (lines 143-246) -/

/-- Constant `RELAX`, line 167 (declared by the source, used nowhere in it). -/
def RELAX : F := 1.2

/-- Constant `MAX_STEPS`, line 168. -/
def MAX_STEPS : Nat := 48

/-- Constant `MAX_DIST`, line 169. -/
def MAX_DIST : F := 40.0

/-- Constant `SURF_DIST`, line 170. -/
def SURF_DIST : F := 0.002

/-- Constant `light_dir`, line 160. -/
def light_dir : vec3f F := vec3f_make 0.50508 0.80812 0.30305

/-- The conversion `(unsigned char)x` of a float: truncation toward zero,
reduced modulo 256. -/
def to_uchar (x : F) : Nat :=
  ((if 0 ≤ x then ⌊x⌋ else ⌈x⌉) % 256).toNat

/-- The sphere-tracing loop, lines 205-219, with the remaining iteration count
as first argument; the result is the pair `(hit, hit_point)`. -/
def ray_march (cam_origin ray_dir : vec3f F) : Nat → F → vec3f F → Bool × vec3f F
  | 0, _, hit_point => (false, hit_point)
  | n + 1, depth, _ =>
    let hit_point : vec3f F :=
      ⟨cam_origin.x + ray_dir.x * depth, cam_origin.y + ray_dir.y * depth,
        cam_origin.z + ray_dir.z * depth⟩
    let dist := scene_sdf hit_point
    if dist < SURF_DIST then (true, hit_point)
    else
      let depth' := depth + dist
      if depth' > MAX_DIST then (false, hit_point)
      else ray_march cam_origin ray_dir n depth' hit_point

/-- The colour of a hit, lines 224-230. -/
def shade_hit (hit_point : vec3f F) : Nat × Nat × Nat :=
  let normal := compute_normal hit_point
  let diffuse0 : F :=
    normal.x * (light_dir : vec3f F).x + normal.y * (light_dir : vec3f F).y
      + normal.z * (light_dir : vec3f F).z
  let diffuse : F := if diffuse0 < 0.0 then 0.0 else diffuse0
  let intensity : F := 0.15 + diffuse * 0.85
  (to_uchar (220.0 * intensity), to_uchar (120.0 * intensity), to_uchar (80.0 * intensity))

/-- The background gradient of a miss, lines 233-236. -/
def shade_background (v : F) : Nat × Nat × Nat :=
  let t : F := (v + 1.0) * 0.5
  (to_uchar (25.0 + t * 15.0), to_uchar (25.0 + t * 20.0), to_uchar (40.0 + t * 30.0))

/-- Lines 201-204 and 205-219 for one pixel: the pair `(hit, hit_point)`. -/
def pixel_trace (width height : Int) (cam_x cam_y cam_z cam_yaw cam_pitch : F)
    (py px : Int) : Bool × vec3f F :=
  let cam_origin : vec3f F := vec3f_make cam_x cam_y cam_z
  let ray_dir := pixel_ray_dir width height cam_yaw cam_pitch py px
  ray_march cam_origin ray_dir MAX_STEPS 0.0 cam_origin

/-- The `(r, g, b)` bytes of pixel `(px, py)`, lines 178-237. -/
def pixel_rgb (width height : Int) (cam_x cam_y cam_z cam_yaw cam_pitch : F)
    (py px : Int) : Nat × Nat × Nat :=
  let tr := pixel_trace width height cam_x cam_y cam_z cam_yaw cam_pitch py px
  if tr.1 then shade_hit tr.2 else shade_background (row_v height py : F)

/-- The pixel memory behind `buf->image.data`. -/
structure PixelBuffer where
  /-- The byte at each signed offset from the base pointer `pixels`. -/
  data : Int → Nat
  /-- Ghost state: the offsets stored to so far, oldest first. -/
  writes : List Int

/-- A one-byte store `pixels[off] = v`. -/
def PixelBuffer.store (b : PixelBuffer) (off : Int) (v : Nat) : PixelBuffer :=
  ⟨fun a => if a = off then v else b.data a, b.writes ++ [off]⟩

/-- The four stores of lines 240-243 for pixel `(px, py)`; `row` is
`pixels + py * stride` with `stride = width * 4` (lines 164, 178). -/
def write_pixel (width : Int) (py px : Int) (rgb : Nat × Nat × Nat) (b : PixelBuffer) :
    PixelBuffer :=
  let stride := wrap32 (width * 4)
  let row := wrap32 (py * stride)
  let b := b.store (row + wrap32 (wrap32 (px * 4) + 0)) rgb.1
  let b := b.store (row + wrap32 (wrap32 (px * 4) + 1)) rgb.2.1
  let b := b.store (row + wrap32 (wrap32 (px * 4) + 2)) rgb.2.2
  b.store (row + wrap32 (wrap32 (px * 4) + 3)) 255

/-- The inner loop `for (px = 0; px < width; px++)`, lines 185-244. -/
def render_row (width height : Int) (cam_x cam_y cam_z cam_yaw cam_pitch : F)
    (py : Int) (b : PixelBuffer) : PixelBuffer :=
  (List.range width.toNat).foldl
    (fun b (px : Nat) =>
      write_pixel width py (px : Int)
        (pixel_rgb width height cam_x cam_y cam_z cam_yaw cam_pitch py (px : Int)) b) b

/-- Function `srl_render_sdf_scene`, lines 143-246; `buf` is `none` for a null `buf_ptr`. -/
def srl_render_sdf_scene (buf : Option PixelBuffer) (width height : Int)
    (cam_x cam_y cam_z cam_yaw cam_pitch : F) : Option PixelBuffer :=
  match buf with
  | none => none
  | some b =>
    some ((List.range height.toNat).foldl
      (fun b (py : Nat) =>
        render_row width height cam_x cam_y cam_z cam_yaw cam_pitch (py : Int) b) b)

/-- The `intensity` of a hit, lines 224-227. -/
def hit_intensity (hit_point : vec3f F) : F :=
  let normal := compute_normal hit_point
  let diffuse0 : F :=
    normal.x * (light_dir : vec3f F).x + normal.y * (light_dir : vec3f F).y
      + normal.z * (light_dir : vec3f F).z
  let diffuse : F := if diffuse0 < 0.0 then 0.0 else diffuse0
  0.15 + diffuse * 0.85

/-- The sphere-tracing loop in the words of the specification (section 4.3, step 3):
as `ray_march`, except that a step that is not a hit advances the marched distance by
`distance * 1.2`, the factor `RELAX`. -/
def spec_ray_march (cam_origin ray_dir : vec3f F) : Nat → F → vec3f F → Bool × vec3f F
  | 0, _, hit_point => (false, hit_point)
  | n + 1, depth, _ =>
    let hit_point : vec3f F :=
      ⟨cam_origin.x + ray_dir.x * depth, cam_origin.y + ray_dir.y * depth,
        cam_origin.z + ray_dir.z * depth⟩
    let dist := scene_sdf hit_point
    if dist < SURF_DIST then (true, hit_point)
    else
      let depth' := depth + dist * RELAX
      if depth' > MAX_DIST then (false, hit_point)
      else spec_ray_march cam_origin ray_dir n depth' hit_point

/-- The byte that a render of a `width` x `height` image leaves at byte offset `a`
of the pixel memory: channel `a % 4` of pixel `(px, py)` with `py * width + px = a / 4`. -/
def rendered_byte (width height : Int) (cam_x cam_y cam_z cam_yaw cam_pitch : F)
    (a : Nat) : Nat :=
  let py : Nat := a / 4 / width.toNat
  let px : Nat := a / 4 % width.toNat
  let rgb := pixel_rgb width height cam_x cam_y cam_z cam_yaw cam_pitch py px
  if a % 4 = 0 then rgb.1
  else if a % 4 = 1 then rgb.2.1
  else if a % 4 = 2 then rgb.2.2
  else 255

/-- The state of the pixel memory after the first `k` pixels (in row-major order) of a
render started in `b0`: the bytes `0 .. 4k-1` have been stored once each, in this order,
and hold their rendered value; every other byte is as in `b0`. -/
def RenderedUpTo (width height : Int) (cam_x cam_y cam_z cam_yaw cam_pitch : F)
    (b0 : PixelBuffer) (k : Nat) (b : PixelBuffer) : Prop :=
  b.writes = b0.writes ++ (List.range (4 * k)).map Int.ofNat ∧
  ∀ a : Int, b.data a =
    if 0 ≤ a ∧ a < 4 * (k : Int) then
      rendered_byte width height cam_x cam_y cam_z cam_yaw cam_pitch a.toNat
    else b0.data a

/-- The stores that lead from `b0` to `b` all go to offsets satisfying `P`: the log grew
by such offsets only and every byte at an offset outside `P` is unchanged. -/
def StoresWithin (P : Int → Prop) (b0 b : PixelBuffer) : Prop :=
  (∃ l : List Int, b.writes = b0.writes ++ l ∧ ∀ a ∈ l, P a) ∧
  ∀ a : Int, ¬ P a → b.data a = b0.data a

end Render

/-! ## Lemmas on the scalar helpers -/

section KernelLemmas

variable {F : Type} [LinearOrderedField F]

theorem maxf_eq_max (a b : F) : maxf a b = max a b := by
  unfold maxf
  split_ifs with h
  · exact (max_eq_left (le_of_lt h)).symm
  · exact (max_eq_right (not_lt.mp h)).symm

theorem minf_eq_min (a b : F) : minf a b = min a b := by
  unfold minf
  split_ifs with h
  · exact (min_eq_left (le_of_lt h)).symm
  · exact (min_eq_right (not_lt.mp h)).symm

theorem absf_eq_abs (a : F) : absf a = |a| := by
  unfold absf
  split_ifs with h
  · exact (abs_of_neg h).symm
  · exact (abs_of_nonneg (not_lt.mp h)).symm

/-- The amount subtracted by `sdf_smooth_min` is `h * h * k / 4` with `0 ≤ h`. -/
theorem sdf_smooth_min_eq (a b k : F) :
    sdf_smooth_min a b k
      = min a b - (max (k - |a - b|) 0 / k) * (max (k - |a - b|) 0 / k) * k * 0.25 := by
  unfold sdf_smooth_min
  simp only [minf_eq_min, maxf_eq_max, absf_eq_abs]
  norm_num

theorem smooth_term_nonneg (a b k : F) (hk : 0 < k) :
    0 ≤ (max (k - |a - b|) 0 / k) * (max (k - |a - b|) 0 / k) * k * 0.25 := by
  have h1 : (0 : F) ≤ (max (k - |a - b|) 0 / k) * (max (k - |a - b|) 0 / k) :=
    mul_self_nonneg _
  have h2 : (0 : F) ≤ 0.25 := by norm_num
  exact mul_nonneg (mul_nonneg h1 hk.le) h2

/-- The blend never lowers the minimum by more than `k / 4`. -/
theorem smooth_term_le (a b k : F) (hk : 0 < k) :
    (max (k - |a - b|) 0 / k) * (max (k - |a - b|) 0 / k) * k * 0.25 ≤ k * 0.25 := by
  have h0 : (0 : F) ≤ max (k - |a - b|) 0 / k := div_nonneg (le_max_right _ _) hk.le
  have h1 : max (k - |a - b|) 0 / k ≤ 1 := by
    rw [div_le_one hk]
    exact max_le (by linarith [abs_nonneg (a - b)]) hk.le
  have h2 : (max (k - |a - b|) 0 / k) * (max (k - |a - b|) 0 / k) ≤ 1 := by nlinarith
  have h3 : (0 : F) ≤ 0.25 := by norm_num
  nlinarith

/-- Outside the blend radius the smooth minimum is the plain minimum. -/
theorem sdf_smooth_min_far (a b k : F) (h : k ≤ |a - b|) :
    sdf_smooth_min a b k = min a b := by
  rw [sdf_smooth_min_eq]
  have h1 : max (k - |a - b|) 0 = 0 := max_eq_right (by linarith)
  rw [h1]
  simp

end KernelLemmas

section SqrtLemmas

variable {F : Type} [LinearOrderedField F] [Libm F]

theorem sqrtf_zero : Sqrtf.sqrtf (0 : F) = 0 := by
  have h := Libm.sqrtf_mul_self (0 : F) le_rfl
  exact mul_self_eq_zero.mp h

theorem sqrtf_pos (x : F) (hx : 0 < x) : 0 < Sqrtf.sqrtf x := by
  rcases (Libm.sqrtf_nonneg x).lt_or_eq with h | h
  · exact h
  · have h2 := Libm.sqrtf_mul_self x hx.le
    rw [← h] at h2
    simp at h2
    exact absurd h2.symm (ne_of_gt hx)

theorem le_sqrtf (x c : F) (hx : 0 ≤ x) (hc : c * c ≤ x) : c ≤ Sqrtf.sqrtf x := by
  by_contra h
  push_neg at h
  have h0 := Libm.sqrtf_nonneg x
  have h2 := Libm.sqrtf_mul_self x hx
  nlinarith

theorem sqrtf_le (x c : F) (hx : 0 ≤ x) (hc0 : 0 ≤ c) (hc : x ≤ c * c) :
    Sqrtf.sqrtf x ≤ c := by
  by_contra h
  push_neg at h
  have h2 := Libm.sqrtf_mul_self x hx
  nlinarith

theorem sqrtf_mul_self_eq (c : F) (hc : 0 ≤ c) : Sqrtf.sqrtf (c * c) = c :=
  le_antisymm (sqrtf_le _ _ (mul_self_nonneg c) hc le_rfl)
    (le_sqrtf _ _ (mul_self_nonneg c) le_rfl)

end SqrtLemmas

section SceneLemmas

variable {F : Type} [LinearOrderedField F] [Libm F]

theorem sdf_sphere_origin (p : vec3f F) :
    sdf_sphere p (vec3f_make 0 0 0) 1.0
      = Sqrtf.sqrtf (p.x * p.x + p.y * p.y + p.z * p.z) - 1 := by
  simp only [sdf_sphere, vec3f_length, vec3f_length_sq, vec3f_sub, vec3f_make, sub_zero]
  norm_num

theorem sdf_box_eq (p c hs : vec3f F) :
    sdf_box p c hs
      = Sqrtf.sqrtf (max (|p.x - c.x| - hs.x) 0 * max (|p.x - c.x| - hs.x) 0
          + max (|p.y - c.y| - hs.y) 0 * max (|p.y - c.y| - hs.y) 0
          + max (|p.z - c.z| - hs.z) 0 * max (|p.z - c.z| - hs.z) 0)
        + min (max (|p.x - c.x| - hs.x) (max (|p.y - c.y| - hs.y) (|p.z - c.z| - hs.z))) 0 := by
  simp [sdf_box, vec3f_length, vec3f_length_sq, vec3f_sub, vec3f_make, maxf_eq_max, minf_eq_min,
    absf_eq_abs]

end SceneLemmas

section SceneClaims

variable {F : Type} [LinearOrderedField F] [Libm F]

theorem scene_sdf_eq (p : vec3f F) :
    scene_sdf p
      = min (sdf_smooth_min (sdf_sphere p (vec3f_make 0 0 0) 1.0)
          (sdf_box p (vec3f_make 2.0 0 0) (vec3f_make 0.4 0.4 0.4)) 0.3) (p.y + 1.5) := by
  simp only [scene_sdf, minf_eq_min, sdf_plane, sub_neg_eq_add]

theorem sdf_box_ge_x (p c hs : vec3f F) (h : 0 ≤ |p.x - c.x| - hs.x) :
    |p.x - c.x| - hs.x ≤ sdf_box p c hs := by
  rw [sdf_box_eq]
  have hm : 0 ≤ max (|p.x - c.x| - hs.x) (max (|p.y - c.y| - hs.y) (|p.z - c.z| - hs.z)) :=
    le_trans h (le_max_left _ _)
  rw [min_eq_right hm, add_zero, max_eq_left h]
  have h2 := mul_self_nonneg (max (|p.y - c.y| - hs.y) 0)
  have h3 := mul_self_nonneg (max (|p.z - c.z| - hs.z) 0)
  have h1 := mul_self_nonneg (|p.x - c.x| - hs.x)
  exact le_sqrtf _ _ (by linarith) (by linarith)

theorem sdf_box_ge_y (p c hs : vec3f F) (h : 0 ≤ |p.y - c.y| - hs.y) :
    |p.y - c.y| - hs.y ≤ sdf_box p c hs := by
  rw [sdf_box_eq]
  have hm : 0 ≤ max (|p.x - c.x| - hs.x) (max (|p.y - c.y| - hs.y) (|p.z - c.z| - hs.z)) :=
    le_trans (le_trans h (le_max_left _ _)) (le_max_right _ _)
  rw [min_eq_right hm, add_zero, max_eq_left h]
  have h2 := mul_self_nonneg (max (|p.x - c.x| - hs.x) 0)
  have h3 := mul_self_nonneg (max (|p.z - c.z| - hs.z) 0)
  have h1 := mul_self_nonneg (|p.y - c.y| - hs.y)
  exact le_sqrtf _ _ (by linarith) (by linarith)

theorem sdf_box_ge_z (p c hs : vec3f F) (h : 0 ≤ |p.z - c.z| - hs.z) :
    |p.z - c.z| - hs.z ≤ sdf_box p c hs := by
  rw [sdf_box_eq]
  have hm : 0 ≤ max (|p.x - c.x| - hs.x) (max (|p.y - c.y| - hs.y) (|p.z - c.z| - hs.z)) :=
    le_trans (le_trans h (le_max_right _ _)) (le_max_right _ _)
  rw [min_eq_right hm, add_zero, max_eq_left h]
  have h2 := mul_self_nonneg (max (|p.x - c.x| - hs.x) 0)
  have h3 := mul_self_nonneg (max (|p.y - c.y| - hs.y) 0)
  have h1 := mul_self_nonneg (|p.z - c.z| - hs.z)
  exact le_sqrtf _ _ (by linarith) (by linarith)

/-- On the unit sphere the box of the scene is at distance at least `0.6`. -/
theorem scene_box_on_unit_sphere (p : vec3f F) (h1 : p.x * p.x + p.y * p.y + p.z * p.z = 1) :
    0.6 ≤ sdf_box p (vec3f_make 2.0 0 0) (vec3f_make 0.4 0.4 0.4) := by
  have hx : p.x ≤ 1 := by nlinarith [mul_self_nonneg p.y, mul_self_nonneg p.z]
  have habs : (1 : F) ≤ |p.x - 2.0| := by
    rw [abs_of_nonpos (by norm_num; linarith)]
    norm_num
    linarith
  have hd : (0.6 : F) ≤ |p.x - (vec3f_make 2.0 0 0 : vec3f F).x| - (vec3f_make 0.4 0.4 0.4 : vec3f F).x := by
    simp only [vec3f_make]
    norm_num at habs ⊢
    linarith
  exact le_trans hd (sdf_box_ge_x _ _ _ (le_trans (by norm_num) hd))

/-- The scene distance vanishes on the whole unit sphere. -/
theorem scene_sdf_on_unit_sphere (p : vec3f F)
    (h1 : p.x * p.x + p.y * p.y + p.z * p.z = 1) : scene_sdf p = 0 := by
  rw [scene_sdf_eq]
  have hs : sdf_sphere p (vec3f_make 0 0 0) 1.0 = 0 := by
    rw [sdf_sphere_origin, h1]
    have := sqrtf_mul_self_eq (1 : F) zero_le_one
    rw [mul_one] at this
    rw [this, sub_self]
  have hb := scene_box_on_unit_sphere p h1
  have hfar : (0.3 : F) ≤ |sdf_sphere p (vec3f_make 0 0 0) 1.0
      - sdf_box p (vec3f_make 2.0 0 0) (vec3f_make 0.4 0.4 0.4)| := by
    rw [hs, zero_sub, abs_neg]
    exact le_trans (le_trans (by norm_num) hb) (le_abs_self _)
  rw [sdf_smooth_min_far _ _ _ hfar, hs]
  have hy : -1 ≤ p.y := by nlinarith [mul_self_nonneg p.x, mul_self_nonneg p.z]
  rw [min_eq_left (le_trans (by norm_num) hb)]
  exact min_eq_left (by norm_num; linarith)

/-- Every point of the unit sphere is away from the blend region of the box. -/
theorem unit_sphere_away_from_blend (p : vec3f F)
    (h1 : p.x * p.x + p.y * p.y + p.z * p.z = 1) :
    0.3 ≤ |sdf_box p (vec3f_make 2.0 0 0) (vec3f_make 0.4 0.4 0.4)
        - sdf_sphere p (vec3f_make 0 0 0) 1.0| := by
  have hs : sdf_sphere p (vec3f_make 0 0 0) 1.0 = 0 := by
    rw [sdf_sphere_origin, h1]
    have := sqrtf_mul_self_eq (1 : F) zero_le_one
    rw [mul_one] at this
    rw [this, sub_self]
  rw [hs, sub_zero]
  exact le_trans (le_trans (by norm_num) (scene_box_on_unit_sphere p h1)) (le_abs_self _)

/-- C6. On the unit sphere, away from the blend region of the box (box and sphere
distances differ by at least `0.3`), the scene distance is below `1e-4` in absolute
value. -/
theorem scene_sdf_small_on_sphere (p : vec3f F)
    (h1 : p.x * p.x + p.y * p.y + p.z * p.z = 1)
    (_h2 : 0.3 ≤ |sdf_box p (vec3f_make 2.0 0 0) (vec3f_make 0.4 0.4 0.4)
        - sdf_sphere p (vec3f_make 0 0 0) 1.0|) :
    |scene_sdf p| < 1e-4 := by
  rw [scene_sdf_on_unit_sphere p h1, abs_zero]
  norm_num

/-- Witness of C6 on the real numbers: the north pole `(0, 1, 0)`. -/
theorem scene_sdf_small_on_sphere_witness :
    |scene_sdf (vec3f_make 0 1 0 : vec3f ℝ)| < 1e-4 :=
  scene_sdf_small_on_sphere (vec3f_make 0 1 0 : vec3f ℝ)
    (by simp only [vec3f_make]; norm_num)
    (unit_sphere_away_from_blend _ (by simp only [vec3f_make]; norm_num))

end SceneClaims

section SmoothMinClaim

variable {F : Type} [LinearOrderedField F]

/-- C3. For all `a`, `b` and every `k > 0`, `sdf_smooth_min a b k` is at most
`min a b`: the blend never increases the distance. -/
theorem sdf_smooth_min_le_min (a b k : F) (hk : 0 < k) : sdf_smooth_min a b k ≤ min a b := by
  rw [sdf_smooth_min_eq]
  linarith [smooth_term_nonneg a b k hk]

/-- Witness of C3 on the rationals, inside the blend radius: `a = 1`, `b = 5/4`,
`k = 1/2`. -/
theorem sdf_smooth_min_le_min_witness :
    (0 : ℚ) < 1 / 2 ∧ sdf_smooth_min (1 : ℚ) (5 / 4) (1 / 2) ≤ min 1 (5 / 4) :=
  ⟨by norm_num, sdf_smooth_min_le_min 1 (5 / 4) (1 / 2) (by norm_num)⟩

end SmoothMinClaim


section RenderLemmas

variable {F : Type} [LinearOrderedField F] [FloorRing F] [Libm F]

theorem wrap32_eq (n : Int) (h1 : -2147483648 ≤ n) (h2 : n < 2147483648) : wrap32 n = n := by
  unfold wrap32
  omega

/-- Invariant rule for a counted loop. -/
theorem foldl_range_invariant {S : Type} (f : S → Nat → S) (Inv : Nat → S → Prop) (n : Nat)
    (s0 : S) (h0 : Inv 0 s0) (hstep : ∀ i, i < n → ∀ s, Inv i s → Inv (i + 1) (f s i)) :
    Inv n ((List.range n).foldl f s0) := by
  induction n with
  | zero => simpa using h0
  | succ k ih =>
    rw [List.range_succ, List.foldl_append]
    simp only [List.foldl_cons, List.foldl_nil]
    exact hstep k (Nat.lt_succ_self k) _
      (ih (fun i hi s hs => hstep i (Nat.lt_succ_of_lt hi) s hs))

/-- Without overflow the four stores of pixel `(px, py)` go to `4 * (py * width + px) + c`. -/
theorem pixel_offsets (width height : Int) (py px : Nat) (hw : 0 < width) (hh : 0 < height)
    (hsz : width * height * 4 ≤ 2147483647) (hpy : (py : Int) < height)
    (hpx : (px : Int) < width) (c : Int) (hc0 : 0 ≤ c) (hc3 : c ≤ 3) :
    wrap32 ((py : Int) * wrap32 (width * 4)) + wrap32 (wrap32 ((px : Int) * 4) + c)
      = (py : Int) * (width * 4) + (px : Int) * 4 + c := by
  have hpy0 : (0 : Int) ≤ py := Int.ofNat_nonneg py
  have hpx0 : (0 : Int) ≤ px := Int.ofNat_nonneg px
  have h1 : width * 4 ≤ width * height * 4 := by nlinarith
  have h2 : (py : Int) * (width * 4) + width * 4 ≤ width * height * 4 := by nlinarith
  have h3 : (0 : Int) ≤ (py : Int) * (width * 4) := by positivity
  rw [wrap32_eq (width * 4) (by linarith) (by linarith)]
  rw [wrap32_eq ((py : Int) * (width * 4)) (by linarith) (by linarith)]
  rw [wrap32_eq ((px : Int) * 4) (by linarith) (by linarith)]
  rw [wrap32_eq ((px : Int) * 4 + c) (by linarith) (by linarith)]
  ring

theorem rendered_byte_at (width height : Int) (cam_x cam_y cam_z cam_yaw cam_pitch : F)
    (py px : Nat) (hpx : px < width.toNat) (c : Nat) (hc : c < 4) :
    rendered_byte width height cam_x cam_y cam_z cam_yaw cam_pitch
        (4 * (py * width.toNat + px) + c)
      = (if c = 0 then (pixel_rgb width height cam_x cam_y cam_z cam_yaw cam_pitch py px).1
        else if c = 1 then
          (pixel_rgb width height cam_x cam_y cam_z cam_yaw cam_pitch py px).2.1
        else if c = 2 then
          (pixel_rgb width height cam_x cam_y cam_z cam_yaw cam_pitch py px).2.2
        else 255) := by
  have h4 : (4 * (py * width.toNat + px) + c) / 4 = py * width.toNat + px := by omega
  have hm : (4 * (py * width.toNat + px) + c) % 4 = c := by omega
  have hdiv : (py * width.toNat + px) / width.toNat = py := by
    rw [Nat.add_comm, Nat.add_mul_div_right _ _ (by omega), Nat.div_eq_of_lt hpx, Nat.zero_add]
  have hmod : (py * width.toNat + px) % width.toNat = px := by
    rw [Nat.add_comm, Nat.add_mul_mod_self_right, Nat.mod_eq_of_lt hpx]
  unfold rendered_byte
  simp only [h4, hm, hdiv, hmod]

end RenderLemmas
section RenderLemmas2

variable {F : Type} [LinearOrderedField F] [FloorRing F] [Libm F]

theorem range_four_succ (k : Nat) :
    List.range (4 * (k + 1)) = List.range (4 * k) ++ [4 * k, 4 * k + 1, 4 * k + 2, 4 * k + 3] := by
  have h : 4 * (k + 1) = (((4 * k).succ).succ).succ.succ := by omega
  rw [h, List.range_succ, List.range_succ, List.range_succ, List.range_succ]
  simp

/-- One pixel of the inner loop advances the rendered prefix by one pixel. -/
theorem write_pixel_step (width height : Int) (cam_x cam_y cam_z cam_yaw cam_pitch : F)
    (b0 b : PixelBuffer) (py px : Nat) (hw : 0 < width) (hh : 0 < height)
    (hsz : width * height * 4 ≤ 2147483647) (hpy : (py : Int) < height)
    (hpx : (px : Int) < width)
    (hinv : RenderedUpTo width height cam_x cam_y cam_z cam_yaw cam_pitch b0
      (py * width.toNat + px) b) :
    RenderedUpTo width height cam_x cam_y cam_z cam_yaw cam_pitch b0
      (py * width.toNat + px + 1)
      (write_pixel width py px
        (pixel_rgb width height cam_x cam_y cam_z cam_yaw cam_pitch py px) b) := by
  obtain ⟨hwr, hdat⟩ := hinv
  have hW : ((width.toNat : Nat) : Int) = width := Int.toNat_of_nonneg hw.le
  have hpxn : px < width.toNat := by omega
  have hk : ∀ c : Int, (py : Int) * (width * 4) + (px : Int) * 4 + c
      = ((4 * (py * width.toNat + px) : Nat) : Int) + c := by
    intro c
    push_cast
    rw [hW]
    ring
  have o0 := pixel_offsets width height py px hw hh hsz hpy hpx 0 le_rfl (by norm_num)
  have o1 := pixel_offsets width height py px hw hh hsz hpy hpx 1 (by norm_num) (by norm_num)
  have o2 := pixel_offsets width height py px hw hh hsz hpy hpx 2 (by norm_num) (by norm_num)
  have o3 := pixel_offsets width height py px hw hh hsz hpy hpx 3 (by norm_num) le_rfl
  rw [hk] at o0 o1 o2 o3
  have r0 := rendered_byte_at width height cam_x cam_y cam_z cam_yaw cam_pitch py px hpxn 0
    (by norm_num)
  have r1 := rendered_byte_at width height cam_x cam_y cam_z cam_yaw cam_pitch py px hpxn 1
    (by norm_num)
  have r2 := rendered_byte_at width height cam_x cam_y cam_z cam_yaw cam_pitch py px hpxn 2
    (by norm_num)
  have r3 := rendered_byte_at width height cam_x cam_y cam_z cam_yaw cam_pitch py px hpxn 3
    (by norm_num)
  simp only [if_true, if_false, Nat.one_ne_zero, OfNat.ofNat_ne_zero, OfNat.ofNat_ne_one,
    Nat.succ_ne_self, add_zero] at r0 r1 r2 r3
  generalize hkk : py * width.toNat + px = k at *
  generalize pixel_rgb width height cam_x cam_y cam_z cam_yaw cam_pitch py px = rgb at *
  unfold write_pixel
  simp only [PixelBuffer.store, o0, o1, o2, o3]
  constructor
  · rw [hwr, range_four_succ]
    simp [List.map_append]
  · intro a
    dsimp only
    rw [hdat a]
    by_cases h3 : a = ((4 * k : Nat) : Int) + 3
    · have ht : a.toNat = 4 * k + 3 := by omega
      rw [if_pos h3, if_pos (by omega), ht, r3]
    · rw [if_neg h3]
      by_cases h2 : a = ((4 * k : Nat) : Int) + 2
      · have ht : a.toNat = 4 * k + 2 := by omega
        rw [if_pos h2, if_pos (by omega), ht, r2]
      · rw [if_neg h2]
        by_cases h1 : a = ((4 * k : Nat) : Int) + 1
        · have ht : a.toNat = 4 * k + 1 := by omega
          rw [if_pos h1, if_pos (by omega), ht, r1]
        · rw [if_neg h1]
          by_cases h0 : a = ((4 * k : Nat) : Int) + 0
          · have ht : a.toNat = 4 * k := by omega
            rw [if_pos h0, if_pos (by omega), ht, r0]
          · rw [if_neg h0]
            by_cases hin : 0 ≤ a ∧ a < 4 * (k : Int)
            · rw [if_pos hin, if_pos (by omega)]
            · rw [if_neg hin, if_neg (by omega)]

end RenderLemmas2
section RenderLoops

variable {F : Type} [LinearOrderedField F] [FloorRing F] [Libm F]

/-- Row `py` of the outer loop advances the rendered prefix by one row. -/
theorem render_row_step (width height : Int) (cam_x cam_y cam_z cam_yaw cam_pitch : F)
    (b0 b : PixelBuffer) (py : Nat) (hw : 0 < width) (hh : 0 < height)
    (hsz : width * height * 4 ≤ 2147483647) (hpy : (py : Int) < height)
    (hinv : RenderedUpTo width height cam_x cam_y cam_z cam_yaw cam_pitch b0
      (py * width.toNat) b) :
    RenderedUpTo width height cam_x cam_y cam_z cam_yaw cam_pitch b0
      ((py + 1) * width.toNat)
      (render_row width height cam_x cam_y cam_z cam_yaw cam_pitch py b) := by
  unfold render_row
  have h := foldl_range_invariant
    (fun b (px : Nat) => write_pixel width py px
      (pixel_rgb width height cam_x cam_y cam_z cam_yaw cam_pitch py px) b)
    (fun n s => RenderedUpTo width height cam_x cam_y cam_z cam_yaw cam_pitch b0
      (py * width.toNat + n) s)
    width.toNat b (by simpa using hinv)
    (fun i hi s hs => by
      have hi2 : (i : Int) < width := by omega
      exact write_pixel_step width height cam_x cam_y cam_z cam_yaw cam_pitch b0 s py i
        hw hh hsz hpy hi2 hs)
  have e : (py + 1) * width.toNat = py * width.toNat + width.toNat := by ring
  rw [e]
  exact h

/-- Functional correctness of the store loops: without `int` overflow a render started
in `b0` returns `b0` with the bytes `0 .. 4 * width * height - 1` rendered. -/
theorem render_rendered (width height : Int) (cam_x cam_y cam_z cam_yaw cam_pitch : F)
    (b0 : PixelBuffer) (hw : 0 < width) (hh : 0 < height)
    (hsz : width * height * 4 ≤ 2147483647) :
    ∃ b, srl_render_sdf_scene (some b0) width height cam_x cam_y cam_z cam_yaw cam_pitch
        = some b ∧
      RenderedUpTo width height cam_x cam_y cam_z cam_yaw cam_pitch b0
        (height.toNat * width.toNat) b := by
  refine ⟨_, rfl, ?_⟩
  exact foldl_range_invariant
    (fun b (py : Nat) => render_row width height cam_x cam_y cam_z cam_yaw cam_pitch py b)
    (fun n s => RenderedUpTo width height cam_x cam_y cam_z cam_yaw cam_pitch b0
      (n * width.toNat) s)
    height.toNat b0 ⟨by simp, fun a => by rw [if_neg (by omega)]⟩
    (fun i hi s hs => by
      have hi2 : (i : Int) < height := by omega
      exact render_row_step width height cam_x cam_y cam_z cam_yaw cam_pitch b0 s i
        hw hh hsz hi2 hs)

theorem storesWithin_refl (P : Int → Prop) (b : PixelBuffer) : StoresWithin P b b :=
  ⟨⟨[], by simp, by simp⟩, fun _ _ => rfl⟩

theorem storesWithin_store (P : Int → Prop) (b0 b : PixelBuffer) (off : Int) (v : Nat)
    (h : StoresWithin P b0 b) (hoff : P off) : StoresWithin P b0 (b.store off v) := by
  obtain ⟨⟨l, hl, hP⟩, hd⟩ := h
  refine ⟨⟨l ++ [off], ?_, ?_⟩, ?_⟩
  · simp [PixelBuffer.store, hl]
  · intro a ha
    rcases List.mem_append.mp ha with h1 | h1
    · exact hP a h1
    · rw [List.mem_singleton.mp h1]
      exact hoff
  · intro a ha
    have hne : a ≠ off := fun e => ha (e ▸ hoff)
    simp [PixelBuffer.store, hne, hd a ha]

/-- The frame of a render, with or without overflow: if the offsets computed for the
pixels of the image all satisfy `P`, the render stores within `P`. -/
theorem render_storesWithin (P : Int → Prop) (width height : Int)
    (cam_x cam_y cam_z cam_yaw cam_pitch : F) (b0 : PixelBuffer)
    (hP : ∀ py px : Nat, py < height.toNat → px < width.toNat → ∀ c : Int, 0 ≤ c → c ≤ 3 →
      P (wrap32 ((py : Int) * wrap32 (width * 4)) + wrap32 (wrap32 ((px : Int) * 4) + c))) :
    ∃ b, srl_render_sdf_scene (some b0) width height cam_x cam_y cam_z cam_yaw cam_pitch
        = some b ∧ StoresWithin P b0 b := by
  refine ⟨_, rfl, ?_⟩
  refine foldl_range_invariant
    (fun b (py : Nat) => render_row width height cam_x cam_y cam_z cam_yaw cam_pitch py b)
    (fun _ s => StoresWithin P b0 s) height.toNat b0 (storesWithin_refl P b0) ?_
  intro py hpy s hs
  refine foldl_range_invariant
    (fun b (px : Nat) => write_pixel width py px
      (pixel_rgb width height cam_x cam_y cam_z cam_yaw cam_pitch py px) b)
    (fun _ s => StoresWithin P b0 s) width.toNat s hs ?_
  intro px hpx t ht
  unfold write_pixel
  exact storesWithin_store P b0 _ _ _
    (storesWithin_store P b0 _ _ _
      (storesWithin_store P b0 _ _ _
        (storesWithin_store P b0 _ _ _ ht (hP py px hpy hpx 0 le_rfl (by norm_num)))
        (hP py px hpy hpx 1 (by norm_num) (by norm_num)))
      (hP py px hpy hpx 2 (by norm_num) (by norm_num)))
    (hP py px hpy hpx 3 (by norm_num) le_rfl)

end RenderLoops
section RenderClaims

variable {F : Type} [LinearOrderedField F] [FloorRing F] [Libm F]

theorem wrap32_lt (n : Int) : wrap32 n < 2147483648 := by
  unfold wrap32
  omega

/-- The channel `c` of pixel `(px, py)` in a fully rendered image. -/
theorem rendered_channel (width height : Int) (cam_x cam_y cam_z cam_yaw cam_pitch : F)
    (b0 b : PixelBuffer) (hw : 0 < width)
    (hb : RenderedUpTo width height cam_x cam_y cam_z cam_yaw cam_pitch b0
      (height.toNat * width.toNat) b)
    (py px c : Nat) (hpy : py < height.toNat) (hpx : px < width.toNat) (hc : c < 4) :
    b.data ((py : Int) * (width * 4) + (px : Int) * 4 + (c : Int))
      = (if c = 0 then (pixel_rgb width height cam_x cam_y cam_z cam_yaw cam_pitch py px).1
        else if c = 1 then
          (pixel_rgb width height cam_x cam_y cam_z cam_yaw cam_pitch py px).2.1
        else if c = 2 then
          (pixel_rgb width height cam_x cam_y cam_z cam_yaw cam_pitch py px).2.2
        else 255) := by
  have hW : ((width.toNat : Nat) : Int) = width := Int.toNat_of_nonneg hw.le
  have e : (py : Int) * (width * 4) + (px : Int) * 4 + (c : Int)
      = ((4 * (py * width.toNat + px) + c : Nat) : Int) := by
    push_cast
    rw [hW]
    ring
  have hlt : 4 * (py * width.toNat + px) + c < 4 * (height.toNat * width.toNat) := by
    have h1 : (py + 1) * width.toNat ≤ height.toNat * width.toNat :=
      Nat.mul_le_mul_right _ hpy
    have h2 : (py + 1) * width.toNat = py * width.toNat + width.toNat := by ring
    omega
  rw [e, hb.2, if_pos (by omega), Int.toNat_ofNat,
    rendered_byte_at width height cam_x cam_y cam_z cam_yaw cam_pitch py px hpx c hc]

/-- Each byte of a fully rendered image was stored exactly once. -/
theorem rendered_count (width height : Int) (cam_x cam_y cam_z cam_yaw cam_pitch : F)
    (data : Int → Nat) (b : PixelBuffer) (hw : 0 < width)
    (hb : RenderedUpTo width height cam_x cam_y cam_z cam_yaw cam_pitch ⟨data, []⟩
      (height.toNat * width.toNat) b)
    (py px c : Nat) (hpy : py < height.toNat) (hpx : px < width.toNat) (hc : c < 4) :
    b.writes.count ((py : Int) * (width * 4) + (px : Int) * 4 + (c : Int)) = 1 := by
  have hW : ((width.toNat : Nat) : Int) = width := Int.toNat_of_nonneg hw.le
  have e : (py : Int) * (width * 4) + (px : Int) * 4 + (c : Int)
      = Int.ofNat (4 * (py * width.toNat + px) + c) := by
    simp only [Int.ofNat_eq_coe]
    push_cast
    rw [hW]
    ring
  have hlt : 4 * (py * width.toNat + px) + c < 4 * (height.toNat * width.toNat) := by
    have h1 : (py + 1) * width.toNat ≤ height.toNat * width.toNat :=
      Nat.mul_le_mul_right _ hpy
    have h2 : (py + 1) * width.toNat = py * width.toNat + width.toNat := by ring
    omega
  rw [e, hb.1, List.nil_append]
  apply List.count_eq_one_of_mem
  · exact (List.nodup_range _).map (fun _ _ h => Int.ofNat.inj h)
  · exact List.mem_map.mpr ⟨_, List.mem_range.mpr hlt, rfl⟩

/-- C2. A render with `width <= 0` or `height <= 0` is a no-op: it returns the pixel
memory unchanged, having stored nothing. -/
theorem render_nonpositive_noop (b : PixelBuffer) (width height : Int)
    (cam_x cam_y cam_z cam_yaw cam_pitch : F) (hdim : width ≤ 0 ∨ height ≤ 0) :
    srl_render_sdf_scene (some b) width height cam_x cam_y cam_z cam_yaw cam_pitch = some b := by
  unfold srl_render_sdf_scene
  simp only [Option.some.injEq]
  rcases hdim with h | h
  · exact foldl_range_invariant
      (fun s (py : Nat) => render_row width height cam_x cam_y cam_z cam_yaw cam_pitch py s)
      (fun _ s => s = b) height.toNat b rfl
      (fun i _ s hs => by
        unfold render_row
        rw [Int.toNat_eq_zero.mpr h, hs]
        rfl)
  · rw [Int.toNat_eq_zero.mpr h]
    rfl

/-- Witness of C2 on the real numbers: width `-3` and height `4`. -/
theorem render_nonpositive_noop_witness :
    srl_render_sdf_scene (some ⟨fun _ => 7, []⟩) (-3) 4 (0 : ℝ) 0 5 0 0
      = some ⟨fun _ => 7, []⟩ :=
  render_nonpositive_noop ⟨fun _ => 7, []⟩ (-3) 4 (0 : ℝ) 0 5 0 0 (Or.inl (by norm_num))

end RenderClaims

section StoreClaims

variable {F : Type} [LinearOrderedField F] [FloorRing F] [Libm F]

/-- C1 (amended). When the byte size `width * height * 4` of the image fits an `int`,
a render into a fresh log stores each of the four bytes of every pixel `(px, py)` of
the image exactly once, at offsets `py * (width * 4) + px * 4 + 0 .. 3`, stores nowhere
else, and leaves there the `r`, `g`, `b` of the pixel and the alpha byte `255`. -/
theorem render_writes_each_pixel_once (data : Int → Nat) (width height : Int)
    (cam_x cam_y cam_z cam_yaw cam_pitch : F) (hw : 0 < width) (hh : 0 < height)
    (hsz : width * height * 4 ≤ 2147483647) (px py : Int)
    (hpx0 : 0 ≤ px) (hpx : px < width) (hpy0 : 0 ≤ py) (hpy : py < height) :
    ∃ b, srl_render_sdf_scene (some ⟨data, []⟩) width height
          cam_x cam_y cam_z cam_yaw cam_pitch = some b ∧
      (∀ a ∈ b.writes, 0 ≤ a ∧ a < width * height * 4) ∧
      b.writes.count (py * (width * 4) + px * 4 + 0) = 1 ∧
      b.writes.count (py * (width * 4) + px * 4 + 1) = 1 ∧
      b.writes.count (py * (width * 4) + px * 4 + 2) = 1 ∧
      b.writes.count (py * (width * 4) + px * 4 + 3) = 1 ∧
      b.data (py * (width * 4) + px * 4 + 0)
        = (pixel_rgb width height cam_x cam_y cam_z cam_yaw cam_pitch py px).1 ∧
      b.data (py * (width * 4) + px * 4 + 1)
        = (pixel_rgb width height cam_x cam_y cam_z cam_yaw cam_pitch py px).2.1 ∧
      b.data (py * (width * 4) + px * 4 + 2)
        = (pixel_rgb width height cam_x cam_y cam_z cam_yaw cam_pitch py px).2.2 ∧
      b.data (py * (width * 4) + px * 4 + 3) = 255 := by
  obtain ⟨b, hb, hr⟩ := render_rendered width height cam_x cam_y cam_z cam_yaw cam_pitch
    ⟨data, []⟩ hw hh hsz
  have hW : ((width.toNat : Nat) : Int) = width := Int.toNat_of_nonneg hw.le
  have hH : ((height.toNat : Nat) : Int) = height := Int.toNat_of_nonneg hh.le
  have epx : ((px.toNat : Nat) : Int) = px := Int.toNat_of_nonneg hpx0
  have epy : ((py.toNat : Nat) : Int) = py := Int.toNat_of_nonneg hpy0
  have hpxn : px.toNat < width.toNat := by omega
  have hpyn : py.toNat < height.toNat := by omega
  have cnt := fun c hc => rendered_count width height cam_x cam_y cam_z cam_yaw cam_pitch
    data b hw hr py.toNat px.toNat c hpyn hpxn hc
  have chn := fun c hc => rendered_channel width height cam_x cam_y cam_z cam_yaw cam_pitch
    ⟨data, []⟩ b hw hr py.toNat px.toNat c hpyn hpxn hc
  have c0 := cnt 0 (by norm_num)
  have c1 := cnt 1 (by norm_num)
  have c2 := cnt 2 (by norm_num)
  have c3 := cnt 3 (by norm_num)
  have d0 := chn 0 (by norm_num)
  have d1 := chn 1 (by norm_num)
  have d2 := chn 2 (by norm_num)
  have d3 := chn 3 (by norm_num)
  simp only [epx, epy, Nat.cast_zero, Nat.cast_one, Nat.cast_ofNat, if_true, if_false,
    Nat.one_ne_zero, OfNat.ofNat_ne_zero, OfNat.ofNat_ne_one, Nat.succ_ne_self]
    at c0 c1 c2 c3 d0 d1 d2 d3
  refine ⟨b, hb, ?_, c0, c1, c2, c3, d0, d1, d2, d3⟩
  intro a ha
  rw [hr.1, List.nil_append, List.mem_map] at ha
  obtain ⟨n, hn, rfl⟩ := ha
  have hn2 := List.mem_range.mp hn
  have e : width * height * 4 = ((4 * (height.toNat * width.toNat) : Nat) : Int) := by
    push_cast
    rw [hW, hH]
    ring
  rw [e]
  simp only [Int.ofNat_eq_coe]
  omega

/-- Witness of C1 (amended): pixel `(1, 1)` of a 2 x 2 image, on the real numbers. -/
theorem render_writes_each_pixel_once_witness :
    ∃ b, srl_render_sdf_scene (some ⟨fun _ => 0, []⟩) 2 2 (0 : ℝ) 0 5 0 0 = some b ∧
      (∀ a ∈ b.writes, 0 ≤ a ∧ a < 2 * 2 * 4) ∧
      b.writes.count (1 * (2 * 4) + 1 * 4 + 0) = 1 ∧
      b.writes.count (1 * (2 * 4) + 1 * 4 + 1) = 1 ∧
      b.writes.count (1 * (2 * 4) + 1 * 4 + 2) = 1 ∧
      b.writes.count (1 * (2 * 4) + 1 * 4 + 3) = 1 ∧
      b.data (1 * (2 * 4) + 1 * 4 + 0) = (pixel_rgb 2 2 (0 : ℝ) 0 5 0 0 1 1).1 ∧
      b.data (1 * (2 * 4) + 1 * 4 + 1) = (pixel_rgb 2 2 (0 : ℝ) 0 5 0 0 1 1).2.1 ∧
      b.data (1 * (2 * 4) + 1 * 4 + 2) = (pixel_rgb 2 2 (0 : ℝ) 0 5 0 0 1 1).2.2 ∧
      b.data (1 * (2 * 4) + 1 * 4 + 3) = 255 :=
  render_writes_each_pixel_once (fun _ => 0) 2 2 (0 : ℝ) 0 5 0 0 (by norm_num) (by norm_num)
    (by norm_num) 1 1 (by norm_num) (by norm_num) (by norm_num) (by norm_num)

/-- With `width = 2^29` and `height = 2` every store of a render goes below offset `2^31`:
`stride = width * 4` wraps to `-2^31`. -/
theorem overflow_stores_below (py px : Nat) (hpy : py < (2 : Int).toNat) (c : Int) :
    wrap32 ((py : Int) * wrap32 (536870912 * 4)) + wrap32 (wrap32 ((px : Int) * 4) + c)
      < 2147483648 := by
  have hs : wrap32 (536870912 * 4) = -2147483648 := by decide
  have h2 : (2 : Int).toNat = 2 := by decide
  rw [h2] at hpy
  rw [hs]
  have hrow : wrap32 ((py : Int) * -2147483648) ≤ 0 := by
    interval_cases py
    · decide
    · decide
  have := wrap32_lt (wrap32 ((px : Int) * 4) + c)
  omega

/-- C1, counterexample. For `width = 2^29`, `height = 2` the alpha byte of pixel
`(0, 1)`, at offset `1 * (width * 4) + 0 * 4 + 3`, is never stored and is not `255`
after the render: `width * 4` overflows `int`. -/
theorem render_writes_each_pixel_once_counterexample :
    ∃ b, srl_render_sdf_scene (some ⟨fun _ => 0, []⟩) 536870912 2 (0 : ℝ) 0 5 0 0 = some b ∧
      b.writes.count (1 * (536870912 * 4) + 0 * 4 + 3) = 0 ∧
      b.data (1 * (536870912 * 4) + 0 * 4 + 3) ≠ 255 := by
  obtain ⟨b, hb, ⟨l, hl, hP⟩, hd⟩ := render_storesWithin (fun a => a < 2147483648)
    536870912 2 (0 : ℝ) 0 5 0 0 ⟨fun _ => 0, []⟩
    (fun py px hpy _ c _ _ => overflow_stores_below py px hpy c)
  refine ⟨b, hb, ?_, ?_⟩
  · apply List.count_eq_zero_of_not_mem
    rw [hl, List.nil_append]
    intro hmem
    have := hP _ hmem
    norm_num at this
  · rw [hd _ (by norm_num)]
    norm_num

/-- C9 (amended). When `width * height * 4` fits an `int`, two renders with the same
dimensions and camera into two pixel memories with arbitrary contents leave the same
bytes at the offsets `0 .. width * height * 4 - 1`: each is the byte `rendered_byte`
determined by the dimensions and the camera alone. -/
theorem render_deterministic (b1 b2 : PixelBuffer) (width height : Int)
    (cam_x cam_y cam_z cam_yaw cam_pitch : F) (hw : 0 < width) (hh : 0 < height)
    (hsz : width * height * 4 ≤ 2147483647) :
    ∃ c1 c2,
      srl_render_sdf_scene (some b1) width height cam_x cam_y cam_z cam_yaw cam_pitch
        = some c1 ∧
      srl_render_sdf_scene (some b2) width height cam_x cam_y cam_z cam_yaw cam_pitch
        = some c2 ∧
      ∀ a : Int, 0 ≤ a → a < width * height * 4 →
        c1.data a = c2.data a ∧
        c1.data a = rendered_byte width height cam_x cam_y cam_z cam_yaw cam_pitch a.toNat := by
  obtain ⟨c1, h1, r1⟩ := render_rendered width height cam_x cam_y cam_z cam_yaw cam_pitch
    b1 hw hh hsz
  obtain ⟨c2, h2, r2⟩ := render_rendered width height cam_x cam_y cam_z cam_yaw cam_pitch
    b2 hw hh hsz
  refine ⟨c1, c2, h1, h2, ?_⟩
  intro a ha0 ha
  have hW : ((width.toNat : Nat) : Int) = width := Int.toNat_of_nonneg hw.le
  have hH : ((height.toNat : Nat) : Int) = height := Int.toNat_of_nonneg hh.le
  have e : width * height * 4 = 4 * ((height.toNat * width.toNat : Nat) : Int) := by
    push_cast
    rw [hW, hH]
    ring
  rw [e] at ha
  rw [r1.2 a, r2.2 a, if_pos ⟨ha0, ha⟩, if_pos ⟨ha0, ha⟩]
  exact ⟨rfl, rfl⟩

/-- Witness of C9 (amended): a 2 x 2 image rendered over zeros and over ones, on the
real numbers. -/
theorem render_deterministic_witness :
    ∃ c1 c2,
      srl_render_sdf_scene (some ⟨fun _ => 0, []⟩) 2 2 (0 : ℝ) 0 5 0 0 = some c1 ∧
      srl_render_sdf_scene (some ⟨fun _ => 1, []⟩) 2 2 (0 : ℝ) 0 5 0 0 = some c2 ∧
      ∀ a : Int, 0 ≤ a → a < 2 * 2 * 4 →
        c1.data a = c2.data a ∧ c1.data a = rendered_byte 2 2 (0 : ℝ) 0 5 0 0 a.toNat :=
  render_deterministic ⟨fun _ => 0, []⟩ ⟨fun _ => 1, []⟩ 2 2 (0 : ℝ) 0 5 0 0
    (by norm_num) (by norm_num) (by norm_num)

/-- C9, counterexample. For `width = 2^29`, `height = 2` the byte at offset `2^31`, inside
the `width * height * 4` bytes of the image, keeps what the memory held before: renders
over zeros and over ones differ there. -/
theorem render_deterministic_counterexample :
    ∃ c1 c2,
      srl_render_sdf_scene (some ⟨fun _ => 0, []⟩) 536870912 2 (0 : ℝ) 0 5 0 0 = some c1 ∧
      srl_render_sdf_scene (some ⟨fun _ => 1, []⟩) 536870912 2 (0 : ℝ) 0 5 0 0 = some c2 ∧
      (0 : Int) ≤ 2147483648 ∧ (2147483648 : Int) < 536870912 * 2 * 4 ∧
      c1.data 2147483648 ≠ c2.data 2147483648 := by
  obtain ⟨c1, h1, _, d1⟩ := render_storesWithin (fun a => a < 2147483648)
    536870912 2 (0 : ℝ) 0 5 0 0 ⟨fun _ => 0, []⟩
    (fun py px hpy _ c _ _ => overflow_stores_below py px hpy c)
  obtain ⟨c2, h2, _, d2⟩ := render_storesWithin (fun a => a < 2147483648)
    536870912 2 (0 : ℝ) 0 5 0 0 ⟨fun _ => 1, []⟩
    (fun py px hpy _ c _ _ => overflow_stores_below py px hpy c)
  refine ⟨c1, c2, h1, h2, by norm_num, by norm_num, ?_⟩
  rw [d1 _ (by norm_num), d2 _ (by norm_num)]
  norm_num

end StoreClaims

section CastLemmas

variable {F : Type} [LinearOrderedField F] [FloorRing F]

/-- Evaluation of the `unsigned char` conversion between two consecutive integers. -/
theorem to_uchar_eq (x : F) (n : Nat) (h1 : (n : F) ≤ x) (h2 : x < (n : F) + 1)
    (h3 : n < 256) : to_uchar x = n := by
  have h0 : (0 : F) ≤ x := le_trans (Nat.cast_nonneg n) h1
  have hf : ⌊x⌋ = (n : Int) := by
    rw [Int.floor_eq_iff]
    exact ⟨by exact_mod_cast h1, by exact_mod_cast h2⟩
  unfold to_uchar
  rw [if_pos h0, hf]
  omega

end CastLemmas

section MarchLemmas

variable {F : Type} [LinearOrderedField F] [Libm F]

/-- A lower bound of the scene distance from lower bounds of its three parts. -/
theorem scene_sdf_ge (p : vec3f F) (m : F)
    (hs : m + 0.075 ≤ sdf_sphere p (vec3f_make 0 0 0) 1.0)
    (hb : m + 0.075 ≤ sdf_box p (vec3f_make 2.0 0 0) (vec3f_make 0.4 0.4 0.4))
    (hg : m ≤ p.y + 1.5) : m ≤ scene_sdf p := by
  rw [scene_sdf_eq, sdf_smooth_min_eq]
  have h3 : (0 : F) < 0.3 := by norm_num
  have ht := smooth_term_le (sdf_sphere p (vec3f_make 0 0 0) 1.0)
    (sdf_box p (vec3f_make 2.0 0 0) (vec3f_make 0.4 0.4 0.4)) 0.3 h3
  have hm : m + 0.075 ≤ min (sdf_sphere p (vec3f_make 0 0 0) 1.0)
      (sdf_box p (vec3f_make 2.0 0 0) (vec3f_make 0.4 0.4 0.4)) := le_min hs hb
  apply le_min _ hg
  have e : (0.3 : F) * 0.25 = 0.075 := by norm_num
  rw [e] at ht
  linarith

/-- Where the ground is the nearest surface by a margin, the scene distance is the
height above the ground plane. -/
theorem scene_sdf_eq_ground (p : vec3f F) (hz : 0.4 ≤ p.z) (hy : p.y + 2.575 ≤ p.z) :
    scene_sdf p = p.y + 1.5 := by
  have hz0 : (0 : F) ≤ p.z := le_trans (by norm_num) hz
  have hs : p.z - 1 ≤ sdf_sphere p (vec3f_make 0 0 0) 1.0 := by
    rw [sdf_sphere_origin]
    have := le_sqrtf (p.x * p.x + p.y * p.y + p.z * p.z) p.z
      (by nlinarith [mul_self_nonneg p.x, mul_self_nonneg p.y, mul_self_nonneg p.z])
      (by nlinarith [mul_self_nonneg p.x, mul_self_nonneg p.y])
    linarith
  have hd : p.z - 0.4 = |p.z - (vec3f_make 2.0 0 0 : vec3f F).z|
      - (vec3f_make 0.4 0.4 0.4 : vec3f F).z := by
    simp only [vec3f_make, sub_zero]
    rw [abs_of_nonneg hz0]
  have hb : p.z - 0.4 ≤ sdf_box p (vec3f_make 2.0 0 0) (vec3f_make 0.4 0.4 0.4) := by
    rw [hd]
    apply sdf_box_ge_z
    rw [← hd]
    linarith
  have hge := scene_sdf_ge p (p.y + 1.5) (by linarith) (by linarith) le_rfl
  apply le_antisymm _ hge
  rw [scene_sdf_eq]
  exact min_le_right _ _

/-- A ray that stays at distance at least `SURF_DIST` from the scene is a miss. -/
theorem ray_march_miss (o d : vec3f F)
    (hfar : ∀ t : F, 0 ≤ t →
      SURF_DIST ≤ scene_sdf ⟨o.x + d.x * t, o.y + d.y * t, o.z + d.z * t⟩) :
    ∀ (n : Nat) (depth : F) (hp : vec3f F), 0 ≤ depth →
      (ray_march o d n depth hp).1 = false := by
  intro n
  induction n with
  | zero =>
    intro depth hp _
    rfl
  | succ k ih =>
    intro depth hp hd
    have h := hfar depth hd
    have hpos : (0 : F) ≤ SURF_DIST := by unfold SURF_DIST; norm_num
    simp only [ray_march]
    rw [if_neg (not_lt.mpr h)]
    split_ifs with h2
    · rfl
    · exact ih _ _ (by linarith)

/-- A ray that descends onto the ground plane, with the ground the nearest surface all
the way, is a hit; the hit point lies within `SURF_DIST` above the plane. -/
theorem ray_march_ground_hit (o d : vec3f F) (c : F) (hc1 : 1 / 2 ≤ c)
    (hg0 : o.y + 1.5 ≤ 20)
    (hreg : ∀ t : F, 0 ≤ t → 0 ≤ o.y + 1.5 - c * t →
      scene_sdf ⟨o.x + d.x * t, o.y + d.y * t, o.z + d.z * t⟩ = o.y + 1.5 - c * t)
    (hc2 : c ≤ 1) :
    ∀ (n : Nat) (depth : F) (hp : vec3f F), 0 ≤ depth → 0 ≤ o.y + 1.5 - c * depth →
      (o.y + 1.5 - c * depth) * (1 / 2) ^ n < SURF_DIST →
      ∃ t : F, 0 ≤ t ∧ 0 ≤ o.y + 1.5 - c * t ∧ o.y + 1.5 - c * t < SURF_DIST ∧
        ray_march o d (n + 1) depth hp
          = (true, ⟨o.x + d.x * t, o.y + d.y * t, o.z + d.z * t⟩) := by
  intro n
  induction n with
  | zero =>
    intro depth hp hd hg hlt
    refine ⟨depth, hd, hg, by simpa using hlt, ?_⟩
    simp only [ray_march]
    rw [hreg depth hd hg, if_pos (by simpa using hlt)]
  | succ k ih =>
    intro depth hp hd hg hlt
    by_cases hh : o.y + 1.5 - c * depth < SURF_DIST
    · refine ⟨depth, hd, hg, hh, ?_⟩
      simp only [ray_march]
      rw [hreg depth hd hg, if_pos hh]
    · have hd2 : 0 ≤ depth + (o.y + 1.5 - c * depth) := by linarith
      have hg2e : o.y + 1.5 - c * (depth + (o.y + 1.5 - c * depth))
          = (o.y + 1.5 - c * depth) * (1 - c) := by ring
      have hg2 : 0 ≤ o.y + 1.5 - c * (depth + (o.y + 1.5 - c * depth)) := by
        rw [hg2e]
        exact mul_nonneg hg (by linarith)
      have hmax : ¬ (depth + (o.y + 1.5 - c * depth) > MAX_DIST) := by
        unfold MAX_DIST
        have : c * (depth + (o.y + 1.5 - c * depth)) ≤ 20 := by linarith
        have h40 : depth + (o.y + 1.5 - c * depth) ≤ 40 := by nlinarith
        have e : (40.0 : F) = 40 := by norm_num
        rw [e]
        exact not_lt.mpr h40
      have hlt2 : (o.y + 1.5 - c * (depth + (o.y + 1.5 - c * depth))) * (1 / 2) ^ k
          < SURF_DIST := by
        rw [hg2e]
        have hp2 : (0 : F) ≤ (1 / 2) ^ k := by positivity
        have h1 : (o.y + 1.5 - c * depth) * (1 - c) ≤ (o.y + 1.5 - c * depth) * (1 / 2) :=
          mul_le_mul_of_nonneg_left (by linarith) hg
        have h2 : (o.y + 1.5 - c * depth) * (1 - c) * (1 / 2) ^ k
            ≤ (o.y + 1.5 - c * depth) * (1 / 2) * (1 / 2) ^ k :=
          mul_le_mul_of_nonneg_right h1 hp2
        have e : (o.y + 1.5 - c * depth) * (1 / 2) * (1 / 2) ^ k
            = (o.y + 1.5 - c * depth) * (1 / 2) ^ (k + 1) := by ring
        linarith
      obtain ⟨t, ht0, htg, hts, hrm⟩ := ih (depth + (o.y + 1.5 - c * depth))
        ⟨o.x + d.x * depth, o.y + d.y * depth, o.z + d.z * depth⟩ hd2 hg2 hlt2
      refine ⟨t, ht0, htg, hts, ?_⟩
      rw [← hrm]
      conv_lhs => rw [ray_march]
      simp only []
      rw [hreg depth hd hg, if_neg hh, if_neg hmax]

end MarchLemmas

section LevelRays

variable {F : Type} [LinearOrderedField F] [Libm F]

/-- With yaw and pitch zero the ray of a pixel is the normalised `(u, v, -1)`. -/
theorem pixel_ray_dir_level (width height py px : Int) :
    pixel_ray_dir width height (0 : F) 0 py px
      = vec3f_normalize
          ⟨((px : F) * (1.0 / (width : F)) * 2.0 - 1.0) * ((width : F) / (height : F)),
            row_v height py, -1⟩ := by
  simp only [pixel_ray_dir, Libm.cosf_zero, Libm.sinf_zero, vec3f_make, mul_one, mul_zero,
    add_zero, zero_sub, neg_mul, neg_zero, zero_add]

/-- The normalised `(u, v, -1)` is `(u, v, -1)` scaled by a positive factor. -/
theorem vec3f_normalize_uv (u v : F) :
    ∃ i : F, 0 < i ∧ i * i * (u * u + v * v + 1) = 1 ∧
      vec3f_normalize (⟨u, v, -1⟩ : vec3f F) = ⟨u * i, v * i, -1 * i⟩ := by
  have hL : (1 : F) ≤ u * u + v * v + 1 := by
    nlinarith [mul_self_nonneg u, mul_self_nonneg v]
  have hL0 : (0 : F) < u * u + v * v + 1 := lt_of_lt_of_le one_pos hL
  have hs := sqrtf_pos (u * u + v * v + 1) hL0
  have hss := Libm.sqrtf_mul_self (u * u + v * v + 1) hL0.le
  have hlen : vec3f_length_sq (⟨u, v, -1⟩ : vec3f F) = u * u + v * v + 1 := by
    simp only [vec3f_length_sq]
    ring
  have hgt : vec3f_length_sq (⟨u, v, -1⟩ : vec3f F) > 1e-12 := by
    rw [hlen]
    exact lt_of_lt_of_le (by norm_num) hL
  refine ⟨1 / Sqrtf.sqrtf (u * u + v * v + 1), by positivity, ?_, ?_⟩
  · have hne : Sqrtf.sqrtf (u * u + v * v + 1) ≠ 0 := ne_of_gt hs
    calc 1 / Sqrtf.sqrtf (u * u + v * v + 1) * (1 / Sqrtf.sqrtf (u * u + v * v + 1))
          * (u * u + v * v + 1)
        = 1 / Sqrtf.sqrtf (u * u + v * v + 1) * (1 / Sqrtf.sqrtf (u * u + v * v + 1))
          * (Sqrtf.sqrtf (u * u + v * v + 1) * Sqrtf.sqrtf (u * u + v * v + 1)) := by
          rw [hss]
      _ = 1 := by field_simp
  · unfold vec3f_normalize
    simp only []
    rw [if_pos hgt, hlen]
    simp only [vec3f_make]
    norm_num

end LevelRays

section Background

variable {F : Type} [LinearOrderedField F] [FloorRing F]

theorem shade_background_one : shade_background (1 : F) = (40, 45, 70) := by
  unfold shade_background
  simp only [Prod.mk.injEq]
  refine ⟨to_uchar_eq _ 40 ?_ ?_ (by norm_num), to_uchar_eq _ 45 ?_ ?_ (by norm_num),
    to_uchar_eq _ 70 ?_ ?_ (by norm_num)⟩ <;> norm_num

theorem shade_background_bottom : shade_background (-0.96875 : F) = (25, 25, 40) := by
  unfold shade_background
  simp only [Prod.mk.injEq]
  refine ⟨to_uchar_eq _ 25 ?_ ?_ (by norm_num), to_uchar_eq _ 25 ?_ ?_ (by norm_num),
    to_uchar_eq _ 40 ?_ ?_ (by norm_num)⟩ <;> norm_num

end Background

section LevelCamera

variable {F : Type} [LinearOrderedField F] [FloorRing F] [Libm F]

/-- A pixel of a level camera whose ray `(u s, v s, -s)`, `s >= 0`, stays at distance at
least `SURF_DIST` from the scene is a miss and gets the background colour of its row. -/
theorem level_pixel_miss (width height py px : Int) (cam_x cam_y cam_z u v : F)
    (hu : ((px : F) * (1.0 / (width : F)) * 2.0 - 1.0) * ((width : F) / (height : F)) = u)
    (hv : row_v height py = v)
    (hfar : ∀ s : F, 0 ≤ s →
      SURF_DIST ≤ scene_sdf ⟨cam_x + u * s, cam_y + v * s, cam_z - s⟩) :
    (pixel_trace width height cam_x cam_y cam_z 0 0 py px).1 = false ∧
    pixel_rgb width height cam_x cam_y cam_z 0 0 py px = shade_background v := by
  obtain ⟨i, hi, _, hn⟩ := vec3f_normalize_uv u v
  have hm : (pixel_trace width height cam_x cam_y cam_z 0 0 py px).1 = false := by
    unfold pixel_trace
    simp only [pixel_ray_dir_level, hu, hv, hn, vec3f_make]
    apply ray_march_miss
    · intro t ht
      have := hfar (i * t) (mul_nonneg hi.le ht)
      have e : (⟨cam_x + u * i * t, cam_y + v * i * t, cam_z + -1 * i * t⟩ : vec3f F)
          = ⟨cam_x + u * (i * t), cam_y + v * (i * t), cam_z - i * t⟩ := by
        congr 1 <;> ring
      rw [e]
      exact this
    · norm_num
  refine ⟨hm, ?_⟩
  simp only [pixel_rgb, hm, hv, Bool.false_eq_true, if_false]

end LevelCamera
section TwoByTwo

variable {F : Type} [LinearOrderedField F] [FloorRing F] [Libm F]

/-- The four bytes of pixel `(px, py)` in a fully rendered image. -/
theorem rendered_pixel (width height : Int) (cam_x cam_y cam_z cam_yaw cam_pitch : F)
    (b0 b : PixelBuffer) (hw : 0 < width)
    (hb : RenderedUpTo width height cam_x cam_y cam_z cam_yaw cam_pitch b0
      (height.toNat * width.toNat) b)
    (py px : Nat) (hpy : py < height.toNat) (hpx : px < width.toNat) :
    (b.data ((py : Int) * (width * 4) + (px : Int) * 4 + 0),
      b.data ((py : Int) * (width * 4) + (px : Int) * 4 + 1),
      b.data ((py : Int) * (width * 4) + (px : Int) * 4 + 2),
      b.data ((py : Int) * (width * 4) + (px : Int) * 4 + 3))
      = ((pixel_rgb width height cam_x cam_y cam_z cam_yaw cam_pitch py px).1,
        (pixel_rgb width height cam_x cam_y cam_z cam_yaw cam_pitch py px).2.1,
        (pixel_rgb width height cam_x cam_y cam_z cam_yaw cam_pitch py px).2.2, 255) := by
  have chn := fun c hc => rendered_channel width height cam_x cam_y cam_z cam_yaw cam_pitch
    b0 b hw hb py px c hpy hpx hc
  have d0 := chn 0 (by norm_num)
  have d1 := chn 1 (by norm_num)
  have d2 := chn 2 (by norm_num)
  have d3 := chn 3 (by norm_num)
  simp only [Nat.cast_zero, Nat.cast_one, Nat.cast_ofNat, if_true, if_false,
    Nat.one_ne_zero, OfNat.ofNat_ne_zero, OfNat.ofNat_ne_one, Nat.succ_ne_self]
    at d0 d1 d2 d3
  rw [d0, d1, d2, d3]

end TwoByTwo

section HitShading

variable {F : Type} [LinearOrderedField F] [Libm F]

/-- Where the sphere is the nearest surface, clear of the blend radius of the box, the
scene distance is the sphere distance. -/
theorem scene_sdf_eq_sphere (p : vec3f F)
    (hb : sdf_sphere p (vec3f_make 0 0 0) 1.0 + 0.3
      ≤ sdf_box p (vec3f_make 2.0 0 0) (vec3f_make 0.4 0.4 0.4))
    (hg : sdf_sphere p (vec3f_make 0 0 0) 1.0 ≤ p.y + 1.5) :
    scene_sdf p = Sqrtf.sqrtf (p.x * p.x + p.y * p.y + p.z * p.z) - 1 := by
  rw [scene_sdf_eq]
  have hfar : (0.3 : F) ≤ |sdf_sphere p (vec3f_make 0 0 0) 1.0
      - sdf_box p (vec3f_make 2.0 0 0) (vec3f_make 0.4 0.4 0.4)| := by
    rw [abs_sub_comm]
    exact le_trans (by linarith) (le_abs_self _)
  have hmin : min (sdf_sphere p (vec3f_make 0 0 0) 1.0)
      (sdf_box p (vec3f_make 2.0 0 0) (vec3f_make 0.4 0.4 0.4))
      = sdf_sphere p (vec3f_make 0 0 0) 1.0 := min_eq_left (by linarith)
  rw [sdf_smooth_min_far _ _ _ hfar, hmin, min_eq_left hg, sdf_sphere_origin]

/-- The scene distance on the positive `z` axis, from above the box. -/
theorem scene_sdf_on_axis (z : F) (hz : 0.4 ≤ z) :
    scene_sdf (⟨0, 0, z⟩ : vec3f F) = min (z - 1) 1.5 := by
  have hz0 : (0 : F) ≤ z := le_trans (by norm_num) hz
  have hs : sdf_sphere (⟨0, 0, z⟩ : vec3f F) (vec3f_make 0 0 0) 1.0 = z - 1 := by
    rw [sdf_sphere_origin]
    simp only [mul_zero, zero_add]
    rw [sqrtf_mul_self_eq z hz0]
  have hd : z - 0.4 = |(⟨0, 0, z⟩ : vec3f F).z - (vec3f_make 2.0 0 0 : vec3f F).z|
      - (vec3f_make 0.4 0.4 0.4 : vec3f F).z := by
    simp only [vec3f_make, sub_zero]
    rw [abs_of_nonneg hz0]
  have hb : z - 0.4 ≤ sdf_box (⟨0, 0, z⟩ : vec3f F) (vec3f_make 2.0 0 0)
      (vec3f_make 0.4 0.4 0.4) := by
    rw [hd]
    apply sdf_box_ge_z
    rw [← hd]
    linarith
  rw [scene_sdf_eq]
  have hfar : (0.3 : F) ≤ |sdf_sphere (⟨0, 0, z⟩ : vec3f F) (vec3f_make 0 0 0) 1.0
      - sdf_box (⟨0, 0, z⟩ : vec3f F) (vec3f_make 2.0 0 0) (vec3f_make 0.4 0.4 0.4)| := by
    rw [abs_sub_comm, hs]
    exact le_trans (by linarith) (le_abs_self _)
  have hmin : min (z - 1)
      (sdf_box (⟨0, 0, z⟩ : vec3f F) (vec3f_make 2.0 0 0) (vec3f_make 0.4 0.4 0.4))
      = z - 1 := min_eq_left (by linarith)
  rw [sdf_smooth_min_far _ _ _ hfar, hs, hmin]
  norm_num

/-- The scene distance next to the sphere, on the side away from the box. -/
theorem scene_sdf_near_sphere (p : vec3f F) (hx : p.x ≤ 0.5) (hy : -1.3 ≤ p.y)
    (hl : p.x * p.x + p.y * p.y + p.z * p.z ≤ 1.44) :
    scene_sdf p = Sqrtf.sqrtf (p.x * p.x + p.y * p.y + p.z * p.z) - 1 := by
  have h0 : 0 ≤ p.x * p.x + p.y * p.y + p.z * p.z := by
    nlinarith [mul_self_nonneg p.x, mul_self_nonneg p.y, mul_self_nonneg p.z]
  have hs : Sqrtf.sqrtf (p.x * p.x + p.y * p.y + p.z * p.z) ≤ 1.2 :=
    sqrtf_le _ _ h0 (by norm_num) (by norm_num; linarith)
  have habs : |p.x - 2| = 2 - p.x := by
    rw [abs_of_nonpos (by linarith)]
    ring
  have hd : 1.6 - p.x = |p.x - (vec3f_make 2.0 0 0 : vec3f F).x|
      - (vec3f_make 0.4 0.4 0.4 : vec3f F).x := by
    simp only [vec3f_make]
    norm_num
    rw [habs]
    ring
  have hb : 1.6 - p.x ≤ sdf_box p (vec3f_make 2.0 0 0) (vec3f_make 0.4 0.4 0.4) := by
    rw [hd]
    apply sdf_box_ge_x
    rw [← hd]
    linarith
  apply scene_sdf_eq_sphere
  · rw [sdf_sphere_origin]
    linarith
  · rw [sdf_sphere_origin]
    linarith

/-- Normalisation of a vector along the `y` axis of length `0.002`. -/
theorem vec3f_normalize_up : vec3f_normalize (⟨0, 0.002, 0⟩ : vec3f F) = ⟨0, 1, 0⟩ := by
  have hlen : vec3f_length_sq (⟨0, 0.002, 0⟩ : vec3f F) = 0.002 * 0.002 := by
    simp only [vec3f_length_sq]
    ring
  have hgt : vec3f_length_sq (⟨0, 0.002, 0⟩ : vec3f F) > 1e-12 := by
    rw [hlen]
    norm_num
  unfold vec3f_normalize
  simp only []
  rw [if_pos hgt, hlen, sqrtf_mul_self_eq (0.002 : F) (by norm_num)]
  simp only [vec3f_make]
  norm_num

/-- Normalisation of a vector along the `z` axis of length `0.002`. -/
theorem vec3f_normalize_front : vec3f_normalize (⟨0, 0, 0.002⟩ : vec3f F) = ⟨0, 0, 1⟩ := by
  have hlen : vec3f_length_sq (⟨0, 0, 0.002⟩ : vec3f F) = 0.002 * 0.002 := by
    simp only [vec3f_length_sq]
    ring
  have hgt : vec3f_length_sq (⟨0, 0, 0.002⟩ : vec3f F) > 1e-12 := by
    rw [hlen]
    norm_num
  unfold vec3f_normalize
  simp only []
  rw [if_pos hgt, hlen, sqrtf_mul_self_eq (0.002 : F) (by norm_num)]
  simp only [vec3f_make]
  norm_num

/-- The normal estimated on the ground plane, away from sphere and box, is `(0, 1, 0)`. -/
theorem compute_normal_ground (p : vec3f F) (hz : 0.5 ≤ p.z) (hy : p.y + 2.6 ≤ p.z) :
    compute_normal p = ⟨0, 1, 0⟩ := by
  have e1 := scene_sdf_eq_ground (⟨p.x + 0.001, p.y, p.z⟩ : vec3f F)
    (by show (0.4 : F) ≤ p.z; linarith) (by show p.y + 2.575 ≤ p.z; linarith)
  have e2 := scene_sdf_eq_ground (⟨p.x - 0.001, p.y, p.z⟩ : vec3f F)
    (by show (0.4 : F) ≤ p.z; linarith) (by show p.y + 2.575 ≤ p.z; linarith)
  have e3 := scene_sdf_eq_ground (⟨p.x, p.y + 0.001, p.z⟩ : vec3f F)
    (by show (0.4 : F) ≤ p.z; linarith) (by show p.y + 0.001 + 2.575 ≤ p.z; linarith)
  have e4 := scene_sdf_eq_ground (⟨p.x, p.y - 0.001, p.z⟩ : vec3f F)
    (by show (0.4 : F) ≤ p.z; linarith) (by show p.y - 0.001 + 2.575 ≤ p.z; linarith)
  have e5 := scene_sdf_eq_ground (⟨p.x, p.y, p.z + 0.001⟩ : vec3f F)
    (by show (0.4 : F) ≤ p.z + 0.001; linarith) (by show p.y + 2.575 ≤ p.z + 0.001; linarith)
  have e6 := scene_sdf_eq_ground (⟨p.x, p.y, p.z - 0.001⟩ : vec3f F)
    (by show (0.4 : F) ≤ p.z - 0.001; linarith) (by show p.y + 2.575 ≤ p.z - 0.001; linarith)
  unfold compute_normal
  simp only [vec3f_make, e1, e2, e3, e4, e5, e6]
  rw [← vec3f_normalize_up]
  congr 2
  · ring
  · ring
  · ring

/-- The normal estimated at the pole `(0, 0, 1)` of the sphere is `(0, 0, 1)`. -/
theorem compute_normal_pole : compute_normal (⟨0, 0, 1⟩ : vec3f F) = ⟨0, 0, 1⟩ := by
  have e1 := scene_sdf_near_sphere (⟨0 + 0.001, 0, 1⟩ : vec3f F)
    (by show (0 : F) + 0.001 ≤ 0.5; norm_num) (by show (-1.3 : F) ≤ 0; norm_num)
    (by show ((0 : F) + 0.001) * (0 + 0.001) + 0 * 0 + 1 * 1 ≤ 1.44; norm_num)
  have e2 := scene_sdf_near_sphere (⟨0 - 0.001, 0, 1⟩ : vec3f F)
    (by show (0 : F) - 0.001 ≤ 0.5; norm_num) (by show (-1.3 : F) ≤ 0; norm_num)
    (by show ((0 : F) - 0.001) * (0 - 0.001) + 0 * 0 + 1 * 1 ≤ 1.44; norm_num)
  have e3 := scene_sdf_near_sphere (⟨0, 0 + 0.001, 1⟩ : vec3f F)
    (by show (0 : F) ≤ 0.5; norm_num) (by show (-1.3 : F) ≤ 0 + 0.001; norm_num)
    (by show (0 : F) * 0 + (0 + 0.001) * (0 + 0.001) + 1 * 1 ≤ 1.44; norm_num)
  have e4 := scene_sdf_near_sphere (⟨0, 0 - 0.001, 1⟩ : vec3f F)
    (by show (0 : F) ≤ 0.5; norm_num) (by show (-1.3 : F) ≤ 0 - 0.001; norm_num)
    (by show (0 : F) * 0 + (0 - 0.001) * (0 - 0.001) + 1 * 1 ≤ 1.44; norm_num)
  have e5 := scene_sdf_on_axis ((1 : F) + 0.001) (by norm_num)
  have e6 := scene_sdf_on_axis ((1 : F) - 0.001) (by norm_num)
  unfold compute_normal
  simp only [vec3f_make, e1, e2, e3, e4, e5, e6]
  rw [← vec3f_normalize_front]
  congr 2
  · have : ((0 : F) + 0.001) * (0 + 0.001) + 0 * 0 + 1 * 1
        = (0 - 0.001) * (0 - 0.001) + 0 * 0 + 1 * 1 := by norm_num
    rw [this]
    ring
  · have : (0 : F) * 0 + (0 + 0.001) * (0 + 0.001) + 1 * 1
        = 0 * 0 + (0 - 0.001) * (0 - 0.001) + 1 * 1 := by norm_num
    rw [this]
    ring
  · rw [min_eq_left (by norm_num), min_eq_left (by norm_num)]
    norm_num

end HitShading

section HitColours

variable {F : Type} [LinearOrderedField F] [FloorRing F] [Libm F]

/-- The colour of a hit whose estimated normal is `(0, 1, 0)`. -/
theorem shade_hit_up (p : vec3f F) (hn : compute_normal p = ⟨0, 1, 0⟩) :
    shade_hit p = (184, 100, 66) := by
  have hd : ¬ ((0 : F) * 0.50508 + 1 * 0.80812 + 0 * 0.30305 < 0.0) := by norm_num
  unfold shade_hit
  simp only [hn, light_dir, vec3f_make, if_neg hd, Prod.mk.injEq]
  refine ⟨to_uchar_eq _ 184 ?_ ?_ (by norm_num), to_uchar_eq _ 100 ?_ ?_ (by norm_num),
    to_uchar_eq _ 66 ?_ ?_ (by norm_num)⟩ <;> norm_num

/-- The colour of a hit whose estimated normal is `(0, 0, 1)`. -/
theorem shade_hit_front (p : vec3f F) (hn : compute_normal p = ⟨0, 0, 1⟩) :
    shade_hit p = (89, 48, 32) := by
  have hd : ¬ ((0 : F) * 0.50508 + 0 * 0.80812 + 1 * 0.30305 < 0.0) := by norm_num
  unfold shade_hit
  simp only [hn, light_dir, vec3f_make, if_neg hd, Prod.mk.injEq]
  refine ⟨to_uchar_eq _ 89 ?_ ?_ (by norm_num), to_uchar_eq _ 48 ?_ ?_ (by norm_num),
    to_uchar_eq _ 32 ?_ ?_ (by norm_num)⟩ <;> norm_num

end HitColours

section AxisMarch

variable {F : Type} [LinearOrderedField F] [Libm F]

theorem vec3f_normalize_back : vec3f_normalize (⟨0, 0, -1⟩ : vec3f F) = ⟨0, 0, -1⟩ := by
  have hlen : vec3f_length_sq (⟨0, 0, -1⟩ : vec3f F) = 1 * 1 := by
    simp only [vec3f_length_sq]
    ring
  have hgt : vec3f_length_sq (⟨0, 0, -1⟩ : vec3f F) > 1e-12 := by
    rw [hlen]
    norm_num
  unfold vec3f_normalize
  simp only []
  rw [if_pos hgt, hlen, sqrtf_mul_self_eq (1 : F) zero_le_one]
  simp only [vec3f_make]
  norm_num

/-- One iteration of the march from `(0, 0, 5)` straight down the `z` axis. -/
theorem axis_march_step (n : Nat) (depth : F) (hp : vec3f F) (z dist : F)
    (hz : 5 - depth = z) (hz4 : 0.4 ≤ z) (hd : min (z - 1) 1.5 = dist) :
    ray_march (⟨0, 0, 5⟩ : vec3f F) ⟨0, 0, -1⟩ (n + 1) depth hp
      = if dist < SURF_DIST then (true, ⟨0, 0, z⟩)
        else if depth + dist > MAX_DIST then (false, ⟨0, 0, z⟩)
        else ray_march (⟨0, 0, 5⟩ : vec3f F) ⟨0, 0, -1⟩ n (depth + dist) ⟨0, 0, z⟩ := by
  have e : (⟨0 + 0 * depth, 0 + 0 * depth, 5 + -1 * depth⟩ : vec3f F) = ⟨0, 0, z⟩ := by
    rw [← hz]
    congr 1 <;> ring
  rw [ray_march]
  simp only [e, scene_sdf_on_axis z hz4, hd]

/-- The march of the centre ray: three steps of `1.5`, `1.5` and `1`, then a hit at the
pole `(0, 0, 1)` of the sphere. -/
theorem axis_march_hits (hp : vec3f F) :
    ray_march (⟨0, 0, 5⟩ : vec3f F) ⟨0, 0, -1⟩ MAX_STEPS 0.0 hp = (true, ⟨0, 0, 1⟩) := by
  have hS : ¬ ((1.5 : F) < SURF_DIST) := by unfold SURF_DIST; norm_num
  have hS1 : ¬ ((1 : F) < SURF_DIST) := by unfold SURF_DIST; norm_num
  have hS0 : (0 : F) < SURF_DIST := by unfold SURF_DIST; norm_num
  have hM1 : ¬ ((0.0 : F) + 1.5 > MAX_DIST) := by unfold MAX_DIST; norm_num
  have hM2 : ¬ ((0.0 : F) + 1.5 + 1.5 > MAX_DIST) := by unfold MAX_DIST; norm_num
  have hM3 : ¬ ((0.0 : F) + 1.5 + 1.5 + 1 > MAX_DIST) := by unfold MAX_DIST; norm_num
  have m1 : min ((5 : F) - 1) 1.5 = 1.5 := min_eq_right (by norm_num)
  have m2 : min ((3.5 : F) - 1) 1.5 = 1.5 := min_eq_right (by norm_num)
  have m3 : min ((2 : F) - 1) 1.5 = 1 := by
    rw [min_eq_left (by norm_num)]
    norm_num
  have m4 : min ((1 : F) - 1) 1.5 = 0 := by
    rw [min_eq_left (by norm_num)]
    norm_num
  show ray_march (⟨0, 0, 5⟩ : vec3f F) ⟨0, 0, -1⟩ (47 + 1) 0.0 hp = _
  rw [axis_march_step 47 0.0 hp 5 1.5 (by norm_num) (by norm_num) m1, if_neg hS, if_neg hM1]
  show ray_march (⟨0, 0, 5⟩ : vec3f F) ⟨0, 0, -1⟩ (46 + 1) _ _ = _
  rw [axis_march_step 46 _ _ 3.5 1.5 (by norm_num) (by norm_num) m2, if_neg hS, if_neg hM2]
  show ray_march (⟨0, 0, 5⟩ : vec3f F) ⟨0, 0, -1⟩ (45 + 1) _ _ = _
  rw [axis_march_step 45 _ _ 2 1 (by norm_num) (by norm_num) m3, if_neg hS1, if_neg hM3]
  show ray_march (⟨0, 0, 5⟩ : vec3f F) ⟨0, 0, -1⟩ (44 + 1) _ _ = _
  rw [axis_march_step 44 _ _ 1 0 (by norm_num) (by norm_num) m4, if_pos hS0]

/-- The rays of the top row from `(0, 0, 5)`: points `(u s, s, 5 - s)`, `s >= 0`, stay
at distance at least `0.5` from the scene. -/
theorem scene_sdf_top_row (u s : F) (hs : 0 ≤ s) :
    0.5 ≤ scene_sdf (⟨0 + u * s, 0 + 1 * s, 5 - s⟩ : vec3f F) := by
  have hsp : (3.5 : F) - 1 ≤ sdf_sphere (⟨0 + u * s, 0 + 1 * s, 5 - s⟩ : vec3f F)
      (vec3f_make 0 0 0) 1.0 := by
    rw [sdf_sphere_origin]
    have h1 := mul_self_nonneg (u * s)
    have h2 := mul_self_nonneg (s - 2.5)
    have := le_sqrtf ((0 + u * s) * (0 + u * s) + (0 + 1 * s) * (0 + 1 * s)
      + (5 - s) * (5 - s)) 3.5
      (by nlinarith [mul_self_nonneg (0 + u * s), mul_self_nonneg (0 + 1 * s),
        mul_self_nonneg (5 - s)])
      (by
        have e : (0 + u * s) * (0 + u * s) + (0 + 1 * s) * (0 + 1 * s) + (5 - s) * (5 - s)
            = u * s * (u * s) + 2 * ((s - 2.5) * (s - 2.5)) + 12.5 := by ring
        rw [e]
        norm_num
        linarith)
    linarith
  have hbx : (0.6 : F) ≤ sdf_box (⟨0 + u * s, 0 + 1 * s, 5 - s⟩ : vec3f F)
      (vec3f_make 2.0 0 0) (vec3f_make 0.4 0.4 0.4) := by
    rcases le_total 1 s with h | h
    · have hd : s - 0.4 = |(⟨0 + u * s, 0 + 1 * s, 5 - s⟩ : vec3f F).y
          - (vec3f_make 2.0 0 0 : vec3f F).y| - (vec3f_make 0.4 0.4 0.4 : vec3f F).y := by
        simp only [vec3f_make, sub_zero, zero_add, one_mul]
        rw [abs_of_nonneg hs]
      have := sdf_box_ge_y (⟨0 + u * s, 0 + 1 * s, 5 - s⟩ : vec3f F) (vec3f_make 2.0 0 0)
        (vec3f_make 0.4 0.4 0.4) (by rw [← hd]; linarith)
      rw [← hd] at this
      linarith
    · have hd : 5 - s - 0.4 = |(⟨0 + u * s, 0 + 1 * s, 5 - s⟩ : vec3f F).z
          - (vec3f_make 2.0 0 0 : vec3f F).z| - (vec3f_make 0.4 0.4 0.4 : vec3f F).z := by
        simp only [vec3f_make, sub_zero]
        rw [abs_of_nonneg (by linarith)]
      have := sdf_box_ge_z (⟨0 + u * s, 0 + 1 * s, 5 - s⟩ : vec3f F) (vec3f_make 2.0 0 0)
        (vec3f_make 0.4 0.4 0.4) (by rw [← hd]; linarith)
      rw [← hd] at this
      linarith
  exact scene_sdf_ge _ 0.5 (by norm_num at hsp ⊢; linarith) (by norm_num at hbx ⊢; linarith)
    (by show (0.5 : F) ≤ 0 + 1 * s + 1.5; linarith)

end AxisMarch

section GroundScale

variable {F : Type} [LinearOrderedField F]

/-- Bounds of the normalisation factor of a ray `(u, -0.96875, -1)` with `u * u <= 1`. -/
theorem ground_ray_scale (u i : F) (hi : 0 < i)
    (hii : i * i * (u * u + -0.96875 * -0.96875 + 1) = 1) (hu1 : u * u ≤ 1) :
    0.55 ≤ i ∧ i ≤ 0.75 := by
  have hu0 := mul_self_nonneg u
  have hi0 := mul_self_nonneg i
  have h1 : 0 ≤ i * i * (u * u) := mul_nonneg hi0 hu0
  have h2 : i * i * (u * u) ≤ i * i * 1 := mul_le_mul_of_nonneg_left hu1 hi0
  have e : i * i * (u * u + -0.96875 * -0.96875 + 1)
      = i * i * (u * u) + i * i * 1.9384765625 := by
    norm_num
    ring
  rw [e] at hii
  have hi2 : i * i ≤ 0.5625 := by
    norm_num at hii ⊢
    linarith
  have hi3 : 0.3025 ≤ i * i := by
    norm_num at hii ⊢
    linarith
  constructor
  · by_contra hc
    push_neg at hc
    have : i * i < 0.55 * 0.55 := mul_self_lt_mul_self hi.le hc
    norm_num at this hi3
    linarith
  · by_contra hc
    push_neg at hc
    have : (0.75 : F) * 0.75 < i * i := mul_self_lt_mul_self (by norm_num) hc
    norm_num at this hi2
    linarith

end GroundScale

section GroundRays

variable {F : Type} [LinearOrderedField F] [Libm F]

/-- Along a ray `(u, -0.96875, -1) * i` from `(0, 0, 5)` the ground is the nearest
surface for as long as the ray is above it. -/
theorem ground_ray_scene (u i t : F) (hi : 0 < i) (ht : 0 ≤ t)
    (hg : 0 ≤ (⟨0, 0, 5⟩ : vec3f F).y + 1.5 - 0.96875 * i * t) :
    scene_sdf ⟨(⟨0, 0, 5⟩ : vec3f F).x + (⟨u * i, -0.96875 * i, -1 * i⟩ : vec3f F).x * t,
        (⟨0, 0, 5⟩ : vec3f F).y + (⟨u * i, -0.96875 * i, -1 * i⟩ : vec3f F).y * t,
        (⟨0, 0, 5⟩ : vec3f F).z + (⟨u * i, -0.96875 * i, -1 * i⟩ : vec3f F).z * t⟩
      = (⟨0, 0, 5⟩ : vec3f F).y + 1.5 - 0.96875 * i * t := by
  simp only [] at hg ⊢
  have hX0 : 0 ≤ i * t := mul_nonneg hi.le ht
  have hX : i * t ≤ 1.6 := by
    norm_num at hg ⊢
    linarith
  have e := scene_sdf_eq_ground
    (⟨0 + u * i * t, 0 + -0.96875 * i * t, 5 + -1 * i * t⟩ : vec3f F)
    (by show (0.4 : F) ≤ 5 + -1 * i * t; norm_num at hX ⊢; linarith)
    (by
      show (0 : F) + -0.96875 * i * t + 2.575 ≤ 5 + -1 * i * t
      norm_num at hX ⊢
      linarith)
  rw [e]
  show (0 : F) + -0.96875 * i * t + 1.5 = 0 + 1.5 - 0.96875 * i * t
  ring

end GroundRays
section SixtyFour

variable {F : Type} [LinearOrderedField F] [FloorRing F] [Libm F]

/-- A pixel of the level camera at `(0, 0, 5)` with `v = -0.96875` and `u * u <= 1`:
its ray descends onto the ground plane and the pixel is a hit of ground colour. -/
theorem level_pixel_ground_hit (width height py px : Int) (u : F)
    (hu : ((px : F) * (1.0 / (width : F)) * 2.0 - 1.0) * ((width : F) / (height : F)) = u)
    (hv : row_v height py = (-0.96875 : F)) (hu1 : u * u ≤ 1) :
    (pixel_trace width height (0 : F) 0 5 0 0 py px).1 = true ∧
    pixel_rgb width height (0 : F) 0 5 0 0 py px = (184, 100, 66) := by
  obtain ⟨i, hi, hii, hn⟩ := vec3f_normalize_uv u (-0.96875 : F)
  obtain ⟨hi_lo, hi_hi⟩ := ground_ray_scale u i hi hii hu1
  have hc1 : (1 : F) / 2 ≤ 0.96875 * i := by
    norm_num at hi_lo ⊢
    linarith
  have hc2 : (0.96875 : F) * i ≤ 1 := by
    norm_num at hi_hi ⊢
    linarith
  have hg0 : (⟨0, 0, 5⟩ : vec3f F).y + 1.5 ≤ 20 := by
    show (0 : F) + 1.5 ≤ 20
    norm_num
  have hstart : (0 : F) ≤ (⟨0, 0, 5⟩ : vec3f F).y + 1.5 - 0.96875 * i * 0.0 := by
    show (0 : F) ≤ 0 + 1.5 - 0.96875 * i * 0.0
    norm_num
  have hfuel : ((⟨0, 0, 5⟩ : vec3f F).y + 1.5 - 0.96875 * i * 0.0) * (1 / 2) ^ 47
      < SURF_DIST := by
    show ((0 : F) + 1.5 - 0.96875 * i * 0.0) * (1 / 2) ^ 47 < SURF_DIST
    unfold SURF_DIST
    norm_num
  obtain ⟨t, ht0, htg, _, hrm⟩ := ray_march_ground_hit (⟨0, 0, 5⟩ : vec3f F)
    ⟨u * i, -0.96875 * i, -1 * i⟩ (0.96875 * i) hc1 hg0
    (fun t ht hg => ground_ray_scene u i t hi ht hg) hc2 47 0.0 ⟨0, 0, 5⟩ (by norm_num)
    hstart hfuel
  have htr : pixel_trace width height (0 : F) 0 5 0 0 py px
      = (true, ⟨0 + u * i * t, 0 + -0.96875 * i * t, 5 + -1 * i * t⟩) := by
    unfold pixel_trace
    simp only [pixel_ray_dir_level, hu, hv, hn, vec3f_make]
    exact hrm
  have hX0 : 0 ≤ i * t := mul_nonneg hi.le ht0
  have hX : i * t ≤ 1.6 := by
    have htg2 : (0 : F) ≤ 0 + 1.5 - 0.96875 * i * t := htg
    norm_num at htg2 ⊢
    linarith
  have hnorm := compute_normal_ground
    (⟨0 + u * i * t, 0 + -0.96875 * i * t, 5 + -1 * i * t⟩ : vec3f F)
    (by show (0.5 : F) ≤ 5 + -1 * i * t; norm_num at hX ⊢; linarith)
    (by
      show (0 : F) + -0.96875 * i * t + 2.6 ≤ 5 + -1 * i * t
      norm_num at hX ⊢
      linarith)
  refine ⟨by rw [htr], ?_⟩
  simp only [pixel_rgb, htr, if_true]
  exact shade_hit_up _ hnorm

/-- The centre pixel of the 64 x 64 image seen from `(0, 0, 5)` is a hit at the pole
`(0, 0, 1)` of the sphere. -/
theorem centre_pixel :
    pixel_trace 64 64 (0 : F) 0 5 0 0 32 32 = (true, ⟨0, 0, 1⟩) ∧
    pixel_rgb 64 64 (0 : F) 0 5 0 0 32 32 = (89, 48, 32) := by
  have hu : (((32 : Int) : F) * (1.0 / ((64 : Int) : F)) * 2.0 - 1.0)
      * (((64 : Int) : F) / ((64 : Int) : F)) = 0 := by norm_num
  have hv : row_v 64 32 = (0 : F) := by unfold row_v; norm_num
  have htr : pixel_trace 64 64 (0 : F) 0 5 0 0 32 32 = (true, ⟨0, 0, 1⟩) := by
    unfold pixel_trace
    simp only [pixel_ray_dir_level, hu, hv, vec3f_normalize_back, vec3f_make]
    exact axis_march_hits _
  refine ⟨htr, ?_⟩
  simp only [pixel_rgb, htr, if_true]
  exact shade_hit_front _ compute_normal_pole

/-- The pixels of the top row of the 64 x 64 image seen from `(0, 0, 5)` are misses. -/
theorem top_row_pixel (px : Int) (u : F)
    (hu : ((px : F) * (1.0 / ((64 : Int) : F)) * 2.0 - 1.0)
      * (((64 : Int) : F) / ((64 : Int) : F)) = u) :
    (pixel_trace 64 64 (0 : F) 0 5 0 0 0 px).1 = false ∧
    pixel_rgb 64 64 (0 : F) 0 5 0 0 0 px = (40, 45, 70) := by
  have hv : row_v 64 0 = (1 : F) := by unfold row_v; norm_num
  have h := level_pixel_miss 64 64 0 px 0 0 5 u 1 hu hv
    (fun s hs => by
      unfold SURF_DIST
      exact le_trans (by norm_num) (scene_sdf_top_row u s hs))
  exact ⟨h.1, by rw [h.2, shade_background_one]⟩

/-- The corner pixels of the bottom row of the 64 x 64 image seen from `(0, 0, 5)` are
hits on the ground plane. -/
theorem bottom_corner_pixels :
    (pixel_trace 64 64 (0 : F) 0 5 0 0 63 0).1 = true ∧
    pixel_rgb 64 64 (0 : F) 0 5 0 0 63 0 = (184, 100, 66) ∧
    (pixel_trace 64 64 (0 : F) 0 5 0 0 63 63).1 = true ∧
    pixel_rgb 64 64 (0 : F) 0 5 0 0 63 63 = (184, 100, 66) := by
  have hv : row_v 64 63 = (-0.96875 : F) := by unfold row_v; norm_num
  have h0 := level_pixel_ground_hit 64 64 63 0 (-1 : F) (by norm_num) hv (by norm_num)
  have h63 := level_pixel_ground_hit 64 64 63 63 (0.96875 : F) (by norm_num) hv (by norm_num)
  exact ⟨h0.1, h0.2, h63.1, h63.2⟩

end SixtyFour

section ImageClaims

variable {F : Type} [LinearOrderedField F] [FloorRing F] [Libm F]

/-- The 64 x 64 render from `(0, 0, 5)`: the centre and the four corners. -/
theorem sixty_four_bytes (b0 : PixelBuffer) :
    ∃ b, srl_render_sdf_scene (some b0) 64 64 (0 : F) 0 5 0 0 = some b ∧
      (b.data 8320, b.data 8321, b.data 8322, b.data 8323) = (89, 48, 32, 255) ∧
      (b.data 0, b.data 1, b.data 2, b.data 3) = (40, 45, 70, 255) ∧
      (b.data 252, b.data 253, b.data 254, b.data 255) = (40, 45, 70, 255) ∧
      (b.data 16128, b.data 16129, b.data 16130, b.data 16131) = (184, 100, 66, 255) ∧
      (b.data 16380, b.data 16381, b.data 16382, b.data 16383) = (184, 100, 66, 255) := by
  obtain ⟨b, hb, hr⟩ := render_rendered 64 64 (0 : F) 0 5 0 0 b0 (by norm_num)
    (by norm_num) (by norm_num)
  have h64 : (64 : Int).toNat = 64 := by decide
  have px := fun py px hpy hpx => rendered_pixel 64 64 (0 : F) 0 5 0 0 b0 b (by norm_num) hr
    py px hpy hpx
  have pc := px 32 32 (by rw [h64]; norm_num) (by rw [h64]; norm_num)
  have p00 := px 0 0 (by rw [h64]; norm_num) (by rw [h64]; norm_num)
  have p01 := px 0 63 (by rw [h64]; norm_num) (by rw [h64]; norm_num)
  have p10 := px 63 0 (by rw [h64]; norm_num) (by rw [h64]; norm_num)
  have p11 := px 63 63 (by rw [h64]; norm_num) (by rw [h64]; norm_num)
  have rc := (centre_pixel (F := F)).2
  have r00 := (top_row_pixel (F := F) 0 (-1) (by norm_num)).2
  have r01 := (top_row_pixel (F := F) 63 0.96875 (by norm_num)).2
  obtain ⟨_, r10, _, r11⟩ := bottom_corner_pixels (F := F)
  simp only [Nat.cast_ofNat, Nat.cast_zero] at pc p00 p01 p10 p11
  rw [rc] at pc
  rw [r00] at p00
  rw [r01] at p01
  rw [r10] at p10
  rw [r11] at p11
  norm_num at pc p00 p01 p10 p11
  exact ⟨b, hb, by simpa using pc, by simpa using p00, by simpa using p01,
    by simpa using p10, by simpa using p11⟩

/-- C8 (amended). The 64 x 64 render from `(0, 0, 5)` with yaw and pitch zero: the centre
pixel `(32, 32)` is a hit (on the sphere, colour `(89, 48, 32)`); the top corners `(0, 0)`
and `(63, 0)` are misses and hold the background gradient of row 0; the bottom corners
`(0, 63)` and `(63, 63)` are hits on the ground plane, of colour `(184, 100, 66)`. -/
theorem render_sixty_four_centre_corners (b0 : PixelBuffer) :
    ∃ b, srl_render_sdf_scene (some b0) 64 64 (0 : F) 0 5 0 0 = some b ∧
      ((pixel_trace 64 64 (0 : F) 0 5 0 0 32 32).1 = true ∧
        (b.data 8320, b.data 8321, b.data 8322, b.data 8323) = (89, 48, 32, 255)) ∧
      ((pixel_trace 64 64 (0 : F) 0 5 0 0 0 0).1 = false ∧
        (b.data 0, b.data 1, b.data 2) = shade_background (row_v 64 0 : F) ∧
        b.data 3 = 255) ∧
      ((pixel_trace 64 64 (0 : F) 0 5 0 0 0 63).1 = false ∧
        (b.data 252, b.data 253, b.data 254) = shade_background (row_v 64 0 : F) ∧
        b.data 255 = 255) ∧
      ((pixel_trace 64 64 (0 : F) 0 5 0 0 63 0).1 = true ∧
        (b.data 16128, b.data 16129, b.data 16130, b.data 16131) = (184, 100, 66, 255)) ∧
      ((pixel_trace 64 64 (0 : F) 0 5 0 0 63 63).1 = true ∧
        (b.data 16380, b.data 16381, b.data 16382, b.data 16383) = (184, 100, 66, 255)) := by
  obtain ⟨b, hb, hc, h00, h01, h10, h11⟩ := sixty_four_bytes (F := F) b0
  have hv : row_v 64 0 = (1 : F) := by unfold row_v; norm_num
  simp only [Prod.mk.injEq] at h00 h01
  obtain ⟨t10, _, t11, _⟩ := bottom_corner_pixels (F := F)
  refine ⟨b, hb, ⟨by rw [(centre_pixel (F := F)).1], hc⟩,
    ⟨(top_row_pixel (F := F) 0 (-1) (by norm_num)).1, ?_, h00.2.2.2⟩,
    ⟨(top_row_pixel (F := F) 63 0.96875 (by norm_num)).1, ?_, h01.2.2.2⟩,
    ⟨t10, h10⟩, ⟨t11, h11⟩⟩
  · rw [hv, shade_background_one, h00.1, h00.2.1, h00.2.2.1]
  · rw [hv, shade_background_one, h01.1, h01.2.1, h01.2.2.1]

/-- C8, counterexample. On the real numbers, the bottom-left corner `(0, 63)` of the
64 x 64 render from `(0, 0, 5)` is a hit and its bytes, at offset `63 * (64 * 4) + 0 * 4`,
are not the background gradient of its row. -/
theorem render_sixty_four_centre_corners_counterexample :
    ∃ b, srl_render_sdf_scene (some ⟨fun _ => 0, []⟩) 64 64 (0 : ℝ) 0 5 0 0 = some b ∧
      (pixel_trace 64 64 (0 : ℝ) 0 5 0 0 63 0).1 = true ∧
      (b.data (63 * (64 * 4) + 0 * 4 + 0), b.data (63 * (64 * 4) + 0 * 4 + 1),
        b.data (63 * (64 * 4) + 0 * 4 + 2)) ≠ shade_background (row_v 64 63 : ℝ) := by
  obtain ⟨b, hb, _, _, _, h10, _⟩ := sixty_four_bytes (F := ℝ) ⟨fun _ => 0, []⟩
  have hv : row_v 64 63 = (-0.96875 : ℝ) := by unfold row_v; norm_num
  simp only [Prod.mk.injEq] at h10
  refine ⟨b, hb, (bottom_corner_pixels (F := ℝ)).1, ?_⟩
  rw [hv, shade_background_bottom]
  norm_num
  intro h
  rw [h10.1] at h
  norm_num at h

end ImageClaims


section RayLength

variable {F : Type} [LinearOrderedField F] [Libm F]

theorem pixel_ray_dir_eq (width height : Int) (cam_yaw cam_pitch : F) (py px : Int) :
    pixel_ray_dir width height cam_yaw cam_pitch py px
      = vec3f_normalize (pixel_ray_vec width height cam_yaw cam_pitch py px) := rfl

/-- The squared length of the un-normalised ray vector is `u * u + v * v + 1`: the two
rotations preserve the length of `(u, v, -1)`. -/
theorem pixel_ray_vec_length_sq (width height : Int) (cam_yaw cam_pitch : F) (py px : Int) :
    vec3f_length_sq (pixel_ray_vec width height cam_yaw cam_pitch py px)
      = ((px : F) * (1.0 / (width : F)) * 2.0 - 1.0) * ((width : F) / (height : F))
          * (((px : F) * (1.0 / (width : F)) * 2.0 - 1.0) * ((width : F) / (height : F)))
        + row_v height py * row_v height py + 1 := by
  have h1 := Libm.cosf_sq_add_sinf_sq cam_yaw
  have h2 := Libm.cosf_sq_add_sinf_sq cam_pitch
  simp only [vec3f_length_sq, pixel_ray_vec, vec3f_make]
  generalize ((px : F) * (1.0 / (width : F)) * 2.0 - 1.0) * ((width : F) / (height : F)) = u
  generalize (row_v height py : F) = v
  generalize Trig.cosf cam_yaw = c1 at *
  generalize Trig.sinf cam_yaw = s1 at *
  generalize Trig.cosf cam_pitch = c2 at *
  generalize Trig.sinf cam_pitch = s2 at *
  linear_combination (u * u + (v * s2 - c2) * (v * s2 - c2)) * h1 + (v * v + 1) * h2

/-- A vector of squared length at least `1` is normalised by the division of line 85,
and the result has squared length `1`. -/
theorem vec3f_normalize_of_long (w : vec3f F) (hL : 1 ≤ vec3f_length_sq w) :
    vec3f_length_sq w > 1e-12 ∧
    vec3f_normalize w
      = vec3f_make (w.x * (1.0 / Sqrtf.sqrtf (vec3f_length_sq w)))
          (w.y * (1.0 / Sqrtf.sqrtf (vec3f_length_sq w)))
          (w.z * (1.0 / Sqrtf.sqrtf (vec3f_length_sq w))) := by
  have hgt : vec3f_length_sq w > 1e-12 := lt_of_lt_of_le (by norm_num) hL
  refine ⟨hgt, ?_⟩
  unfold vec3f_normalize
  simp only []
  rw [if_pos hgt]

/-- The result of `vec3f_normalize` always has squared length `1`. -/
theorem vec3f_normalize_length_sq (w : vec3f F) :
    vec3f_length_sq (vec3f_normalize w) = 1 := by
  unfold vec3f_normalize
  simp only []
  split_ifs with h
  · have hpos : (0 : F) < vec3f_length_sq w := lt_trans (by norm_num) h
    have hs := sqrtf_pos _ hpos
    have hss := Libm.sqrtf_mul_self _ hpos.le
    have hne : Sqrtf.sqrtf (vec3f_length_sq w) ≠ 0 := ne_of_gt hs
    have e : vec3f_length_sq (vec3f_make (w.x * (1.0 / Sqrtf.sqrtf (vec3f_length_sq w)))
        (w.y * (1.0 / Sqrtf.sqrtf (vec3f_length_sq w)))
        (w.z * (1.0 / Sqrtf.sqrtf (vec3f_length_sq w))))
        = vec3f_length_sq w
          / (Sqrtf.sqrtf (vec3f_length_sq w) * Sqrtf.sqrtf (vec3f_length_sq w)) := by
      simp only [vec3f_length_sq, vec3f_make]
      field_simp
      ring
    rw [e, hss, div_self (ne_of_gt hpos)]
  · simp only [vec3f_length_sq, vec3f_make]
    norm_num

theorem vec3f_normalize_length (w : vec3f F) : vec3f_length (vec3f_normalize w) = 1 := by
  unfold vec3f_length
  rw [vec3f_normalize_length_sq]
  have := sqrtf_mul_self_eq (1 : F) zero_le_one
  rwa [mul_one] at this

/-- The ray construction in the exact arithmetic of an ordered field, for every image
size, pixel, yaw and pitch: the un-normalised ray vector of lines 194-198 has squared
length at least `0.99`, far above the threshold `1e-12` of line 84; so `vec3f_normalize`
takes the dividing branch, the ray direction is that vector times `1 / sqrtf(len_sq)`, not
the fallback, and the squared length of the ray direction is within `1e-5` of `1`. The
exact values are `u * u + v * v + 1` and `1` (`pixel_ray_vec_length_sq`,
`vec3f_normalize_length_sq`); the same bounds are proved on the rounded operations of
binary32 in `pixel_ray_dir_rounded`. -/
theorem pixel_ray_dir_near_unit (width height : Int) (cam_yaw cam_pitch : F) (py px : Int)
    (_hw : 0 < width) (_hh : 0 < height) (_hpx0 : 0 ≤ px) (_hpx : px < width)
    (_hpy0 : 0 ≤ py) (_hpy : py < height) :
    (0.99 : F) ≤ vec3f_length_sq (pixel_ray_vec width height cam_yaw cam_pitch py px) ∧
    vec3f_length_sq (pixel_ray_vec width height cam_yaw cam_pitch py px) > 1e-12 ∧
    pixel_ray_dir width height cam_yaw cam_pitch py px
      = vec3f_make
          ((pixel_ray_vec width height cam_yaw cam_pitch py px).x
            * (1.0 / Sqrtf.sqrtf
                (vec3f_length_sq (pixel_ray_vec width height cam_yaw cam_pitch py px))))
          ((pixel_ray_vec width height cam_yaw cam_pitch py px).y
            * (1.0 / Sqrtf.sqrtf
                (vec3f_length_sq (pixel_ray_vec width height cam_yaw cam_pitch py px))))
          ((pixel_ray_vec width height cam_yaw cam_pitch py px).z
            * (1.0 / Sqrtf.sqrtf
                (vec3f_length_sq (pixel_ray_vec width height cam_yaw cam_pitch py px)))) ∧
    |vec3f_length_sq (pixel_ray_dir width height cam_yaw cam_pitch py px) - 1| ≤ 0.00001 := by
  have hlen := pixel_ray_vec_length_sq width height cam_yaw cam_pitch py px
  have hL : 1 ≤ vec3f_length_sq (pixel_ray_vec width height cam_yaw cam_pitch py px) := by
    rw [hlen]
    nlinarith [mul_self_nonneg
      (((px : F) * (1.0 / (width : F)) * 2.0 - 1.0) * ((width : F) / (height : F))),
      mul_self_nonneg (row_v height py : F)]
  obtain ⟨hgt, hn⟩ := vec3f_normalize_of_long _ hL
  refine ⟨le_trans (by norm_num) hL, hgt, ?_, ?_⟩
  · rw [pixel_ray_dir_eq, hn]
  · rw [pixel_ray_dir_eq, vec3f_normalize_length_sq]
    norm_num

/-- An instance of `pixel_ray_dir_near_unit` on the real numbers: the corner pixel
`(0, 63)` of a 64 x 64 image with yaw `1` and pitch `2`. -/
theorem pixel_ray_dir_near_unit_witness :
    (0.99 : ℝ) ≤ vec3f_length_sq (pixel_ray_vec 64 64 (1 : ℝ) 2 63 0) ∧
    vec3f_length_sq (pixel_ray_vec 64 64 (1 : ℝ) 2 63 0) > 1e-12 ∧
    |vec3f_length_sq (pixel_ray_dir 64 64 (1 : ℝ) 2 63 0) - 1| ≤ 0.00001 :=
  ⟨(pixel_ray_dir_near_unit 64 64 (1 : ℝ) 2 63 0 (by norm_num) (by norm_num) (by norm_num)
      (by norm_num) (by norm_num) (by norm_num)).1,
    (pixel_ray_dir_near_unit 64 64 (1 : ℝ) 2 63 0 (by norm_num) (by norm_num) (by norm_num)
      (by norm_num) (by norm_num) (by norm_num)).2.1,
    (pixel_ray_dir_near_unit 64 64 (1 : ℝ) 2 63 0 (by norm_num) (by norm_num) (by norm_num)
      (by norm_num) (by norm_num) (by norm_num)).2.2.2⟩

end RayLength
section Relaxation

variable {F : Type} [LinearOrderedField F] [Libm F]

/-- One iteration of the specification's march from `(0, 0, 5)` down the `z` axis. -/
theorem spec_axis_march_step (n : Nat) (depth : F) (hp : vec3f F) (z dist : F)
    (hz : 5 - depth = z) (hz4 : 0.4 ≤ z) (hd : min (z - 1) 1.5 = dist) :
    spec_ray_march (⟨0, 0, 5⟩ : vec3f F) ⟨0, 0, -1⟩ (n + 1) depth hp
      = if dist < SURF_DIST then (true, ⟨0, 0, z⟩)
        else if depth + dist * RELAX > MAX_DIST then (false, ⟨0, 0, z⟩)
        else spec_ray_march (⟨0, 0, 5⟩ : vec3f F) ⟨0, 0, -1⟩ n (depth + dist * RELAX)
          ⟨0, 0, z⟩ := by
  have e : (⟨0 + 0 * depth, 0 + 0 * depth, 5 + -1 * depth⟩ : vec3f F) = ⟨0, 0, z⟩ := by
    rw [← hz]
    congr 1 <;> ring
  rw [spec_ray_march]
  simp only [e, scene_sdf_on_axis z hz4, hd]

/-- The specification's march of the centre ray: steps of `1.8`, `1.8` and `0.48`, then a
hit at `(0, 0, 0.92)`, inside the sphere. -/
theorem spec_axis_march_hits (hp : vec3f F) :
    spec_ray_march (⟨0, 0, 5⟩ : vec3f F) ⟨0, 0, -1⟩ MAX_STEPS 0.0 hp
      = (true, ⟨0, 0, 0.92⟩) := by
  have hS : ¬ ((1.5 : F) < SURF_DIST) := by unfold SURF_DIST; norm_num
  have hS1 : ¬ ((0.4 : F) < SURF_DIST) := by unfold SURF_DIST; norm_num
  have hS0 : (-0.08 : F) < SURF_DIST := by unfold SURF_DIST; norm_num
  have hM1 : ¬ ((0.0 : F) + 1.5 * RELAX > MAX_DIST) := by
    unfold MAX_DIST RELAX; norm_num
  have hM2 : ¬ ((0.0 : F) + 1.5 * RELAX + 1.5 * RELAX > MAX_DIST) := by
    unfold MAX_DIST RELAX; norm_num
  have hM3 : ¬ ((0.0 : F) + 1.5 * RELAX + 1.5 * RELAX + 0.4 * RELAX > MAX_DIST) := by
    unfold MAX_DIST RELAX; norm_num
  have m1 : min ((5 : F) - 1) 1.5 = 1.5 := min_eq_right (by norm_num)
  have m2 : min ((3.2 : F) - 1) 1.5 = 1.5 := min_eq_right (by norm_num)
  have m3 : min ((1.4 : F) - 1) 1.5 = 0.4 := by
    rw [min_eq_left (by norm_num)]
    norm_num
  have m4 : min ((0.92 : F) - 1) 1.5 = -0.08 := by
    rw [min_eq_left (by norm_num)]
    norm_num
  show spec_ray_march (⟨0, 0, 5⟩ : vec3f F) ⟨0, 0, -1⟩ (47 + 1) 0.0 hp = _
  rw [spec_axis_march_step 47 0.0 hp 5 1.5 (by norm_num) (by norm_num) m1, if_neg hS,
    if_neg hM1]
  show spec_ray_march (⟨0, 0, 5⟩ : vec3f F) ⟨0, 0, -1⟩ (46 + 1) _ _ = _
  rw [spec_axis_march_step 46 _ _ 3.2 1.5 (by unfold RELAX; norm_num) (by norm_num) m2,
    if_neg hS, if_neg hM2]
  show spec_ray_march (⟨0, 0, 5⟩ : vec3f F) ⟨0, 0, -1⟩ (45 + 1) _ _ = _
  rw [spec_axis_march_step 45 _ _ 1.4 0.4 (by unfold RELAX; norm_num) (by norm_num) m3,
    if_neg hS1, if_neg hM3]
  show spec_ray_march (⟨0, 0, 5⟩ : vec3f F) ⟨0, 0, -1⟩ (44 + 1) _ _ = _
  rw [spec_axis_march_step 44 _ _ 0.92 (-0.08) (by unfold RELAX; norm_num) (by norm_num) m4,
    if_pos hS0]

/-- The second point visited by the march of the centre ray is at depth `1.5`, the
scene distance at the first point, not `1.8`. -/
theorem axis_march_second_point (hp : vec3f F) :
    ray_march (⟨0, 0, 5⟩ : vec3f F) ⟨0, 0, -1⟩ 2 0.0 hp = (false, ⟨0, 0, 3.5⟩) := by
  have hS : ¬ ((1.5 : F) < SURF_DIST) := by unfold SURF_DIST; norm_num
  have hM1 : ¬ ((0.0 : F) + 1.5 > MAX_DIST) := by unfold MAX_DIST; norm_num
  have hM2 : ¬ ((0.0 : F) + 1.5 + 1.5 > MAX_DIST) := by unfold MAX_DIST; norm_num
  have m1 : min ((5 : F) - 1) 1.5 = 1.5 := min_eq_right (by norm_num)
  have m2 : min ((3.5 : F) - 1) 1.5 = 1.5 := min_eq_right (by norm_num)
  show ray_march (⟨0, 0, 5⟩ : vec3f F) ⟨0, 0, -1⟩ (1 + 1) 0.0 hp = _
  rw [axis_march_step 1 0.0 hp 5 1.5 (by norm_num) (by norm_num) m1, if_neg hS, if_neg hM1]
  show ray_march (⟨0, 0, 5⟩ : vec3f F) ⟨0, 0, -1⟩ (0 + 1) _ _ = _
  rw [axis_march_step 0 _ _ 3.5 1.5 (by norm_num) (by norm_num) m2, if_neg hS, if_neg hM2]
  rfl

/-- C11. The step of the code's loop, and its run on the centre ray of the 64 x 64 render
from `(0, 0, 5)`. A step that is not a hit advances the depth by the scene distance
itself (`RELAX` is not applied); the loop has `MAX_STEPS = 48` iterations and stops as a
miss once the depth exceeds `MAX_DIST = 40`. On the centre ray the code visits depth
`1.5` after the first step and hits at `(0, 0, 1)`; the loop of the specification, with
the factor `1.2`, hits at `(0, 0, 0.92)`. -/
theorem ray_march_not_relaxed (o d : vec3f F) (n : Nat) (depth : F) (hp : vec3f F) :
    ray_march o d (n + 1) depth hp
      = (if scene_sdf ⟨o.x + d.x * depth, o.y + d.y * depth, o.z + d.z * depth⟩ < 0.002
          then (true, ⟨o.x + d.x * depth, o.y + d.y * depth, o.z + d.z * depth⟩)
        else if depth
            + scene_sdf ⟨o.x + d.x * depth, o.y + d.y * depth, o.z + d.z * depth⟩ > 40
          then (false, ⟨o.x + d.x * depth, o.y + d.y * depth, o.z + d.z * depth⟩)
        else ray_march o d n
          (depth + scene_sdf ⟨o.x + d.x * depth, o.y + d.y * depth, o.z + d.z * depth⟩)
          ⟨o.x + d.x * depth, o.y + d.y * depth, o.z + d.z * depth⟩) ∧
    ray_march o d 0 depth hp = (false, hp) ∧
    MAX_STEPS = 48 ∧
    (RELAX : F) = 1.2 ∧
    pixel_trace 64 64 (0 : F) 0 5 0 0 32 32
      = ray_march (⟨0, 0, 5⟩ : vec3f F) ⟨0, 0, -1⟩ MAX_STEPS 0.0 ⟨0, 0, 5⟩ ∧
    ray_march (⟨0, 0, 5⟩ : vec3f F) ⟨0, 0, -1⟩ 2 0.0 ⟨0, 0, 5⟩ = (false, ⟨0, 0, 3.5⟩) ∧
    ray_march (⟨0, 0, 5⟩ : vec3f F) ⟨0, 0, -1⟩ MAX_STEPS 0.0 ⟨0, 0, 5⟩ = (true, ⟨0, 0, 1⟩) ∧
    spec_ray_march (⟨0, 0, 5⟩ : vec3f F) ⟨0, 0, -1⟩ MAX_STEPS 0.0 ⟨0, 0, 5⟩
      = (true, ⟨0, 0, 0.92⟩) ∧
    ray_march (⟨0, 0, 5⟩ : vec3f F) ⟨0, 0, -1⟩ MAX_STEPS 0.0 ⟨0, 0, 5⟩
      ≠ spec_ray_march (⟨0, 0, 5⟩ : vec3f F) ⟨0, 0, -1⟩ MAX_STEPS 0.0 ⟨0, 0, 5⟩ := by
  have hu : (((32 : Int) : F) * (1.0 / ((64 : Int) : F)) * 2.0 - 1.0)
      * (((64 : Int) : F) / ((64 : Int) : F)) = 0 := by norm_num
  have hv : row_v 64 32 = (0 : F) := by unfold row_v; norm_num
  have e40 : (MAX_DIST : F) = 40 := by unfold MAX_DIST; norm_num
  refine ⟨?_, rfl, rfl, rfl, ?_, axis_march_second_point _, axis_march_hits _,
    spec_axis_march_hits _, ?_⟩
  · rw [ray_march]
    simp only [SURF_DIST, e40]
  · unfold pixel_trace
    simp only [pixel_ray_dir_level, hu, hv, vec3f_normalize_back, vec3f_make]
  · rw [axis_march_hits, spec_axis_march_hits]
    intro h
    have hz := congrArg (fun r : Bool × vec3f F => r.2.z) h
    simp only [] at hz
    norm_num at hz

end Relaxation
section CastBounds

variable {F : Type} [LinearOrderedField F] [FloorRing F]

/-- For a value in `[lo, hi + 1)` with `hi < 256` the `unsigned char` conversion does not
wrap and gives a byte in `[lo, hi]`. -/
theorem to_uchar_bounds (x : F) (lo hi : Nat) (h1 : (lo : F) ≤ x) (h2 : x < (hi : F) + 1)
    (h3 : hi < 256) : lo ≤ to_uchar x ∧ to_uchar x ≤ hi := by
  have h0 : (0 : F) ≤ x := le_trans (Nat.cast_nonneg lo) h1
  have hlo : (lo : Int) ≤ ⌊x⌋ := by
    rw [Int.le_floor]
    exact_mod_cast h1
  have hhi : ⌊x⌋ < (hi : Int) + 1 := by
    rw [Int.floor_lt]
    exact_mod_cast h2
  unfold to_uchar
  rw [if_pos h0]
  omega

/-- The background bytes for a row coordinate `v` in `(-1, 1]`. -/
theorem shade_background_bounds (v : F) (hv1 : -1 < v) (hv2 : v ≤ 1) :
    (0 ≤ 25.0 + (v + 1.0) * 0.5 * 15.0 ∧ 25.0 + (v + 1.0) * 0.5 * 15.0 ≤ 255 ∧
      0 ≤ 25.0 + (v + 1.0) * 0.5 * 20.0 ∧ 25.0 + (v + 1.0) * 0.5 * 20.0 ≤ 255 ∧
      0 ≤ 40.0 + (v + 1.0) * 0.5 * 30.0 ∧ 40.0 + (v + 1.0) * 0.5 * 30.0 ≤ 255) ∧
    shade_background v
      = (to_uchar (25.0 + (v + 1.0) * 0.5 * 15.0), to_uchar (25.0 + (v + 1.0) * 0.5 * 20.0),
        to_uchar (40.0 + (v + 1.0) * 0.5 * 30.0)) ∧
    (25 ≤ (shade_background v).1 ∧ (shade_background v).1 ≤ 40) ∧
    (25 ≤ (shade_background v).2.1 ∧ (shade_background v).2.1 ≤ 45) ∧
    (40 ≤ (shade_background v).2.2 ∧ (shade_background v).2.2 ≤ 70) := by
  have e : shade_background v
      = (to_uchar (25.0 + (v + 1.0) * 0.5 * 15.0), to_uchar (25.0 + (v + 1.0) * 0.5 * 20.0),
        to_uchar (40.0 + (v + 1.0) * 0.5 * 30.0)) := rfl
  refine ⟨?_, e, ?_, ?_, ?_⟩
  · norm_num
    refine ⟨?_, ?_, ?_, ?_, ?_, ?_⟩ <;> linarith
  · rw [e]
    exact to_uchar_bounds _ 25 40 (by norm_num; linarith) (by norm_num; linarith)
      (by norm_num)
  · rw [e]
    exact to_uchar_bounds _ 25 45 (by norm_num; linarith) (by norm_num; linarith)
      (by norm_num)
  · rw [e]
    exact to_uchar_bounds _ 40 70 (by norm_num; linarith) (by norm_num; linarith)
      (by norm_num)

end CastBounds

section RowBounds

variable {F : Type} [LinearOrderedField F]

/-- The row coordinate of a row of the image lies in `(-1, 1]`. -/
theorem row_v_bounds (height py : Int) (hh : 0 < height) (hpy0 : 0 ≤ py)
    (hpy : py < height) : -1 < (row_v height py : F) ∧ (row_v height py : F) ≤ 1 := by
  have hhF : (0 : F) < (height : F) := by exact_mod_cast hh
  have hp0 : (0 : F) ≤ (py : F) := by exact_mod_cast hpy0
  have hp1 : (py : F) < (height : F) := by exact_mod_cast hpy
  have e : (row_v height py : F) = 1 - (py : F) / (height : F) * 2 := by
    unfold row_v
    norm_num
    ring
  have hq0 : 0 ≤ (py : F) / (height : F) := div_nonneg hp0 hhF.le
  have hq1 : (py : F) / (height : F) < 1 := (div_lt_one hhF).mpr hp1
  rw [e]
  constructor <;> linarith

/-- The light vector is shorter than `1.000002`: a unit normal has a scalar product of at
most `1.000002` with it. -/
theorem light_dot_le (n : vec3f F) (hn : vec3f_length_sq n = 1) :
    n.x * (light_dir : vec3f F).x + n.y * (light_dir : vec3f F).y
      + n.z * (light_dir : vec3f F).z ≤ 1.000002 := by
  simp only [light_dir, vec3f_make]
  simp only [vec3f_length_sq] at hn
  by_contra hc
  push_neg at hc
  have h1 := mul_self_nonneg (n.x * 0.80812 - n.y * 0.50508)
  have h2 := mul_self_nonneg (n.x * 0.30305 - n.z * 0.50508)
  have h3 := mul_self_nonneg (n.y * 0.30305 - n.z * 0.80812)
  have hid : (n.x * 0.50508 + n.y * 0.80812 + n.z * 0.30305)
        * (n.x * 0.50508 + n.y * 0.80812 + n.z * 0.30305)
      + (n.x * 0.80812 - n.y * 0.50508) * (n.x * 0.80812 - n.y * 0.50508)
      + (n.x * 0.30305 - n.z * 0.50508) * (n.x * 0.30305 - n.z * 0.50508)
      + (n.y * 0.30305 - n.z * 0.80812) * (n.y * 0.30305 - n.z * 0.80812)
      = (n.x * n.x + n.y * n.y + n.z * n.z)
        * (0.50508 * 0.50508 + 0.80812 * 0.80812 + 0.30305 * 0.30305) := by ring
  rw [hn] at hid
  have hsq : (1.000002 : F) * 1.000002
      < (n.x * 0.50508 + n.y * 0.80812 + n.z * 0.30305)
        * (n.x * 0.50508 + n.y * 0.80812 + n.z * 0.30305) :=
    mul_self_lt_mul_self (by norm_num) hc
  norm_num at hid hsq
  linarith

end RowBounds
section Intensity

variable {F : Type} [LinearOrderedField F] [Libm F]

/-- The intensity of a hit lies between the ambient floor `0.15` and `1.0000017`. -/
theorem hit_intensity_bounds (p : vec3f F) :
    0.15 ≤ hit_intensity p ∧ hit_intensity p ≤ 1.0000017 := by
  have hn : vec3f_length_sq (compute_normal p) = 1 := by
    unfold compute_normal
    exact vec3f_normalize_length_sq _
  have hd := light_dot_le (compute_normal p) hn
  unfold hit_intensity
  simp only []
  split_ifs with h
  · norm_num
  · push_neg at h
    norm_num at h hd ⊢
    constructor <;> linarith

end Intensity

section ColourRange

variable {F : Type} [LinearOrderedField F] [FloorRing F] [Libm F]

theorem shade_hit_eq (p : vec3f F) :
    shade_hit p
      = (to_uchar (220.0 * hit_intensity p), to_uchar (120.0 * hit_intensity p),
        to_uchar (80.0 * hit_intensity p)) := rfl

/-- The bytes of a hit. -/
theorem shade_hit_bounds (p : vec3f F) :
    (0 ≤ 220.0 * hit_intensity p ∧ 220.0 * hit_intensity p ≤ 255 ∧
      0 ≤ 120.0 * hit_intensity p ∧ 120.0 * hit_intensity p ≤ 255 ∧
      0 ≤ 80.0 * hit_intensity p ∧ 80.0 * hit_intensity p ≤ 255) ∧
    (33 ≤ (shade_hit p).1 ∧ (shade_hit p).1 ≤ 220) ∧
    (18 ≤ (shade_hit p).2.1 ∧ (shade_hit p).2.1 ≤ 120) ∧
    (12 ≤ (shade_hit p).2.2 ∧ (shade_hit p).2.2 ≤ 80) := by
  obtain ⟨h1, h2⟩ := hit_intensity_bounds p
  refine ⟨?_, ?_, ?_, ?_⟩
  · norm_num at h1 h2 ⊢
    refine ⟨?_, ?_, ?_, ?_, ?_, ?_⟩ <;> linarith
  · rw [shade_hit_eq]
    exact to_uchar_bounds _ 33 220 (by norm_num at h1 ⊢; linarith)
      (by norm_num at h2 ⊢; linarith) (by norm_num)
  · rw [shade_hit_eq]
    exact to_uchar_bounds _ 18 120 (by norm_num at h1 ⊢; linarith)
      (by norm_num at h2 ⊢; linarith) (by norm_num)
  · rw [shade_hit_eq]
    exact to_uchar_bounds _ 12 80 (by norm_num at h1 ⊢; linarith)
      (by norm_num at h2 ⊢; linarith) (by norm_num)

/-- C14. For every image size, camera pose and pixel of the image, the three values that
the shading converts to `unsigned char` lie in `[0, 255]`, so the conversion does not
wrap, and the bytes are within `33..220`, `18..120`, `12..80` on a hit and within
`25..40`, `25..45`, `40..70` on a miss. -/
theorem pixel_rgb_in_range (width height : Int) (cam_x cam_y cam_z cam_yaw cam_pitch : F)
    (py px : Int) (_hw : 0 < width) (hh : 0 < height) (_hpx0 : 0 ≤ px) (_hpx : px < width)
    (hpy0 : 0 ≤ py) (hpy : py < height) :
    ((pixel_trace width height cam_x cam_y cam_z cam_yaw cam_pitch py px).1 = true →
      (0 ≤ 220.0 * hit_intensity
            (pixel_trace width height cam_x cam_y cam_z cam_yaw cam_pitch py px).2 ∧
        220.0 * hit_intensity
            (pixel_trace width height cam_x cam_y cam_z cam_yaw cam_pitch py px).2 ≤ 255 ∧
        0 ≤ 120.0 * hit_intensity
            (pixel_trace width height cam_x cam_y cam_z cam_yaw cam_pitch py px).2 ∧
        120.0 * hit_intensity
            (pixel_trace width height cam_x cam_y cam_z cam_yaw cam_pitch py px).2 ≤ 255 ∧
        0 ≤ 80.0 * hit_intensity
            (pixel_trace width height cam_x cam_y cam_z cam_yaw cam_pitch py px).2 ∧
        80.0 * hit_intensity
            (pixel_trace width height cam_x cam_y cam_z cam_yaw cam_pitch py px).2 ≤ 255) ∧
      pixel_rgb width height cam_x cam_y cam_z cam_yaw cam_pitch py px
        = (to_uchar (220.0 * hit_intensity
              (pixel_trace width height cam_x cam_y cam_z cam_yaw cam_pitch py px).2),
            to_uchar (120.0 * hit_intensity
              (pixel_trace width height cam_x cam_y cam_z cam_yaw cam_pitch py px).2),
            to_uchar (80.0 * hit_intensity
              (pixel_trace width height cam_x cam_y cam_z cam_yaw cam_pitch py px).2)) ∧
      (33 ≤ (pixel_rgb width height cam_x cam_y cam_z cam_yaw cam_pitch py px).1 ∧
        (pixel_rgb width height cam_x cam_y cam_z cam_yaw cam_pitch py px).1 ≤ 220) ∧
      (18 ≤ (pixel_rgb width height cam_x cam_y cam_z cam_yaw cam_pitch py px).2.1 ∧
        (pixel_rgb width height cam_x cam_y cam_z cam_yaw cam_pitch py px).2.1 ≤ 120) ∧
      (12 ≤ (pixel_rgb width height cam_x cam_y cam_z cam_yaw cam_pitch py px).2.2 ∧
        (pixel_rgb width height cam_x cam_y cam_z cam_yaw cam_pitch py px).2.2 ≤ 80)) ∧
    ((pixel_trace width height cam_x cam_y cam_z cam_yaw cam_pitch py px).1 = false →
      (0 ≤ 25.0 + ((row_v height py : F) + 1.0) * 0.5 * 15.0 ∧
        25.0 + ((row_v height py : F) + 1.0) * 0.5 * 15.0 ≤ 255 ∧
        0 ≤ 25.0 + ((row_v height py : F) + 1.0) * 0.5 * 20.0 ∧
        25.0 + ((row_v height py : F) + 1.0) * 0.5 * 20.0 ≤ 255 ∧
        0 ≤ 40.0 + ((row_v height py : F) + 1.0) * 0.5 * 30.0 ∧
        40.0 + ((row_v height py : F) + 1.0) * 0.5 * 30.0 ≤ 255) ∧
      pixel_rgb width height cam_x cam_y cam_z cam_yaw cam_pitch py px
        = (to_uchar (25.0 + ((row_v height py : F) + 1.0) * 0.5 * 15.0),
            to_uchar (25.0 + ((row_v height py : F) + 1.0) * 0.5 * 20.0),
            to_uchar (40.0 + ((row_v height py : F) + 1.0) * 0.5 * 30.0)) ∧
      (25 ≤ (pixel_rgb width height cam_x cam_y cam_z cam_yaw cam_pitch py px).1 ∧
        (pixel_rgb width height cam_x cam_y cam_z cam_yaw cam_pitch py px).1 ≤ 40) ∧
      (25 ≤ (pixel_rgb width height cam_x cam_y cam_z cam_yaw cam_pitch py px).2.1 ∧
        (pixel_rgb width height cam_x cam_y cam_z cam_yaw cam_pitch py px).2.1 ≤ 45) ∧
      (40 ≤ (pixel_rgb width height cam_x cam_y cam_z cam_yaw cam_pitch py px).2.2 ∧
        (pixel_rgb width height cam_x cam_y cam_z cam_yaw cam_pitch py px).2.2 ≤ 70)) := by
  constructor
  · intro hit
    have e : pixel_rgb width height cam_x cam_y cam_z cam_yaw cam_pitch py px
        = shade_hit (pixel_trace width height cam_x cam_y cam_z cam_yaw cam_pitch py px).2 := by
      simp only [pixel_rgb, hit, if_true]
    obtain ⟨hr, h1, h2, h3⟩ := shade_hit_bounds
      (pixel_trace width height cam_x cam_y cam_z cam_yaw cam_pitch py px).2
    rw [e]
    exact ⟨hr, shade_hit_eq _, h1, h2, h3⟩
  · intro miss
    have e : pixel_rgb width height cam_x cam_y cam_z cam_yaw cam_pitch py px
        = shade_background (row_v height py : F) := by
      simp only [pixel_rgb, miss, Bool.false_eq_true, if_false]
    obtain ⟨hv1, hv2⟩ := row_v_bounds (F := F) height py hh hpy0 hpy
    obtain ⟨hr, he, h1, h2, h3⟩ := shade_background_bounds (row_v height py : F) hv1 hv2
    rw [e]
    exact ⟨hr, he, h1, h2, h3⟩

/-- Witness of C14 on the real numbers, in the 64 x 64 render from `(0, 0, 5)`: the
centre pixel, a hit, and the top-left pixel, a miss. -/
theorem pixel_rgb_in_range_witness :
    ((33 ≤ (pixel_rgb 64 64 (0 : ℝ) 0 5 0 0 32 32).1 ∧
        (pixel_rgb 64 64 (0 : ℝ) 0 5 0 0 32 32).1 ≤ 220) ∧
      (18 ≤ (pixel_rgb 64 64 (0 : ℝ) 0 5 0 0 32 32).2.1 ∧
        (pixel_rgb 64 64 (0 : ℝ) 0 5 0 0 32 32).2.1 ≤ 120) ∧
      (12 ≤ (pixel_rgb 64 64 (0 : ℝ) 0 5 0 0 32 32).2.2 ∧
        (pixel_rgb 64 64 (0 : ℝ) 0 5 0 0 32 32).2.2 ≤ 80)) ∧
    ((25 ≤ (pixel_rgb 64 64 (0 : ℝ) 0 5 0 0 0 0).1 ∧
        (pixel_rgb 64 64 (0 : ℝ) 0 5 0 0 0 0).1 ≤ 40) ∧
      (25 ≤ (pixel_rgb 64 64 (0 : ℝ) 0 5 0 0 0 0).2.1 ∧
        (pixel_rgb 64 64 (0 : ℝ) 0 5 0 0 0 0).2.1 ≤ 45) ∧
      (40 ≤ (pixel_rgb 64 64 (0 : ℝ) 0 5 0 0 0 0).2.2 ∧
        (pixel_rgb 64 64 (0 : ℝ) 0 5 0 0 0 0).2.2 ≤ 70)) :=
  ⟨((pixel_rgb_in_range 64 64 (0 : ℝ) 0 5 0 0 32 32 (by norm_num) (by norm_num)
      (by norm_num) (by norm_num) (by norm_num) (by norm_num)).1
      (by rw [(centre_pixel (F := ℝ)).1])).2.2,
    ((pixel_rgb_in_range 64 64 (0 : ℝ) 0 5 0 0 0 0 (by norm_num) (by norm_num)
      (by norm_num) (by norm_num) (by norm_num) (by norm_num)).2
      (top_row_pixel (F := ℝ) 0 (-1) (by norm_num)).1).2.2⟩

end ColourRange

/-! ## Binary32: lemmas on rounding and on the operations -/

section Binary32Lemmas

open binary32

theorem b32_add_def (x y : binary32) : x + y = add x y := rfl

theorem b32_sub_def (x y : binary32) : x - y = add x (neg y) := rfl

theorem b32_mul_def (x y : binary32) : x * y = mul x y := rfl

theorem b32_div_def (x y : binary32) : x / y = div x y := rfl

theorem b32_neg_def (x : binary32) : -x = neg x := rfl

theorem b32_lt_def (x y : binary32) : x < y ↔ lt x y = true := Iff.rfl

theorem b32_gt_def (x y : binary32) : x > y ↔ lt y x = true := Iff.rfl

theorem b32_le_def (x y : binary32) : x ≤ y ↔ le x y = true := Iff.rfl

theorem b32_sqrtf_def (x : binary32) : Sqrtf.sqrtf x = sqrt x := rfl

theorem b32_zero_def : (0 : binary32) = num 0 := by decide!

theorem b32_scientific_zero : (0.0 : binary32) = num 0 := by decide!

theorem b32_add_nan (x : binary32) : add x nan = nan := by cases x <;> rfl

theorem b32_nan_add (x : binary32) : add nan x = nan := by cases x <;> rfl

theorem b32_mul_nan (x : binary32) : mul x nan = nan := by cases x <;> rfl

theorem b32_nan_mul (x : binary32) : mul nan x = nan := by cases x <;> rfl

theorem round_half_even_ge (a b : Nat) : a / b ≤ round_half_even a b := by
  unfold round_half_even
  split_ifs <;> omega

theorem round_half_even_zero (b : Nat) : round_half_even 0 b = 0 := by
  unfold round_half_even
  simp

theorem round_units_zero (b : Nat) : round_units 0 b = 0 := by
  unfold round_units
  simp [round_half_even_zero]

theorem excess_bits_le (fuel : Nat) : ∀ q : Nat, 1 ≤ q → 2 ^ excess_bits fuel q ≤ q := by
  induction fuel with
  | zero => intro q hq; simpa [excess_bits] using hq
  | succ n ih =>
    intro q hq
    unfold excess_bits
    split_ifs with h
    · simpa using hq
    · have h1 : 1 ≤ q / 2 := by
        have : (2 : Nat) ^ 24 ≤ q := not_lt.mp h
        omega
      have := ih (q / 2) h1
      rw [pow_succ]
      omega

/-- An exact result of at least one unit does not round to zero. -/
theorem round_units_pos (a b : Nat) (hb : 0 < b) (h : b ≤ a) : 0 < round_units a b := by
  unfold round_units
  have hq : 1 ≤ a / b := (Nat.one_le_div_iff hb).2 h
  have hs := excess_bits_le 256 (a / b) hq
  have h2 : 0 < 2 ^ excess_bits 256 (a / b) := Nat.pow_pos (by norm_num)
  have h3 : 1 ≤ a / (b * 2 ^ excess_bits 256 (a / b)) := by
    rw [← Nat.div_div_eq_div_mul]
    exact (Nat.one_le_div_iff h2).2 hs
  have h4 := round_half_even_ge a (b * 2 ^ excess_bits 256 (a / b))
  exact Nat.mul_pos (by omega) h2

theorem overflow_units_pos : 0 < overflow_units := by
  unfold overflow_units
  positivity

theorem round32_zero (b : Nat) : round32 0 b = num 0 := by
  unfold round32
  have h := overflow_units_pos
  rw [Int.natAbs_zero, round_units_zero, if_neg (by omega)]
  simp

theorem round32_ne_nan (a : Int) (b : Nat) : round32 a b ≠ nan := by
  unfold round32
  split_ifs <;> simp

/-- The rounding of a non-negative exact result is a non-negative number or `+inf`. -/
theorem round32_of_nonneg (a : Int) (b : Nat) (h : 0 ≤ a) :
    round32 a b = inf false ∨ ∃ r : Int, 0 ≤ r ∧ round32 a b = num r := by
  unfold round32
  have h' : ¬ a < 0 := not_lt.mpr h
  by_cases h1 : overflow_units ≤ round_units a.natAbs b
  · left; rw [if_pos h1]; simp [h']
  · right; rw [if_neg h1, if_neg h']; exact ⟨_, Int.natCast_nonneg _, rfl⟩

/-- The rounding of a non-positive exact result is a non-positive number or `-inf`. -/
theorem round32_of_nonpos (a : Int) (b : Nat) (h : a ≤ 0) :
    round32 a b = inf true ∨ ∃ r : Int, r ≤ 0 ∧ round32 a b = num r := by
  rcases eq_or_lt_of_le h with h0 | h0
  · subst h0
    exact Or.inr ⟨0, le_rfl, round32_zero b⟩
  · unfold round32
    by_cases h1 : overflow_units ≤ round_units a.natAbs b
    · left; rw [if_pos h1]; simp [h0]
    · right; rw [if_neg h1, if_pos h0]; exact ⟨_, by omega, rfl⟩

/-- The rounding of an exact result of at least one unit is positive. -/
theorem round32_of_pos (a : Int) (b : Nat) (hb : 0 < b) (h : (b : Int) ≤ a) :
    round32 a b = inf false ∨ ∃ r : Int, 0 < r ∧ round32 a b = num r := by
  unfold round32
  have h' : ¬ a < 0 := by omega
  have hp := round_units_pos a.natAbs b hb (by omega)
  by_cases h1 : overflow_units ≤ round_units a.natAbs b
  · left; rw [if_pos h1]; simp [h']
  · right; rw [if_neg h1, if_neg h']; exact ⟨_, by exact_mod_cast hp, rfl⟩

/-- The rounding of an exact result of at most minus one unit is negative. -/
theorem round32_of_neg (a : Int) (b : Nat) (hb : 0 < b) (h : a ≤ -(b : Int)) :
    round32 a b = inf true ∨ ∃ r : Int, r < 0 ∧ round32 a b = num r := by
  unfold round32
  have h' : a < 0 := by omega
  have hp := round_units_pos a.natAbs b hb (by omega)
  by_cases h1 : overflow_units ≤ round_units a.natAbs b
  · left; rw [if_pos h1]; simp [h']
  · right; rw [if_neg h1, if_pos h']; exact ⟨_, by omega, rfl⟩

/-- The loop of `isqrt_aux` keeps `r * r ≤ m < (r + 2^i) * (r + 2^i)`. -/
theorem isqrt_aux_spec (m : Nat) : ∀ (i r : Nat), r * r ≤ m → m < (r + 2 ^ i) * (r + 2 ^ i) →
    isqrt_aux m i r * isqrt_aux m i r ≤ m ∧
      m < (isqrt_aux m i r + 1) * (isqrt_aux m i r + 1) := by
  intro i
  induction i with
  | zero =>
    intro r h1 h2
    simpa [isqrt_aux] using ⟨h1, h2⟩
  | succ i ih =>
    intro r h1 h2
    unfold isqrt_aux
    by_cases h : (r + 2 ^ i) * (r + 2 ^ i) ≤ m
    · rw [if_pos h]
      refine ih _ h ?_
      have e : r + 2 ^ i + 2 ^ i = r + 2 ^ (i + 1) := by rw [pow_succ]; omega
      rw [e]
      exact h2
    · rw [if_neg h]
      exact ih _ h1 (not_le.mp h)

/-- Function `isqrt` is the integer square root below `2^428`. -/
theorem isqrt_spec (m : Nat) (hm : m < 2 ^ 428) :
    isqrt m * isqrt m ≤ m ∧ m < (isqrt m + 1) * (isqrt m + 1) := by
  unfold isqrt
  refine isqrt_aux_spec m 214 0 (by simp) ?_
  have e : ((0 : Nat) + 2 ^ 214) * (0 + 2 ^ 214) = 2 ^ 428 := by norm_num
  rw [e]
  exact hm

theorem isqrt_aux_pos (m : Nat) (hm : 1 ≤ m) : ∀ (i r : Nat), 0 < i ∨ 0 < r →
    0 < isqrt_aux m i r := by
  intro i
  induction i with
  | zero =>
    intro r h
    rcases h with h | h
    · exact absurd h (lt_irrefl 0)
    · simpa [isqrt_aux] using h
  | succ i ih =>
    intro r _
    unfold isqrt_aux
    apply ih
    rcases Nat.eq_zero_or_pos i with hi | hi
    · right
      subst hi
      rcases Nat.eq_zero_or_pos r with hr | hr
      · subst hr
        rw [if_pos (by simpa using hm)]
        norm_num
      · split_ifs <;> omega
    · exact Or.inl hi

theorem isqrt_pos (m : Nat) (hm : 1 ≤ m) : 0 < isqrt m :=
  isqrt_aux_pos m hm 214 0 (Or.inl (by norm_num))

/-! ### Signs of binary32 values -/

/-- A positive value is a positive number or `+inf`. -/
theorem b32_pos_cases (x : binary32) (h : (0 : binary32) < x) :
    x = inf false ∨ ∃ n : Int, 0 < n ∧ x = num n := by
  rw [b32_lt_def, b32_zero_def] at h
  rcases x with n | s | _
  · exact Or.inr ⟨n, by simpa [lt] using h, rfl⟩
  · cases s
    · exact Or.inl rfl
    · simp [lt] at h
  · simp [lt] at h

/-- A negative value is a negative number or `-inf`. -/
theorem b32_neg_cases (x : binary32) (h : x < (0 : binary32)) :
    x = inf true ∨ ∃ n : Int, n < 0 ∧ x = num n := by
  rw [b32_lt_def, b32_zero_def] at h
  rcases x with n | s | _
  · exact Or.inr ⟨n, by simpa [lt] using h, rfl⟩
  · cases s
    · simp [lt] at h
    · exact Or.inl rfl
  · simp [lt] at h

/-- A value with `0 <= x` is a non-negative number or `+inf`. -/
theorem b32_nonneg_cases (x : binary32) (h : (0 : binary32) ≤ x) :
    x = inf false ∨ ∃ n : Int, 0 ≤ n ∧ x = num n := by
  rw [b32_le_def, b32_zero_def] at h
  rcases x with n | s | _
  · exact Or.inr ⟨n, by simpa [le] using h, rfl⟩
  · cases s
    · exact Or.inl rfl
    · simp [le] at h
  · simp [le] at h

theorem b32_pos_num (n : Int) (h : 0 < n) : (0 : binary32) < num n := by
  rw [b32_lt_def, b32_zero_def]; simpa [lt] using h

theorem b32_pos_inf : (0 : binary32) < inf false := by
  rw [b32_lt_def, b32_zero_def]; rfl

theorem b32_neg_num (n : Int) (h : n < 0) : num n < (0 : binary32) := by
  rw [b32_lt_def, b32_zero_def]; simpa [lt] using h

theorem b32_neg_inf : inf true < (0 : binary32) := by
  rw [b32_lt_def, b32_zero_def]; rfl

theorem b32_nonneg_num (n : Int) (h : 0 ≤ n) : (0 : binary32) ≤ num n := by
  rw [b32_le_def, b32_zero_def]; simpa [le] using h

theorem b32_nonneg_inf : (0 : binary32) ≤ inf false := by
  rw [b32_le_def, b32_zero_def]; rfl

theorem b32_zero_nonneg : (0 : binary32) ≤ 0 := by
  rw [b32_le_def, b32_zero_def]; rfl

/-- A value that is neither a NaN nor negative satisfies `0 <= x`. -/
theorem b32_nonneg_of_not_neg (x : binary32) (h1 : x ≠ nan) (h2 : ¬ x < (0 : binary32)) :
    (0 : binary32) ≤ x := by
  rcases x with n | s | _
  · apply b32_nonneg_num
    by_contra hn
    exact h2 (b32_neg_num n (by omega))
  · cases s
    · exact b32_nonneg_inf
    · exact absurd b32_neg_inf h2
  · exact absurd rfl h1

theorem b32_not_neg_of_nonneg (x : binary32) (h : (0 : binary32) ≤ x) :
    ¬ x < (0 : binary32) := by
  intro h2
  rcases b32_nonneg_cases x h with hx | ⟨n, hn, hx⟩ <;>
    rcases b32_neg_cases x h2 with hy | ⟨m, hm, hy⟩ <;> rw [hx] at hy <;> cases hy
  omega

theorem b32_ne_nan_of_nonneg (x : binary32) (h : (0 : binary32) ≤ x) : x ≠ nan := by
  rcases b32_nonneg_cases x h with hx | ⟨n, _, hx⟩ <;> rw [hx] <;> simp

theorem b32_ne_nan_of_neg (x : binary32) (h : x < (0 : binary32)) : x ≠ nan := by
  rcases b32_neg_cases x h with hx | ⟨n, _, hx⟩ <;> rw [hx] <;> simp

theorem b32_nonneg_of_pos (x : binary32) (h : (0 : binary32) < x) : (0 : binary32) ≤ x := by
  rcases b32_pos_cases x h with hx | ⟨n, hn, hx⟩
  · rw [hx]; exact b32_nonneg_inf
  · rw [hx]; exact b32_nonneg_num n hn.le

theorem b32_not_pos_of_neg (x : binary32) (h : x < (0 : binary32)) :
    ¬ (0 : binary32) < x := by
  intro h2
  rcases b32_pos_cases x h2 with hx | ⟨n, hn, hx⟩ <;>
    rcases b32_neg_cases x h with hy | ⟨m, hm, hy⟩ <;> rw [hx] at hy <;> cases hy
  omega

/-- The order is transitive from zero: `0 < c` and `c < x` give `0 < x`. -/
theorem b32_pos_of_lt (c x : binary32) (hc : (0 : binary32) < c) (h : c < x) :
    (0 : binary32) < x := by
  rw [b32_lt_def] at h
  rcases b32_pos_cases c hc with hc1 | ⟨a, ha, hc1⟩
  · subst hc1
    rcases x with b | t | _
    · simp [lt] at h
    · cases t <;> simp [lt] at h
    · simp [lt] at h
  · subst hc1
    rcases x with b | t | _
    · simp only [lt, decide_eq_true_eq] at h
      exact b32_pos_num b (by omega)
    · cases t
      · exact b32_pos_inf
      · simp [lt] at h
    · simp [lt] at h

theorem b32_round_nonneg (a : Int) (b : Nat) (h : 0 ≤ a) : (0 : binary32) ≤ round32 a b := by
  rcases round32_of_nonneg a b h with hr | ⟨r, hr0, hr⟩
  · rw [hr]; exact b32_nonneg_inf
  · rw [hr]; exact b32_nonneg_num r hr0

theorem b32_round_pos (a : Int) (b : Nat) (hb : 0 < b) (h : (b : Int) ≤ a) :
    (0 : binary32) < round32 a b := by
  rcases round32_of_pos a b hb h with hr | ⟨r, hr0, hr⟩
  · rw [hr]; exact b32_pos_inf
  · rw [hr]; exact b32_pos_num r hr0

theorem b32_round_neg (a : Int) (b : Nat) (hb : 0 < b) (h : a ≤ -(b : Int)) :
    round32 a b < (0 : binary32) := by
  rcases round32_of_neg a b hb h with hr | ⟨r, hr0, hr⟩
  · rw [hr]; exact b32_neg_inf
  · rw [hr]; exact b32_neg_num r hr0

end Binary32Lemmas

section Binary32Closure

open binary32

/-- The result of `absf` is a NaN, `+inf` or a non-negative number. -/
theorem b32_absf_cases (y : binary32) :
    absf y = nan ∨ absf y = inf false ∨ ∃ n : Int, 0 ≤ n ∧ absf y = num n := by
  unfold absf
  rcases y with n | s | _
  · by_cases h : n < 0
    · rw [if_pos (b32_neg_num n h)]
      exact Or.inr (Or.inr ⟨-n, by omega, rfl⟩)
    · rw [if_neg (fun h2 => by
        rcases b32_neg_cases _ h2 with h3 | ⟨m, hm, h3⟩
        · cases h3
        · cases h3; exact h hm)]
      exact Or.inr (Or.inr ⟨n, by omega, rfl⟩)
  · cases s
    · rw [if_neg (fun h2 => by
        rcases b32_neg_cases _ h2 with h3 | ⟨m, hm, h3⟩ <;> cases h3)]
      exact Or.inr (Or.inl rfl)
    · rw [if_pos b32_neg_inf]
      exact Or.inr (Or.inl rfl)
  · rw [if_neg (fun h2 => by
      rcases b32_neg_cases _ h2 with h3 | ⟨m, hm, h3⟩ <;> cases h3)]
    exact Or.inl rfl

/-- The result of `absf` on a value that is not a NaN satisfies `0 <= absf y`. -/
theorem b32_absf_nonneg (y : binary32) (hy : y ≠ nan) : (0 : binary32) ≤ absf y := by
  unfold absf
  rcases y with n | s | _
  · by_cases h : n < 0
    · rw [if_pos (b32_neg_num n h)]
      exact b32_nonneg_num (-n) (by omega)
    · rw [if_neg (fun h2 => by
        rcases b32_neg_cases _ h2 with h3 | ⟨m, hm, h3⟩
        · cases h3
        · cases h3; exact h hm)]
      exact b32_nonneg_num n (by omega)
  · cases s
    · rw [if_neg (fun h2 => by
        rcases b32_neg_cases _ h2 with h3 | ⟨m, hm, h3⟩ <;> cases h3)]
      exact b32_nonneg_inf
    · rw [if_pos b32_neg_inf]
      exact b32_nonneg_inf
  · exact absurd rfl hy

/-- Zero minus the result of `absf` is never positive. -/
theorem b32_zero_sub_absf_not_pos (y : binary32) : ¬ ((0 : binary32) - absf y > 0.0) := by
  rw [b32_gt_def, b32_scientific_zero, b32_zero_def, b32_sub_def]
  rcases b32_absf_cases y with h | h | ⟨n, hn, h⟩
  · rw [h]; simp [neg, add, lt]
  · rw [h]; simp [neg, add, lt]
  · rw [h]
    show ¬ lt (num 0) (round32 (0 + -n) 1) = true
    rcases round32_of_nonpos (0 + -n) 1 (by omega) with hr | ⟨r, hr0, hr⟩
    · rw [hr]; simp [lt]
    · rw [hr]; simp [lt]; exact hr0

theorem b32_maxf_zero_nonneg (x : binary32) : (0 : binary32) ≤ maxf x 0 := by
  unfold maxf
  split_ifs with h
  · exact b32_nonneg_of_pos x h
  · exact b32_zero_nonneg

theorem b32_maxf_zero_of_not_pos (x : binary32) (h : ¬ (0 : binary32) < x) : maxf x 0 = 0 := by
  unfold maxf
  rw [if_neg h]

theorem b32_maxf_zero_of_pos (x : binary32) (h : (0 : binary32) < x) : maxf x 0 = x := by
  unfold maxf
  rw [if_pos h]

theorem b32_maxf_mem (a b : binary32) : maxf a b = a ∨ maxf a b = b := by
  unfold maxf
  split_ifs
  · exact Or.inl rfl
  · exact Or.inr rfl

theorem b32_maxf_ne_nan (a b : binary32) (ha : a ≠ nan) (hb : b ≠ nan) : maxf a b ≠ nan := by
  rcases b32_maxf_mem a b with h | h <;> rw [h] <;> assumption

/-- Comparison is total on values that are not NaNs: not `b < a` with `0 <= a`
gives `0 <= b`. -/
theorem b32_nonneg_of_not_lt (a b : binary32) (ha : (0 : binary32) ≤ a) (hb : b ≠ nan)
    (h : ¬ b < a) : (0 : binary32) ≤ b := by
  rw [b32_lt_def] at h
  rcases b32_nonneg_cases a ha with hx | ⟨n, hn, hx⟩
  · subst hx
    rcases b with m | t | _
    · simp [lt] at h
    · cases t
      · exact b32_nonneg_inf
      · simp [lt] at h
    · exact absurd rfl hb
  · subst hx
    rcases b with m | t | _
    · simp only [lt, decide_eq_true_eq] at h
      exact b32_nonneg_num m (by omega)
    · cases t
      · exact b32_nonneg_inf
      · simp [lt] at h
    · exact absurd rfl hb

/-- From `b < a` and `0 <= b`: `0 <= a`. -/
theorem b32_nonneg_of_gt (a b : binary32) (hb : (0 : binary32) ≤ b) (h : b < a) :
    (0 : binary32) ≤ a := by
  rw [b32_lt_def] at h
  rcases b32_nonneg_cases b hb with hx | ⟨n, hn, hx⟩
  · subst hx
    rcases a with m | t | _
    · simp [lt] at h
    · cases t
      · exact b32_nonneg_inf
      · simp [lt] at h
    · simp [lt] at h
  · subst hx
    rcases a with m | t | _
    · simp only [lt, decide_eq_true_eq] at h
      exact b32_nonneg_num m (by omega)
    · cases t
      · exact b32_nonneg_inf
      · simp [lt] at h
    · simp [lt] at h

/-- From `a < b` and `b < 0`... in the form used for `minf`: not `a < b` with `a < 0`
and `b` not a NaN gives `b < 0`. -/
theorem b32_neg_of_not_lt (a b : binary32) (ha : a < (0 : binary32)) (hb : b ≠ nan)
    (h : ¬ a < b) : b < (0 : binary32) := by
  rw [b32_lt_def] at h
  rcases b32_neg_cases a ha with hx | ⟨n, hn, hx⟩
  · subst hx
    rcases b with m | t | _
    · simp [lt] at h
    · cases t
      · simp [lt] at h
      · exact b32_neg_inf
    · exact absurd rfl hb
  · subst hx
    rcases b with m | t | _
    · simp only [lt, decide_eq_true_eq] at h
      exact b32_neg_num m (by omega)
    · cases t
      · simp [lt] at h
      · exact b32_neg_inf
    · exact absurd rfl hb

theorem b32_maxf_nonneg_left (a b : binary32) (ha : (0 : binary32) ≤ a) (hb : b ≠ nan) :
    (0 : binary32) ≤ maxf a b := by
  unfold maxf
  split_ifs with h
  · exact ha
  · exact b32_nonneg_of_not_lt a b ha hb h

theorem b32_maxf_nonneg_right (a b : binary32) (hb : (0 : binary32) ≤ b) :
    (0 : binary32) ≤ maxf a b := by
  unfold maxf
  split_ifs with h
  · exact b32_nonneg_of_gt a b hb h
  · exact hb

theorem b32_minf_neg (a b : binary32) (ha : a < (0 : binary32)) (hb : b ≠ nan) :
    minf a b < (0 : binary32) := by
  unfold minf
  split_ifs with h
  · exact ha
  · exact b32_neg_of_not_lt a b ha hb h

theorem b32_mul_self_nonneg (x : binary32) (h : (0 : binary32) ≤ x) :
    (0 : binary32) ≤ x * x := by
  rw [b32_mul_def]
  rcases b32_nonneg_cases x h with hx | ⟨n, hn, hx⟩
  · subst hx; exact b32_nonneg_inf
  · subst hx
    exact b32_round_nonneg _ _ (mul_nonneg hn hn)

theorem b32_add_nonneg (x y : binary32) (hx : (0 : binary32) ≤ x) (hy : (0 : binary32) ≤ y) :
    (0 : binary32) ≤ x + y := by
  rw [b32_add_def]
  rcases b32_nonneg_cases x hx with h1 | ⟨n, hn, h1⟩ <;>
    rcases b32_nonneg_cases y hy with h2 | ⟨m, hm, h2⟩ <;> subst h1 <;> subst h2
  · exact b32_nonneg_inf
  · exact b32_nonneg_inf
  · exact b32_nonneg_inf
  · exact b32_round_nonneg _ _ (by omega)

theorem b32_add_pos_left (x y : binary32) (hx : (0 : binary32) < x) (hy : (0 : binary32) ≤ y) :
    (0 : binary32) < x + y := by
  rw [b32_add_def]
  rcases b32_pos_cases x hx with h1 | ⟨n, hn, h1⟩ <;>
    rcases b32_nonneg_cases y hy with h2 | ⟨m, hm, h2⟩ <;> subst h1 <;> subst h2
  · exact b32_pos_inf
  · exact b32_pos_inf
  · exact b32_pos_inf
  · exact b32_round_pos _ _ (by norm_num) (by push_cast; omega)

theorem b32_add_pos_right (x y : binary32) (hx : (0 : binary32) ≤ x) (hy : (0 : binary32) < y) :
    (0 : binary32) < x + y := by
  rw [b32_add_def]
  rcases b32_nonneg_cases x hx with h1 | ⟨n, hn, h1⟩ <;>
    rcases b32_pos_cases y hy with h2 | ⟨m, hm, h2⟩ <;> subst h1 <;> subst h2
  · exact b32_pos_inf
  · exact b32_pos_inf
  · exact b32_pos_inf
  · exact b32_round_pos _ _ (by norm_num) (by push_cast; omega)

/-- Zero plus a negative value is negative. -/
theorem b32_zero_add_neg (x : binary32) (h : x < (0 : binary32)) :
    (0 : binary32) + x < (0 : binary32) := by
  rw [b32_add_def]
  rcases b32_neg_cases x h with h1 | ⟨n, hn, h1⟩ <;> subst h1
  · have e : add (0 : binary32) (inf true) = inf true := by rw [b32_zero_def]; rfl
    rw [e]; exact b32_neg_inf
  · have e : add (0 : binary32) (num n) = round32 (0 + n) 1 := by rw [b32_zero_def]; rfl
    rw [e]
    exact b32_round_neg _ _ (by norm_num) (by push_cast; omega)

theorem b32_sqrt_num (n : Int) (hn : 0 ≤ n) :
    sqrt (num n) = round32 ((2 * isqrt (n.toNat * 2 ^ 149)
        + (if isqrt (n.toNat * 2 ^ 149) * isqrt (n.toNat * 2 ^ 149) = n.toNat * 2 ^ 149
            then 0 else 1) : Nat) : Int) 2 := by
  show (if n < 0 then nan else _) = _
  rw [if_neg (by omega)]

theorem b32_sqrt_nonneg (x : binary32) (h : (0 : binary32) ≤ x) :
    (0 : binary32) ≤ sqrt x := by
  rcases b32_nonneg_cases x h with hx | ⟨n, hn, hx⟩
  · subst hx; exact b32_nonneg_inf
  · subst hx
    rw [b32_sqrt_num n hn]
    exact b32_round_nonneg _ _ (Int.natCast_nonneg _)

/-- The square root of a positive value is positive: in particular it is not zero. -/
theorem b32_sqrt_pos (x : binary32) (h : (0 : binary32) < x) : (0 : binary32) < sqrt x := by
  rcases b32_pos_cases x h with hx | ⟨n, hn, hx⟩
  · subst hx; exact b32_pos_inf
  · subst hx
    have hm : 1 ≤ n.toNat * 2 ^ 149 := by
      have h1 : 1 ≤ n.toNat := by omega
      have h2 : 1 ≤ 2 ^ 149 := Nat.one_le_two_pow
      calc 1 = 1 * 1 := rfl
        _ ≤ n.toNat * 2 ^ 149 := Nat.mul_le_mul h1 h2
    have hr := isqrt_pos _ hm
    rw [b32_sqrt_num n hn.le]
    refine b32_round_pos _ 2 (by norm_num) ?_
    have h2 : 2 ≤ 2 * isqrt (n.toNat * 2 ^ 149)
        + (if isqrt (n.toNat * 2 ^ 149) * isqrt (n.toNat * 2 ^ 149)
            = n.toNat * 2 ^ 149 then 0 else 1) :=
      le_trans (by omega) (Nat.le_add_right _ _)
    exact_mod_cast h2

end Binary32Closure

section BoxLemmas

open binary32

/-- For finite `p`, `c` and `half` the excess along an axis is not a NaN. -/
theorem b32_box_excess_ne_nan (a c h : Int) : box_excess (num a) (num c) (num h) ≠ nan := by
  unfold box_excess
  have h1 : (num a - num c : binary32) ≠ nan := by
    rw [b32_sub_def]
    exact round32_ne_nan _ _
  have h2 := b32_absf_nonneg _ h1
  rw [b32_sub_def]
  rcases b32_nonneg_cases _ h2 with h3 | ⟨n, _, h3⟩
  · rw [h3]; simp [neg, add]
  · rw [h3]
    exact round32_ne_nan _ _

/-- The body of `sdf_box` in terms of the three excesses. -/
theorem b32_sdf_box_eq (p c h : vec3f binary32) :
    sdf_box p c h
      = vec3f_length (vec3f_make (maxf (box_excess p.x c.x h.x) 0)
          (maxf (box_excess p.y c.y h.y) 0) (maxf (box_excess p.z c.z h.z) 0))
        + minf (maxf (box_excess p.x c.x h.x)
            (maxf (box_excess p.y c.y h.y) (box_excess p.z c.z h.z))) 0 := rfl

/-- The term `outside` of `sdf_box` is never negative and never a NaN. -/
theorem b32_box_outside_nonneg (ex ey ez : binary32) :
    (0 : binary32) ≤ vec3f_length (vec3f_make (maxf ex 0) (maxf ey 0) (maxf ez 0)) := by
  unfold vec3f_length vec3f_length_sq vec3f_make
  dsimp only
  rw [b32_sqrtf_def]
  apply b32_sqrt_nonneg
  exact b32_add_nonneg _ _
    (b32_add_nonneg _ _ (b32_mul_self_nonneg _ (b32_maxf_zero_nonneg ex))
      (b32_mul_self_nonneg _ (b32_maxf_zero_nonneg ey)))
    (b32_mul_self_nonneg _ (b32_maxf_zero_nonneg ez))

/-- The term `outside` of `sdf_box` is zero when no excess is positive. -/
theorem b32_box_outside_zero (ex ey ez : binary32) (hx : ¬ (0 : binary32) < ex)
    (hy : ¬ (0 : binary32) < ey) (hz : ¬ (0 : binary32) < ez) :
    vec3f_length (vec3f_make (maxf ex 0) (maxf ey 0) (maxf ez 0)) = 0 := by
  rw [b32_maxf_zero_of_not_pos ex hx, b32_maxf_zero_of_not_pos ey hy,
    b32_maxf_zero_of_not_pos ez hz]
  decide!

/-- The square of a value of at least `2^-74` does not underflow to zero. -/
theorem b32_mul_self_pos (x : binary32) (h : num (2 ^ 75) ≤ x) : (0 : binary32) < x * x := by
  rw [b32_le_def] at h
  rw [b32_mul_def]
  rcases x with n | s | _
  · simp only [le, decide_eq_true_eq] at h
    apply b32_round_pos _ _ (by positivity)
    have h2 : (2 : Int) ^ 75 * 2 ^ 75 ≤ n * n :=
      mul_le_mul h h (by positivity) (le_trans (by positivity) h)
    have e : ((2 ^ 149 : Nat) : Int) ≤ (2 : Int) ^ 75 * 2 ^ 75 := by norm_num
    exact le_trans e h2
  · cases s
    · exact b32_pos_inf
    · simp [le] at h
  · simp [le] at h

theorem b32_pos_of_ge (x : binary32) (h : num (2 ^ 75) ≤ x) : (0 : binary32) < x := by
  rw [b32_le_def] at h
  rcases x with n | s | _
  · simp only [le, decide_eq_true_eq] at h
    exact b32_pos_num n (lt_of_lt_of_le (by positivity) h)
  · cases s
    · exact b32_pos_inf
    · simp [le] at h
  · simp [le] at h

/-- The term `outside` of `sdf_box` is positive when an excess is at least `2^-74`. -/
theorem b32_box_outside_pos (ex ey ez : binary32)
    (h : num (2 ^ 75) ≤ ex ∨ num (2 ^ 75) ≤ ey ∨ num (2 ^ 75) ≤ ez) :
    (0 : binary32) < vec3f_length (vec3f_make (maxf ex 0) (maxf ey 0) (maxf ez 0)) := by
  unfold vec3f_length vec3f_length_sq vec3f_make
  dsimp only
  rw [b32_sqrtf_def]
  apply b32_sqrt_pos
  have nx := b32_mul_self_nonneg _ (b32_maxf_zero_nonneg ex)
  have ny := b32_mul_self_nonneg _ (b32_maxf_zero_nonneg ey)
  have nz := b32_mul_self_nonneg _ (b32_maxf_zero_nonneg ez)
  rcases h with h | h | h
  · have hp : (0 : binary32) < maxf ex 0 * maxf ex 0 := by
      rw [b32_maxf_zero_of_pos ex (b32_pos_of_ge ex h)]
      exact b32_mul_self_pos ex h
    exact b32_add_pos_left _ _ (b32_add_pos_left _ _ hp ny) nz
  · have hp : (0 : binary32) < maxf ey 0 * maxf ey 0 := by
      rw [b32_maxf_zero_of_pos ey (b32_pos_of_ge ey h)]
      exact b32_mul_self_pos ey h
    exact b32_add_pos_left _ _ (b32_add_pos_right _ _ nx hp) nz
  · have hp : (0 : binary32) < maxf ez 0 * maxf ez 0 := by
      rw [b32_maxf_zero_of_pos ez (b32_pos_of_ge ez h)]
      exact b32_mul_self_pos ez h
    exact b32_add_pos_right _ _ (b32_add_nonneg _ _ nx ny) hp

/-- With all three excesses negative, `inside` is the largest of them and the sum is
negative. -/
theorem b32_box_neg (ex ey ez : binary32) (hx : ex < (0 : binary32))
    (hy : ey < (0 : binary32)) (hz : ez < (0 : binary32)) :
    vec3f_length (vec3f_make (maxf ex 0) (maxf ey 0) (maxf ez 0))
      + minf (maxf ex (maxf ey ez)) 0 < (0 : binary32) := by
  rw [b32_box_outside_zero ex ey ez (b32_not_pos_of_neg ex hx) (b32_not_pos_of_neg ey hy)
    (b32_not_pos_of_neg ez hz)]
  have hm : maxf ex (maxf ey ez) < (0 : binary32) := by
    rcases b32_maxf_mem ex (maxf ey ez) with h | h
    · rw [h]; exact hx
    · rw [h]
      rcases b32_maxf_mem ey ez with h2 | h2 <;> rw [h2] <;> assumption
  have hi : minf (maxf ex (maxf ey ez)) 0 = maxf ex (maxf ey ez) := by
    unfold minf
    rw [if_pos hm]
  rw [hi]
  exact b32_zero_add_neg _ hm

/-- With an excess that is not negative, `inside` is zero. -/
theorem b32_box_inside_zero (ex ey ez : binary32) (hx : ex ≠ nan) (hy : ey ≠ nan)
    (hz : ez ≠ nan)
    (h : ¬ (ex < (0 : binary32) ∧ ey < (0 : binary32) ∧ ez < (0 : binary32))) :
    minf (maxf ex (maxf ey ez)) 0 = 0 := by
  have hm : (0 : binary32) ≤ maxf ex (maxf ey ez) := by
    by_cases h1 : ex < (0 : binary32)
    · by_cases h2 : ey < (0 : binary32)
      · have h3 : ¬ ez < (0 : binary32) := fun h3 => h ⟨h1, h2, h3⟩
        exact b32_maxf_nonneg_right _ _
          (b32_maxf_nonneg_right _ _ (b32_nonneg_of_not_neg ez hz h3))
      · exact b32_maxf_nonneg_right _ _
          (b32_maxf_nonneg_left _ _ (b32_nonneg_of_not_neg ey hy h2) hz)
    · exact b32_maxf_nonneg_left _ _ (b32_nonneg_of_not_neg ex hx h1)
        (b32_maxf_ne_nan _ _ hy hz)
  unfold minf
  rw [if_neg (b32_not_neg_of_nonneg _ hm)]

/-- With an excess that is not negative, the sum is not negative. -/
theorem b32_box_nonneg (ex ey ez : binary32) (hx : ex ≠ nan) (hy : ey ≠ nan)
    (hz : ez ≠ nan)
    (h : ¬ (ex < (0 : binary32) ∧ ey < (0 : binary32) ∧ ez < (0 : binary32))) :
    (0 : binary32) ≤ vec3f_length (vec3f_make (maxf ex 0) (maxf ey 0) (maxf ez 0))
      + minf (maxf ex (maxf ey ez)) 0 := by
  rw [b32_box_inside_zero ex ey ez hx hy hz h]
  exact b32_add_nonneg _ _ (b32_box_outside_nonneg ex ey ez) b32_zero_nonneg

end BoxLemmas

section SceneLemmas32

open binary32

theorem b32_add_eq_num (x y : binary32) (n : Int) (h : add x y = num n) :
    ∃ a b : Int, x = num a ∧ y = num b := by
  rcases x with a | s | _ <;> rcases y with b | t | _
  · exact ⟨a, b, rfl, rfl⟩
  · simp [add] at h
  · simp [add] at h
  · simp [add] at h
  · simp only [add] at h
    split_ifs at h
  · simp [add] at h
  · simp [add] at h
  · simp [add] at h
  · simp [add] at h

theorem b32_mul_self_eq_num (x : binary32) (n : Int) (h : mul x x = num n) :
    ∃ a : Int, x = num a := by
  rcases x with a | s | _
  · exact ⟨a, rfl⟩
  · simp [mul] at h
  · simp [mul] at h

theorem b32_sqrt_eq_num (x : binary32) (n : Int) (h : sqrt x = num n) :
    ∃ a : Int, x = num a := by
  rcases x with a | s | _
  · exact ⟨a, rfl⟩
  · cases s <;> simp [sqrt] at h
  · simp [sqrt] at h

/-- The square root is a NaN or satisfies `0 <= sqrt x`. -/
theorem b32_sqrt_cases (x : binary32) : sqrt x = nan ∨ (0 : binary32) ≤ sqrt x := by
  rcases x with a | s | _
  · by_cases h : a < 0
    · left
      show (if a < 0 then nan else _) = _
      rw [if_pos h]
    · right
      exact b32_sqrt_nonneg _ (b32_nonneg_num a (by omega))
  · cases s
    · right; exact b32_sqrt_nonneg _ b32_nonneg_inf
    · left; rfl
  · left; rfl

/-- A vector whose computed squared length is finite has finite components. -/
theorem b32_finite_of_length_sq (v : vec3f binary32) (n : Int)
    (h : vec3f_length_sq v = num n) :
    ∃ a b c : Int, v.x = num a ∧ v.y = num b ∧ v.z = num c := by
  unfold vec3f_length_sq at h
  rw [b32_add_def, b32_add_def, b32_mul_def, b32_mul_def, b32_mul_def] at h
  obtain ⟨s, t, h1, h2⟩ := b32_add_eq_num _ _ n h
  obtain ⟨u, w, h3, h4⟩ := b32_add_eq_num _ _ s h1
  obtain ⟨a, ha⟩ := b32_mul_self_eq_num _ u h3
  obtain ⟨b, hb⟩ := b32_mul_self_eq_num _ w h4
  obtain ⟨c, hc⟩ := b32_mul_self_eq_num _ t h2
  exact ⟨a, b, c, ha, hb, hc⟩

/-- A point whose computed distance to the unit sphere is negative has finite
coordinates. -/
theorem b32_finite_of_sphere_neg (p : vec3f binary32)
    (h : sdf_sphere p (vec3f_make 0 0 0) 1.0 < (0 : binary32)) :
    ∃ a b c : Int, p = ⟨num a, num b, num c⟩ := by
  unfold sdf_sphere vec3f_length at h
  rw [b32_sqrtf_def, b32_sub_def] at h
  have e1 : neg (1.0 : binary32) = num (-(2 ^ 149)) := by decide!
  rw [e1] at h
  have hS : ∃ s : Int, sqrt (vec3f_length_sq (vec3f_sub p (vec3f_make 0 0 0))) = num s := by
    rcases b32_sqrt_cases (vec3f_length_sq (vec3f_sub p (vec3f_make 0 0 0))) with hs | hs
    · rw [hs, b32_nan_add] at h
      exact absurd h (by decide!)
    · rcases b32_nonneg_cases _ hs with hi | ⟨s, _, hs2⟩
      · rw [hi] at h
        exact absurd h (by decide!)
      · exact ⟨s, hs2⟩
  obtain ⟨s, hs⟩ := hS
  obtain ⟨l, hl⟩ := b32_sqrt_eq_num _ s hs
  obtain ⟨a, b, c, ha, hb, hc⟩ := b32_finite_of_length_sq _ l hl
  unfold vec3f_sub vec3f_make at ha hb hc
  dsimp only at ha hb hc
  rw [b32_sub_def] at ha hb hc
  obtain ⟨a2, _, ha2, _⟩ := b32_add_eq_num _ _ a ha
  obtain ⟨b2, _, hb2, _⟩ := b32_add_eq_num _ _ b hb
  obtain ⟨c2, _, hc2, _⟩ := b32_add_eq_num _ _ c hc
  refine ⟨a2, b2, c2, ?_⟩
  rcases p with ⟨x, y, z⟩
  dsimp only at ha2 hb2 hc2
  rw [ha2, hb2, hc2]

/-- For a finite point, centre and half-extents `sdf_box` is not a NaN. -/
theorem b32_sdf_box_ne_nan (px py pz cx cy cz hx hy hz : Int) :
    sdf_box (⟨num px, num py, num pz⟩ : vec3f binary32) ⟨num cx, num cy, num cz⟩
      ⟨num hx, num hy, num hz⟩ ≠ nan := by
  have nx := b32_box_excess_ne_nan px cx hx
  have ny := b32_box_excess_ne_nan py cy hy
  have nz := b32_box_excess_ne_nan pz cz hz
  rw [b32_sdf_box_eq]
  dsimp only
  by_cases h : box_excess (num px) (num cx) (num hx) < (0 : binary32) ∧
      box_excess (num py) (num cy) (num hy) < (0 : binary32) ∧
      box_excess (num pz) (num cz) (num hz) < (0 : binary32)
  · exact b32_ne_nan_of_neg _ (b32_box_neg _ _ _ h.1 h.2.1 h.2.2)
  · exact b32_ne_nan_of_nonneg _ (b32_box_nonneg _ _ _ nx ny nz h)

theorem b32_div_nonneg_pos (w : binary32) (c : Int) (hw : (0 : binary32) ≤ w) (hc : 0 < c) :
    (0 : binary32) ≤ w / num c := by
  rw [b32_div_def]
  rcases b32_nonneg_cases w hw with h | ⟨n, hn, h⟩ <;> subst h
  · have e : div (inf false) (num c) = inf false := by
      simp [div, not_lt.mpr hc.le]
    rw [e]; exact b32_nonneg_inf
  · have e : div (num n) (num c) = round32 (n * 2 ^ 149 * Int.sign c) c.natAbs := by
      simp [div, hc.ne']
    rw [e]
    apply b32_round_nonneg
    rw [Int.sign_eq_one_of_pos hc]
    positivity

theorem b32_mul_nonneg_pos (x : binary32) (c : Int) (hx : (0 : binary32) ≤ x) (hc : 0 < c) :
    (0 : binary32) ≤ x * num c := by
  rw [b32_mul_def]
  rcases b32_nonneg_cases x hx with h | ⟨n, hn, h⟩ <;> subst h
  · have e : mul (inf false) (num c) = inf false := by
      simp [mul, hc.ne', not_lt.mpr hc.le]
    rw [e]; exact b32_nonneg_inf
  · exact b32_round_nonneg _ _ (mul_nonneg hn hc.le)

/-- A negative value minus a value with `0 <= t` is negative. -/
theorem b32_sub_neg_nonneg (m t : binary32) (hm : m < (0 : binary32))
    (ht : (0 : binary32) ≤ t) : m - t < (0 : binary32) := by
  rw [b32_sub_def]
  rcases b32_neg_cases m hm with h1 | ⟨a, ha, h1⟩ <;>
    rcases b32_nonneg_cases t ht with h2 | ⟨b, hb, h2⟩ <;> subst h1 <;> subst h2
  · exact b32_neg_inf
  · exact b32_neg_inf
  · exact b32_neg_inf
  · exact b32_round_neg _ _ (by norm_num) (by push_cast; omega)

/-- With a positive finite blend radius, a negative first argument and a second argument
that is not a NaN, the smooth minimum is negative. -/
theorem b32_smooth_min_neg (a b : binary32) (c : Int) (hc : 0 < c)
    (ha : a < (0 : binary32)) (hb : b ≠ nan) :
    sdf_smooth_min a b (num c) < (0 : binary32) := by
  unfold sdf_smooth_min
  dsimp only
  have e0 : (0.0 : binary32) = 0 := by rw [b32_scientific_zero, b32_zero_def]
  have e1 : (0.25 : binary32) = num (2 ^ 147) := by decide!
  rw [e0, e1]
  have hw := b32_maxf_zero_nonneg (num c - absf (a - b))
  have hh := b32_div_nonneg_pos _ c hw hc
  have ht := b32_mul_nonneg_pos _ (2 ^ 147)
    (b32_mul_nonneg_pos _ c (b32_mul_self_nonneg _ hh) hc) (by positivity)
  exact b32_sub_neg_nonneg _ _ (b32_minf_neg a b ha hb) ht

end SceneLemmas32

section SphereLemma

open binary32

/-- In binary32, every point whose distance to the unit sphere as the code computes it,
`sdf_sphere(p, (0,0,0), 1.0f) = sqrtf(len_sq) - 1.0f`, is negative has a negative scene
distance: neither the box, nor the blend, nor the ground raises it to zero or above, or
turns it into a NaN. -/
theorem b32_scene_neg_of_sphere_neg (p : vec3f binary32)
    (h : sdf_sphere p (vec3f_make 0 0 0) 1.0 < (0 : binary32)) :
    scene_sdf p < (0 : binary32) := by
  obtain ⟨a, b, c, hp⟩ := b32_finite_of_sphere_neg p h
  subst hp
  have e2 : (2.0 : binary32) = num (2 ^ 150) := by decide!
  have e4 : (0.4 : binary32) = num (13421773 * 2 ^ 124) := by decide!
  have e3 : (0.3 : binary32) = num (10066330 * 2 ^ 124) := by decide!
  have e5 : (-1.5 : binary32) = num (-(3 * 2 ^ 148)) := by decide!
  have hbox : sdf_box (⟨num a, num b, num c⟩ : vec3f binary32) (vec3f_make 2.0 0 0)
      (vec3f_make 0.4 0.4 0.4) ≠ nan := by
    rw [e2, e4, b32_zero_def]
    exact b32_sdf_box_ne_nan a b c _ _ _ _ _ _
  have hg : sdf_plane (⟨num a, num b, num c⟩ : vec3f binary32) (-1.5) ≠ nan := by
    unfold sdf_plane
    dsimp only
    rw [e5, b32_sub_def]
    exact round32_ne_nan _ _
  have hs : sdf_smooth_min (sdf_sphere (⟨num a, num b, num c⟩ : vec3f binary32)
      (vec3f_make 0 0 0) 1.0)
      (sdf_box (⟨num a, num b, num c⟩ : vec3f binary32) (vec3f_make 2.0 0 0)
        (vec3f_make 0.4 0.4 0.4)) 0.3 < (0 : binary32) := by
    rw [e3]
    exact b32_smooth_min_neg _ _ _ (by positivity) h hbox
  exact b32_minf_neg _ _ hs hg

end SphereLemma


section RoundingError

open binary32

/-- Rounding to the nearest natural number is off by at most one half. -/
theorem round_half_even_err (a b : Nat) (hb : 0 < b) :
    2 * (round_half_even a b * b) ≤ 2 * a + b ∧ 2 * a ≤ 2 * (round_half_even a b * b) + b := by
  have h1 := Nat.div_add_mod a b
  have h2 := Nat.mod_lt a hb
  have h3 : b * (a / b) = a / b * b := Nat.mul_comm _ _
  unfold round_half_even
  split_ifs with c1 c2 c3
  · constructor <;> omega
  · rw [Nat.add_mul]; constructor <;> omega
  · constructor <;> omega
  · rw [Nat.add_mul]; constructor <;> omega

/-- After `s > 0` halvings the quotient still has 24 bits. -/
theorem excess_bits_spec (fuel : Nat) : ∀ q : Nat,
    excess_bits fuel q = 0 ∨ 2 ^ (excess_bits fuel q + 23) ≤ q := by
  induction fuel with
  | zero => intro q; left; rfl
  | succ n ih =>
    intro q
    unfold excess_bits
    split_ifs with h
    · left; rfl
    · right
      have hq : (2 : Nat) ^ 24 ≤ q := not_lt.mp h
      rcases ih (q / 2) with h0 | h1
      · rw [h0]
        exact hq
      · have e : 2 ^ (excess_bits n (q / 2) + 1 + 23) = 2 * 2 ^ (excess_bits n (q / 2) + 23) := by
          rw [show excess_bits n (q / 2) + 1 + 23 = (excess_bits n (q / 2) + 23) + 1 from by omega,
            pow_succ]
          omega
        rw [e]
        omega

/-- The rounding error of `round_units`: at most one half (of the unit `2^-149`) plus
the fraction `2^-24` of the exact result. -/
theorem round_units_err (a b : Nat) (hb : 0 < b) :
    2 ^ 24 * (round_units a b * b) ≤ (2 ^ 24 + 1) * a + 2 ^ 23 * b ∧
    2 ^ 24 * a ≤ 2 ^ 24 * (round_units a b * b) + a + 2 ^ 23 * b := by
  unfold round_units
  dsimp only
  generalize hs : excess_bits 256 (a / b) = s
  have hB : 0 < b * 2 ^ s := Nat.mul_pos hb (Nat.pow_pos (by norm_num))
  obtain ⟨e1, e2⟩ := round_half_even_err a (b * 2 ^ s) hB
  have e3 : round_half_even a (b * 2 ^ s) * 2 ^ s * b
      = round_half_even a (b * 2 ^ s) * (b * 2 ^ s) := by ring
  rw [e3]
  have hBa : 2 ^ 23 * (b * 2 ^ s) ≤ a + 2 ^ 23 * b := by
    rcases excess_bits_spec 256 (a / b) with h0 | h1
    · rw [hs] at h0
      rw [h0]
      simp
    · rw [hs] at h1
      have h4 : 2 ^ (s + 23) * b ≤ a := by
        calc 2 ^ (s + 23) * b ≤ a / b * b := Nat.mul_le_mul_right b h1
          _ ≤ a := Nat.div_mul_le_self a b
      have h5 : 2 ^ 23 * (b * 2 ^ s) = 2 ^ (s + 23) * b := by
        rw [pow_add]; ring
      rw [h5]
      omega
  generalize round_half_even a (b * 2 ^ s) * (b * 2 ^ s) = m at e1 e2
  generalize b * 2 ^ s = B at e1 e2 hBa
  constructor <;> omega

end RoundingError

section RoundingError2

open binary32

/-- The rounding error of `round32`, away from overflow: an exact result `a / b` of
magnitude at most `2^126` (in units of `2^-149`: `overflow_units / 4`) rounds to a number
`r` of the same sign with `|r - a / b| <= |a / b| / 2^24 + 1 / 2`. -/
theorem round32_err (a : Int) (b : Nat) (hb : 0 < b)
    (hs : 4 * a.natAbs ≤ overflow_units * b) :
    ∃ r : Int, round32 a b = num r ∧ (0 ≤ a → 0 ≤ r) ∧ (a ≤ 0 → r ≤ 0) ∧
      |(r : ℚ) - (a : ℚ) / b| ≤ |(a : ℚ) / b| / 2 ^ 24 + 1 / 2 := by
  obtain ⟨e1, e2⟩ := round_units_err a.natAbs b hb
  have hO := overflow_units_pos
  have hno : ¬ overflow_units ≤ round_units a.natAbs b := by
    intro hc
    have h1 : overflow_units * b ≤ round_units a.natAbs b * b := Nat.mul_le_mul_right b hc
    have h2 : b ≤ overflow_units * b := Nat.le_mul_of_pos_left b hO
    generalize overflow_units * b = P at hs h1 h2
    generalize round_units a.natAbs b * b = M at e1 e2 h1
    omega
  have hbq : (0 : ℚ) < (b : ℚ) := by exact_mod_cast hb
  -- the two inequalities in the rationals
  have q1 : ((round_units a.natAbs b : ℕ) : ℚ) ≤ (a.natAbs : ℚ) / b * (1 + 1 / 2 ^ 24) + 1 / 2 := by
    have : ((2 ^ 24 * (round_units a.natAbs b * b) : ℕ) : ℚ)
        ≤ (((2 ^ 24 + 1) * a.natAbs + 2 ^ 23 * b : ℕ) : ℚ) := by exact_mod_cast e1
    push_cast at this
    have e : (a.natAbs : ℚ) / b * (1 + 1 / 2 ^ 24) + 1 / 2
        = ((2 ^ 24 + 1) * (a.natAbs : ℚ) + 2 ^ 23 * b) / (2 ^ 24 * b) := by
      field_simp
      ring
    rw [e, le_div_iff₀ (by positivity)]
    linarith
  have q2 : (a.natAbs : ℚ) / b * (1 - 1 / 2 ^ 24) - 1 / 2 ≤ ((round_units a.natAbs b : ℕ) : ℚ) := by
    have : ((2 ^ 24 * a.natAbs : ℕ) : ℚ)
        ≤ ((2 ^ 24 * (round_units a.natAbs b * b) + a.natAbs + 2 ^ 23 * b : ℕ) : ℚ) := by
      exact_mod_cast e2
    push_cast at this
    have e : (a.natAbs : ℚ) / b * (1 - 1 / 2 ^ 24) - 1 / 2
        = ((2 ^ 24 - 1) * (a.natAbs : ℚ) - 2 ^ 23 * b) / (2 ^ 24 * b) := by
      field_simp
      ring
    rw [e, div_le_iff₀ (by positivity)]
    linarith
  have hab : ((a.natAbs : ℕ) : ℚ) = |(a : ℚ)| := by
    rw [Nat.cast_natAbs, Int.cast_abs]
  have habs : |(a : ℚ) / b| = |(a : ℚ)| / b := by
    rw [abs_div, abs_of_pos hbq]
  rw [hab] at q1 q2
  rw [habs]
  unfold round32
  rw [if_neg hno]
  by_cases ha : a < 0
  · rw [if_pos ha]
    refine ⟨_, rfl, fun h => absurd h (by omega), fun _ => by omega, ?_⟩
    have hq : (a : ℚ) / b = -(|(a : ℚ)| / b) := by
      rw [abs_of_neg (by exact_mod_cast ha)]
      ring
    rw [hq]
    generalize |(a : ℚ)| / b = D at q1 q2
    push_cast
    rw [abs_le]
    constructor <;> linarith
  · rw [if_neg ha]
    refine ⟨_, rfl, fun _ => Int.natCast_nonneg _, fun h => by
      have h0 : a = 0 := by omega
      subst h0
      simp [round_units_zero], ?_⟩
    have hq : (a : ℚ) / b = |(a : ℚ)| / b := by
      rw [abs_of_nonneg (by exact_mod_cast not_lt.mp ha)]
    rw [hq]
    generalize |(a : ℚ)| / b = D at q1 q2
    push_cast
    rw [abs_le]
    constructor <;> linarith

end RoundingError2

section SphereMargin

open binary32

theorem overflow_units_ge : 2 ^ 160 ≤ overflow_units := by
  decide!

theorem b32_add_num (a b : Int) : (num a + num b : binary32) = round32 (a + b) 1 := rfl

theorem b32_sub_num (a b : Int) : (num a - num b : binary32) = round32 (a + -b) 1 := rfl

theorem b32_mul_num (a b : Int) : (num a * num b : binary32) = round32 (a * b) (2 ^ 149) := rfl

/-- The square of a number of magnitude at most `1`, with its rounding error. -/
theorem b32_sq_le (a : Int) (h : a.natAbs ≤ 2 ^ 149) :
    ∃ r : Int, num a * num a = num r ∧ 0 ≤ r ∧
      (r : ℚ) ≤ (a : ℚ) * a / 2 ^ 149 * (1 + 1 / 2 ^ 24) + 1 / 2 := by
  have hO := overflow_units_ge
  have hs : 4 * (a * a).natAbs ≤ overflow_units * 2 ^ 149 := by
    rw [Int.natAbs_mul]
    have h1 : a.natAbs * a.natAbs ≤ 2 ^ 149 * 2 ^ 149 := Nat.mul_le_mul h h
    have h2 : 4 * (2 ^ 149 * 2 ^ 149) ≤ 2 ^ 160 * 2 ^ 149 := by norm_num
    calc 4 * (a.natAbs * a.natAbs) ≤ 4 * (2 ^ 149 * 2 ^ 149) := Nat.mul_le_mul_left 4 h1
      _ ≤ 2 ^ 160 * 2 ^ 149 := h2
      _ ≤ overflow_units * 2 ^ 149 := Nat.mul_le_mul_right _ hO
  obtain ⟨r, hr, hr0, _, herr⟩ := round32_err (a * a) (2 ^ 149) (by positivity) hs
  refine ⟨r, by rw [b32_mul_num]; exact hr, hr0 (mul_self_nonneg a), ?_⟩
  have hnn : (0 : ℚ) ≤ ((a * a : Int) : ℚ) / ((2 ^ 149 : Nat) : ℚ) := by
    apply div_nonneg
    · exact_mod_cast mul_self_nonneg a
    · positivity
  rw [abs_of_nonneg hnn] at herr
  have := (abs_le.mp herr).2
  push_cast at this ⊢
  linarith

/-- The sum of two non-negative numbers of magnitude at most `2`, with its rounding
error. -/
theorem b32_add_le (m n : Int) (hm : 0 ≤ m) (hn : 0 ≤ n) (hm2 : m ≤ 2 ^ 150)
    (hn2 : n ≤ 2 ^ 150) :
    ∃ r : Int, num m + num n = num r ∧ 0 ≤ r ∧
      (r : ℚ) ≤ ((m : ℚ) + n) * (1 + 1 / 2 ^ 24) + 1 / 2 := by
  have hO := overflow_units_ge
  have hs : 4 * (m + n).natAbs ≤ overflow_units * 1 := by
    have h1 : (m + n).natAbs ≤ 2 ^ 151 := by
      have e : ((2 : Int) ^ 151) = 2 ^ 150 + 2 ^ 150 := by norm_num
      omega
    calc 4 * (m + n).natAbs ≤ 4 * 2 ^ 151 := Nat.mul_le_mul_left 4 h1
      _ ≤ 2 ^ 160 := by norm_num
      _ ≤ overflow_units * 1 := by omega
  obtain ⟨r, hr, hr0, _, herr⟩ := round32_err (m + n) 1 (by norm_num) hs
  refine ⟨r, by rw [b32_add_num]; exact hr, hr0 (by omega), ?_⟩
  have hnn : (0 : ℚ) ≤ ((m + n : Int) : ℚ) / ((1 : Nat) : ℚ) := by
    apply div_nonneg
    · exact_mod_cast (by omega : 0 ≤ m + n)
    · positivity
  rw [abs_of_nonneg hnn] at herr
  have := (abs_le.mp herr).2
  push_cast at this ⊢
  simp only [div_one] at this
  linarith

/-- The square root of a number at most `1 - 2^-22` is below `1`. -/
theorem b32_sqrt_lt_one (l : Int) (h0 : 0 ≤ l) (h1 : (l : ℚ) ≤ 2 ^ 149 * (1 - 1 / 2 ^ 22)) :
    ∃ s : Int, sqrt (num l) = num s ∧ 0 ≤ s ∧ s < 2 ^ 149 := by
  have hO := overflow_units_ge
  have hl : l.toNat ≤ 2 ^ 149 - 2 ^ 127 := by
    have e : (2 : ℚ) ^ 149 * (1 - 1 / 2 ^ 22) = ((2 ^ 149 - 2 ^ 127 : Int) : ℚ) := by
      norm_num
    rw [e] at h1
    have h2 : l ≤ 2 ^ 149 - 2 ^ 127 := by exact_mod_cast h1
    omega
  rw [b32_sqrt_num l h0]
  generalize hm : l.toNat * 2 ^ 149 = m
  have hm1 : m ≤ (2 ^ 149 - 2 ^ 127) * 2 ^ 149 := by
    rw [← hm]; exact Nat.mul_le_mul_right _ hl
  have hm2 : m < 2 ^ 428 := lt_of_le_of_lt hm1 (by norm_num)
  obtain ⟨s1, _⟩ := isqrt_spec m hm2
  generalize isqrt m = r at s1 ⊢
  -- `r < 2^149 - 2^126`, since `(2^149 - 2^126)^2 > (2^149 - 2^127) * 2^149`
  have hr : r < 2 ^ 149 - 2 ^ 126 := by
    by_contra hc
    have hc2 : 2 ^ 149 - 2 ^ 126 ≤ r := not_lt.mp hc
    have h3 : (2 ^ 149 - 2 ^ 126) * (2 ^ 149 - 2 ^ 126) ≤ r * r := Nat.mul_le_mul hc2 hc2
    have h4 : (2 ^ 149 - 2 ^ 127) * 2 ^ 149 < (2 ^ 149 - 2 ^ 126) * (2 ^ 149 - 2 ^ 126) := by
      norm_num
    omega
  generalize hc0 : (if r * r = m then 0 else 1 : Nat) = c0
  have hc1 : c0 ≤ 1 := by
    rw [← hc0]; split_ifs <;> norm_num
  have hs : 4 * ((2 * r + c0 : Nat) : Int).natAbs ≤ overflow_units * 2 := by
    rw [Int.natAbs_ofNat]
    have : 4 * (2 * r + c0) ≤ 2 ^ 160 * 2 := by
      have h5 : r < 2 ^ 149 := lt_of_lt_of_le hr (Nat.sub_le _ _)
      have h6 : (2 : Nat) ^ 160 * 2 = 2 ^ 149 * 4096 := by norm_num
      omega
    exact le_trans this (Nat.mul_le_mul_right 2 hO)
  obtain ⟨s, hs1, hs0, _, herr⟩ := round32_err ((2 * r + c0 : Nat) : Int) 2 (by norm_num) hs
  refine ⟨s, hs1, hs0 (Int.natCast_nonneg _), ?_⟩
  have hnn : (0 : ℚ) ≤ (((2 * r + c0 : Nat) : Int) : ℚ) / ((2 : Nat) : ℚ) :=
    div_nonneg (by exact_mod_cast Int.natCast_nonneg _) (by norm_num)
  rw [abs_of_nonneg hnn] at herr
  have hup := (abs_le.mp herr).2
  push_cast at hup
  have hrq : (r : ℚ) ≤ 2 ^ 149 - 2 ^ 126 - 1 := by
    have : r + 1 ≤ 2 ^ 149 - 2 ^ 126 := hr
    have h7 : ((r + 1 : Nat) : ℚ) ≤ ((2 ^ 149 - 2 ^ 126 : Nat) : ℚ) := by exact_mod_cast this
    rw [Nat.cast_sub (by norm_num)] at h7
    push_cast at h7
    linarith
  have hcq : (c0 : ℚ) ≤ 1 := by exact_mod_cast hc1
  have hsq : (s : ℚ) < 2 ^ 149 := by
    have e1 : (2 * (r : ℚ) + c0) / 2 ≤ 2 ^ 149 - 2 ^ 126 := by linarith
    have e2 : (2 * (r : ℚ) + c0) / 2 / 2 ^ 24 ≤ (2 ^ 149 - 2 ^ 126) / 2 ^ 24 := by
      apply div_le_div_of_nonneg_right e1 (by positivity)
    have e3 : ((2 : ℚ) ^ 149 - 2 ^ 126) / 2 ^ 24 = 2 ^ 125 - 2 ^ 102 := by norm_num
    have e4 : (2 : ℚ) ^ 126 = 2 * 2 ^ 125 := by norm_num
    have e5 : (0 : ℚ) < 2 ^ 102 := by positivity
    have e6 : (1 : ℚ) ≤ 2 ^ 125 := by norm_num
    linarith
  exact_mod_cast hsq

end SphereMargin

section LengthMargin

open binary32

theorem b32_of_is_float (x : binary32) (h : is_float x = true) :
    ∃ a : Int, x = num a ∧ round32 a 1 = num a := by
  rcases x with a | s | _
  · exact ⟨a, rfl, by simpa [is_float] using h⟩
  · simp [is_float] at h
  · simp [is_float] at h

/-- A binary32 number minus zero is the number itself. -/
theorem b32_sub_zero (a : Int) (h : round32 a 1 = num a) :
    (num a - (0 : binary32)) = num a := by
  rw [b32_zero_def, b32_sub_num]
  have e : a + -0 = a := by omega
  rw [e]
  exact h

/-- The computed squared length of a finite vector of exact squared length `t <= 1`
(all in units of `2^-149`) is at most `t * (1 + 2^-24)^3 + 3`: three rounded products and
two rounded sums. -/
theorem b32_length_sq_le (a b c : Int)
    (h : (a : ℚ) * a / 2 ^ 149 + (b : ℚ) * b / 2 ^ 149 + (c : ℚ) * c / 2 ^ 149 ≤ 2 ^ 149) :
    ∃ l : Int, vec3f_length_sq (⟨num a, num b, num c⟩ : vec3f binary32) = num l ∧ 0 ≤ l ∧
      (l : ℚ) ≤ ((a : ℚ) * a / 2 ^ 149 + (b : ℚ) * b / 2 ^ 149 + (c : ℚ) * c / 2 ^ 149)
        * ((1 + 1 / 2 ^ 24) * (1 + 1 / 2 ^ 24) * (1 + 1 / 2 ^ 24)) + 3 := by
  have hU : (0 : ℚ) < 2 ^ 149 := by positivity
  have ha2 : (0 : ℚ) ≤ (a : ℚ) * a / 2 ^ 149 := div_nonneg (mul_self_nonneg _) hU.le
  have hb2 : (0 : ℚ) ≤ (b : ℚ) * b / 2 ^ 149 := div_nonneg (mul_self_nonneg _) hU.le
  have hc2 : (0 : ℚ) ≤ (c : ℚ) * c / 2 ^ 149 := div_nonneg (mul_self_nonneg _) hU.le
  have hle : ∀ x : Int, (x : ℚ) * x / 2 ^ 149 ≤ 2 ^ 149 → x.natAbs ≤ 2 ^ 149 := by
    intro x hx
    rw [div_le_iff₀ hU] at hx
    by_contra hc
    have h1 : (2 : Int) ^ 149 + 1 ≤ |x| := by
      have : 2 ^ 149 < x.natAbs := not_le.mp hc
      have h2 : ((2 ^ 149 + 1 : Nat) : Int) ≤ (x.natAbs : Int) := by exact_mod_cast this
      rw [Int.natCast_natAbs] at h2
      exact_mod_cast h2
    have h3 : ((2 : Int) ^ 149 + 1) * (2 ^ 149 + 1) ≤ |x| * |x| :=
      mul_le_mul h1 h1 (by positivity) (abs_nonneg x)
    rw [abs_mul_abs_self] at h3
    have h4 : (((2 : ℚ) ^ 149 + 1) * (2 ^ 149 + 1) : ℚ) ≤ (x : ℚ) * x := by exact_mod_cast h3
    have h5 : (2 : ℚ) ^ 149 * 2 ^ 149 < ((2 : ℚ) ^ 149 + 1) * (2 ^ 149 + 1) := by norm_num
    linarith
  have na := hle a (by linarith)
  have nb := hle b (by linarith)
  have nc := hle c (by linarith)
  obtain ⟨r1, e1, p1, q1⟩ := b32_sq_le a na
  obtain ⟨r2, e2, p2, q2⟩ := b32_sq_le b nb
  obtain ⟨r3, e3, p3, q3⟩ := b32_sq_le c nc
  have big : ∀ r : Int, (r : ℚ) ≤ 2 ^ 149 * (1 + 1 / 2 ^ 20) + 2 → r ≤ 2 ^ 150 := by
    intro r hr
    have : (r : ℚ) ≤ ((2 ^ 150 : Int) : ℚ) := by
      push_cast
      have e : (2 : ℚ) ^ 149 * (1 + 1 / 2 ^ 23) + 2 ≤ 2 ^ 150 := by norm_num
      linarith
    exact_mod_cast this
  generalize (a : ℚ) * a / 2 ^ 149 = A at *
  generalize (b : ℚ) * b / 2 ^ 149 = B at *
  generalize (c : ℚ) * c / 2 ^ 149 = C at *
  have k1 : (r1 : ℚ) ≤ 2 ^ 149 * (1 + 1 / 2 ^ 20) + 2 := by linarith
  have k2 : (r2 : ℚ) ≤ 2 ^ 149 * (1 + 1 / 2 ^ 20) + 2 := by linarith
  have k3 : (r3 : ℚ) ≤ 2 ^ 149 * (1 + 1 / 2 ^ 20) + 2 := by linarith
  obtain ⟨s1, e4, p4, q4⟩ := b32_add_le r1 r2 p1 p2 (big r1 k1) (big r2 k2)
  have ks : (s1 : ℚ) ≤ 2 ^ 149 * (1 + 1 / 2 ^ 20) + 2 := by linarith
  obtain ⟨l, e5, p5, q5⟩ := b32_add_le s1 r3 p4 p3 (big s1 ks) (big r3 k3)
  refine ⟨l, ?_, p5, by linarith⟩
  unfold vec3f_length_sq
  dsimp only
  rw [e1, e2, e3, e4, e5]

/-- In binary32, a point with `|p|^2 <= 1 - 2^-21` has a negative computed distance to the
unit sphere: the computed squared length stays below `1 - 2^-22`, and the rounded square
root stays below `1`. -/
theorem b32_sphere_neg_of_margin (a b c : Int) (fa : round32 a 1 = num a)
    (fb : round32 b 1 = num b) (fc : round32 c 1 = num c)
    (h : to_rat (num a) * to_rat (num a) + to_rat (num b) * to_rat (num b)
      + to_rat (num c) * to_rat (num c) ≤ 1 - 1 / 2 ^ 21) :
    sdf_sphere (⟨num a, num b, num c⟩ : vec3f binary32) (vec3f_make 0 0 0) 1.0
      < (0 : binary32) := by
  simp only [to_rat] at h
  have hU : (0 : ℚ) < 2 ^ 149 := by positivity
  have hsum : (a : ℚ) * a / 2 ^ 149 + (b : ℚ) * b / 2 ^ 149 + (c : ℚ) * c / 2 ^ 149
      ≤ 2 ^ 149 * (1 - 1 / 2 ^ 21) := by
    have e : (a : ℚ) / 2 ^ 149 * ((a : ℚ) / 2 ^ 149) + (b : ℚ) / 2 ^ 149 * ((b : ℚ) / 2 ^ 149)
        + (c : ℚ) / 2 ^ 149 * ((c : ℚ) / 2 ^ 149)
        = ((a : ℚ) * a / 2 ^ 149 + (b : ℚ) * b / 2 ^ 149 + (c : ℚ) * c / 2 ^ 149) / 2 ^ 149 := by
      field_simp
    rw [e, div_le_iff₀ hU] at h
    linarith
  have e21 : (2 : ℚ) ^ 149 * (1 - 1 / 2 ^ 21) ≤ 2 ^ 149 := by norm_num
  obtain ⟨l, e5, p5, q5⟩ := b32_length_sq_le a b c (by linarith)
  have kl : (l : ℚ) ≤ 2 ^ 149 * (1 - 1 / 2 ^ 22) := by
    generalize (a : ℚ) * a / 2 ^ 149 + (b : ℚ) * b / 2 ^ 149 + (c : ℚ) * c / 2 ^ 149 = T at *
    linarith
  obtain ⟨s, e6, _, p6⟩ := b32_sqrt_lt_one l p5 kl
  have e8 : vec3f_sub (⟨num a, num b, num c⟩ : vec3f binary32) (vec3f_make 0 0 0)
      = ⟨num a, num b, num c⟩ := by
    unfold vec3f_sub vec3f_make
    dsimp only
    rw [b32_sub_zero a fa, b32_sub_zero b fb, b32_sub_zero c fc]
  unfold sdf_sphere vec3f_length
  rw [e8, e5, b32_sqrtf_def, e6]
  have e7 : (1.0 : binary32) = num (2 ^ 149) := by decide!
  rw [e7, b32_sub_num]
  exact b32_round_neg _ _ (by norm_num) (by push_cast; omega)

/-- In binary32, a finite vector with exact squared length at most `1e-12 * (1 - 1e-6)`
has a computed squared length that is not above the constant `1e-12f`. -/
theorem b32_length_sq_short (a b c : Int)
    (h : to_rat (num a) * to_rat (num a) + to_rat (num b) * to_rat (num b)
      + to_rat (num c) * to_rat (num c) ≤ (1 - 1 / 10 ^ 6) / 10 ^ 12) :
    ¬ vec3f_length_sq (⟨num a, num b, num c⟩ : vec3f binary32) > 1e-12 := by
  simp only [to_rat] at h
  have hU : (0 : ℚ) < 2 ^ 149 := by positivity
  have hsum : (a : ℚ) * a / 2 ^ 149 + (b : ℚ) * b / 2 ^ 149 + (c : ℚ) * c / 2 ^ 149
      ≤ 2 ^ 149 * ((1 - 1 / 10 ^ 6) / 10 ^ 12) := by
    have e : (a : ℚ) / 2 ^ 149 * ((a : ℚ) / 2 ^ 149) + (b : ℚ) / 2 ^ 149 * ((b : ℚ) / 2 ^ 149)
        + (c : ℚ) / 2 ^ 149 * ((c : ℚ) / 2 ^ 149)
        = ((a : ℚ) * a / 2 ^ 149 + (b : ℚ) * b / 2 ^ 149 + (c : ℚ) * c / 2 ^ 149) / 2 ^ 149 := by
      field_simp
    rw [e, div_le_iff₀ hU] at h
    linarith
  have e21 : (2 : ℚ) ^ 149 * ((1 - 1 / 10 ^ 6) / 10 ^ 12) ≤ 2 ^ 149 := by norm_num
  obtain ⟨l, e5, p5, q5⟩ := b32_length_sq_le a b c (by linarith)
  have kl : (l : ℚ) ≤ 0x1197998 * 2 ^ 85 := by
    generalize (a : ℚ) * a / 2 ^ 149 + (b : ℚ) * b / 2 ^ 149 + (c : ℚ) * c / 2 ^ 149 = T at *
    have e : (2 : ℚ) ^ 149 * ((1 - 1 / 10 ^ 6) / 10 ^ 12)
        * ((1 + 1 / 2 ^ 24) * (1 + 1 / 2 ^ 24) * (1 + 1 / 2 ^ 24)) + 3
        ≤ 0x1197998 * 2 ^ 85 := by norm_num
    have g : (0 : ℚ) ≤ (1 + 1 / 2 ^ 24) * (1 + 1 / 2 ^ 24) * (1 + 1 / 2 ^ 24) := by positivity
    have := mul_le_mul_of_nonneg_right hsum g
    linarith
  have kl2 : l ≤ 0x1197998 * 2 ^ 85 := by exact_mod_cast kl
  have e7 : (1e-12 : binary32) = num (0x1197998 * 2 ^ 85) := by decide!
  rw [e5, e7, b32_gt_def]
  simp only [lt, decide_eq_true_eq, not_lt]
  exact kl2

end LengthMargin

section BoxMargin

open binary32

theorem overflow_units_eq : overflow_units = 2 ^ 277 := by
  unfold overflow_units
  rfl

theorem b32_absf_num (r : Int) : absf (num r : binary32) = num |r| := by
  unfold absf
  by_cases h : r < 0
  · rw [if_pos (b32_neg_num r h), abs_of_neg h]
    rfl
  · rw [if_neg (fun h2 => by
      rcases b32_neg_cases _ h2 with h3 | ⟨m, hm, h3⟩
      · cases h3
      · cases h3; exact h hm), abs_of_nonneg (not_lt.mp h)]

theorem b32_absf_inf (s : Bool) : absf (inf s : binary32) = inf false := by
  unfold absf
  cases s
  · rw [if_neg (fun h2 => by
      rcases b32_neg_cases _ h2 with h3 | ⟨m, hm, h3⟩ <;> cases h3)]
  · rw [if_pos b32_neg_inf]
    rfl

/-- The rounding of an integer, from below: the result is an infinity or a number of
magnitude at least `|a| * (1 - 2^-24) - 1/2`. -/
theorem round32_abs_lower (a : Int) :
    (∃ s : Bool, round32 a 1 = inf s) ∨
    ∃ r : Int, round32 a 1 = num r ∧ (0 ≤ a → 0 ≤ r) ∧
      |(a : ℚ)| * (1 - 1 / 2 ^ 24) - 1 / 2 ≤ |(r : ℚ)| := by
  obtain ⟨_, e2⟩ := round_units_err a.natAbs 1 (by norm_num)
  have q2 : |(a : ℚ)| * (1 - 1 / 2 ^ 24) - 1 / 2 ≤ ((round_units a.natAbs 1 : ℕ) : ℚ) := by
    have : ((2 ^ 24 * a.natAbs : ℕ) : ℚ)
        ≤ ((2 ^ 24 * (round_units a.natAbs 1 * 1) + a.natAbs + 2 ^ 23 * 1 : ℕ) : ℚ) := by
      exact_mod_cast e2
    push_cast at this
    rw [Nat.cast_natAbs, Int.cast_abs] at this
    linarith
  unfold round32
  by_cases hno : overflow_units ≤ round_units a.natAbs 1
  · left
    rw [if_pos hno]
    exact ⟨_, rfl⟩
  · right
    rw [if_neg hno]
    by_cases ha : a < 0
    · rw [if_pos ha]
      refine ⟨_, rfl, fun h => absurd h (by omega), ?_⟩
      have e : |((-(round_units a.natAbs 1 : Int) : Int) : ℚ)|
          = ((round_units a.natAbs 1 : ℕ) : ℚ) := by
        push_cast
        rw [abs_neg]
        exact abs_of_nonneg (Nat.cast_nonneg _)
      rw [e]
      exact q2
    · rw [if_neg ha]
      refine ⟨_, rfl, fun _ => Int.natCast_nonneg _, ?_⟩
      have e : |(((round_units a.natAbs 1 : Int) : Int) : ℚ)|
          = ((round_units a.natAbs 1 : ℕ) : ℚ) := by
        push_cast
        exact abs_of_nonneg (Nat.cast_nonneg _)
      rw [e]
      exact q2

/-- An excess is negative when the point is inside along the axis by more than the
rounding error of `p - c`: `|p - c| * (1 + 2^-23) + 2^-149 <= half`, for `half` up to
`2^126`. -/
theorem b32_excess_neg_of_margin (p c h : Int) (hh : h ≤ 2 ^ 275)
    (hm : |(p : ℚ) - c| * (1 + 1 / 2 ^ 23) + 1 ≤ h) :
    box_excess (num p) (num c) (num h) < (0 : binary32) := by
  have habs : |((p + -c : Int) : ℚ)| = |(p : ℚ) - c| := by
    push_cast
    rw [sub_eq_add_neg]
  have hle : |((p + -c : Int) : ℚ)| ≤ h := by
    rw [habs]
    have : (0 : ℚ) ≤ |(p : ℚ) - c| := abs_nonneg _
    have : |(p : ℚ) - c| * (1 / 2 ^ 23) ≥ 0 := by positivity
    linarith
  have hs : 4 * (p + -c).natAbs ≤ overflow_units * 1 := by
    rw [overflow_units_eq]
    have h1 : ((p + -c).natAbs : Int) ≤ h := by
      rw [Int.natCast_natAbs]
      have : ((|p + -c| : Int) : ℚ) ≤ (h : ℚ) := by
        rw [Int.cast_abs]; exact hle
      exact_mod_cast this
    have h2 : (p + -c).natAbs ≤ 2 ^ 275 := by
      have : ((p + -c).natAbs : Int) ≤ 2 ^ 275 := le_trans h1 hh
      exact_mod_cast this
    calc 4 * (p + -c).natAbs ≤ 4 * 2 ^ 275 := Nat.mul_le_mul_left 4 h2
      _ = 2 ^ 277 * 1 := by norm_num
  obtain ⟨r, hr, _, _, herr⟩ := round32_err (p + -c) 1 (by norm_num) hs
  simp only [Nat.cast_one, div_one] at herr
  have hr2 : |(r : ℚ)| ≤ |((p + -c : Int) : ℚ)| * (1 + 1 / 2 ^ 24) + 1 / 2 := by
    have := abs_sub_abs_le_abs_sub (r : ℚ) ((p + -c : Int) : ℚ)
    linarith
  rw [habs] at hr2
  have hr3 : |r| + 1 ≤ h := by
    have e : ((|r| : Int) : ℚ) < h := by
      rw [Int.cast_abs]
      have : (0 : ℚ) ≤ |(p : ℚ) - c| := abs_nonneg _
      have e1 : |(p : ℚ) - c| * (1 + 1 / 2 ^ 24) ≤ |(p : ℚ) - c| * (1 + 1 / 2 ^ 23) := by
        apply mul_le_mul_of_nonneg_left _ this
        norm_num
      linarith
    have : |r| < h := by exact_mod_cast e
    omega
  unfold box_excess
  rw [b32_sub_num, hr, b32_absf_num, b32_sub_num]
  exact b32_round_neg _ _ (by norm_num) (by push_cast; omega)

/-- An excess is at least `2^-74` when the point is outside along the axis by more than
the rounding errors: `|p - c| * (1 - 2^-23) >= half + 2^-73 + 2^-149`. -/
theorem b32_excess_pos_of_margin (p c h : Int)
    (hm : (h : ℚ) + 2 ^ 76 + 1 ≤ |(p : ℚ) - c| * (1 - 1 / 2 ^ 23)) :
    num (2 ^ 75) ≤ box_excess (num p) (num c) (num h) := by
  have habs : |((p + -c : Int) : ℚ)| = |(p : ℚ) - c| := by
    push_cast
    rw [sub_eq_add_neg]
  unfold box_excess
  rw [b32_sub_num]
  rcases round32_abs_lower (p + -c) with ⟨s, hs⟩ | ⟨r, hr, _, hlow⟩
  · rw [hs, b32_absf_inf, b32_le_def]
    rfl
  · rw [hr, b32_absf_num, b32_sub_num]
    rw [habs] at hlow
    have hpos : (0 : ℚ) ≤ |(p : ℚ) - c| := abs_nonneg _
    have e1 : |(p : ℚ) - c| * (1 - 1 / 2 ^ 23) ≤ |(p : ℚ) - c| * (1 - 1 / 2 ^ 24) := by
      apply mul_le_mul_of_nonneg_left _ hpos
      norm_num
    have hbig : (2 : ℚ) ^ 76 ≤ ((|r| + -h : Int) : ℚ) := by
      push_cast
      linarith
    have hbig2 : (2 : Int) ^ 76 ≤ |r| + -h := by exact_mod_cast hbig
    rcases round32_abs_lower (|r| + -h) with ⟨s, hs⟩ | ⟨r2, hr2, hsign, hlow2⟩
    · -- an overflow of a positive exact result is `+inf`
      have hsf : round32 (|r| + -h) 1 = inf false := by
        rcases round32_of_nonneg (|r| + -h) 1 (le_trans (by positivity) hbig2) with h1 | ⟨x, _, h1⟩
        · exact h1
        · rw [h1] at hs; cases hs
      rw [hsf, b32_le_def]
      rfl
    · rw [hr2, b32_le_def]
      have hr2n : 0 ≤ r2 := hsign (le_trans (by positivity) hbig2)
      have e2 : |((|r| + -h : Int) : ℚ)| = ((|r| + -h : Int) : ℚ) :=
        abs_of_nonneg (le_trans (by positivity) hbig)
      rw [e2, abs_of_nonneg (by exact_mod_cast hr2n : (0 : ℚ) ≤ (r2 : ℚ))] at hlow2
      have e3 : (2 : ℚ) ^ 75 ≤ r2 := by
        have e4 : ((|r| + -h : Int) : ℚ) * (1 - 1 / 2 ^ 24) - 1 / 2 ≥ 2 ^ 76 * (1 - 1 / 2 ^ 24) - 1 / 2 := by
          have : (0 : ℚ) ≤ 1 - 1 / 2 ^ 24 := by norm_num
          have := mul_le_mul_of_nonneg_right hbig this
          linarith
        have e5 : (2 : ℚ) ^ 75 ≤ 2 ^ 76 * (1 - 1 / 2 ^ 24) - 1 / 2 := by norm_num
        linarith
      have e6 : (2 : Int) ^ 75 ≤ r2 := by exact_mod_cast e3
      simp only [le, decide_eq_true_eq]
      exact e6

/-- An excess is zero when the point is exactly on the face along the axis:
`|p - c| = half` with `half` a binary32 number. -/
theorem b32_excess_zero_of_on (p c h : Int) (hf : round32 h 1 = num h) (h0 : 0 ≤ h)
    (hm : |p - c| = h) :
    box_excess (num p) (num c) (num h) = 0 := by
  have hr : round32 (p + -c) 1 = num (p + -c) := by
    have e : p + -c = h ∨ p + -c = -h := by
      rcases abs_eq h0 |>.mp hm with h1 | h1
      · left; omega
      · right; omega
    rcases e with e | e
    · rw [e]; exact hf
    · rw [e]
      -- rounding is symmetric
      unfold round32 at hf ⊢
      rw [Int.natAbs_neg]
      by_cases hno : overflow_units ≤ round_units h.natAbs 1
      · rw [if_pos hno] at hf
        cases hf
      · rw [if_neg hno] at hf ⊢
        rw [if_neg (by omega)] at hf
        have hv : (round_units h.natAbs 1 : Int) = h := by
          injection hf
        by_cases hz : -h < 0
        · rw [if_pos hz, hv]
        · rw [if_neg hz, hv]
          have : h = 0 := by omega
          rw [this]
          rfl
  unfold box_excess
  rw [b32_sub_num, hr, b32_absf_num, b32_sub_num]
  have e0 : |p + -c| + -h = 0 := by
    have : p + -c = p - c := by omega
    rw [this, hm]
    omega
  rw [e0, round32_zero, b32_zero_def]

end BoxMargin

section MarginUnits

open binary32

/-- The margin `inside_margin` in units of `2^-149`. -/
theorem b32_inside_margin_units (p c h : Int) (hm : inside_margin (num p) (num c) (num h)) :
    h ≤ 2 ^ 275 ∧ |(p : ℚ) - c| * (1 + 1 / 2 ^ 23) + 1 ≤ h := by
  obtain ⟨h1, h2⟩ := hm
  simp only [to_rat] at h1 h2
  have hU : (0 : ℚ) < 2 ^ 149 := by positivity
  constructor
  · rw [div_le_iff₀ hU] at h1
    have e : (2 : ℚ) ^ 126 * 2 ^ 149 = 2 ^ 275 := by norm_num
    have h3 : (h : ℚ) ≤ (((2 : Int) ^ 275 : Int) : ℚ) := by
      rw [Int.cast_pow, Int.cast_ofNat]
      linarith
    exact Int.cast_le.mp h3
  · have e : (p : ℚ) / 2 ^ 149 - (c : ℚ) / 2 ^ 149 = ((p : ℚ) - c) / 2 ^ 149 := by ring
    rw [e, abs_div, abs_of_pos hU] at h2
    have e2 : |(p : ℚ) - c| / 2 ^ 149 * (1 + 1 / 2 ^ 23) + 1 / 2 ^ 149
        = (|(p : ℚ) - c| * (1 + 1 / 2 ^ 23) + 1) / 2 ^ 149 := by ring
    rw [e2] at h2
    exact (div_le_div_iff_of_pos_right hU).mp h2

/-- The margin `outside_margin` in units of `2^-149`. -/
theorem b32_outside_margin_units (p c h : Int)
    (hm : outside_margin (num p) (num c) (num h)) :
    (h : ℚ) + 2 ^ 76 + 1 ≤ |(p : ℚ) - c| * (1 - 1 / 2 ^ 23) := by
  unfold outside_margin at hm
  simp only [to_rat] at hm
  have hU : (0 : ℚ) < 2 ^ 149 := by positivity
  have e : (p : ℚ) / 2 ^ 149 - (c : ℚ) / 2 ^ 149 = ((p : ℚ) - c) / 2 ^ 149 := by ring
  rw [e, abs_div, abs_of_pos hU] at hm
  have e2 : (h : ℚ) / 2 ^ 149 + 1 / 2 ^ 73 + 1 / 2 ^ 149 = ((h : ℚ) + 2 ^ 76 + 1) / 2 ^ 149 := by
    have e3 : (1 : ℚ) / 2 ^ 73 = 2 ^ 76 / 2 ^ 149 := by norm_num
    rw [e3]
    ring
  have e4 : |(p : ℚ) - c| / 2 ^ 149 * (1 - 1 / 2 ^ 23)
      = (|(p : ℚ) - c| * (1 - 1 / 2 ^ 23)) / 2 ^ 149 := by ring
  rw [e2, e4] at hm
  exact (div_le_div_iff_of_pos_right hU).mp hm

/-- The condition `on_face` in units of `2^-149`. -/
theorem b32_on_face_units (p c h : Int) (hm : on_face (num p) (num c) (num h)) :
    round32 h 1 = num h ∧ 0 ≤ h ∧ |p - c| = h := by
  obtain ⟨h1, h2⟩ := hm
  simp only [to_rat] at h2
  have hU : (0 : ℚ) < 2 ^ 149 := by positivity
  have e : (p : ℚ) / 2 ^ 149 - (c : ℚ) / 2 ^ 149 = ((p : ℚ) - c) / 2 ^ 149 := by ring
  rw [e, abs_div, abs_of_pos hU] at h2
  have h3 : |(p : ℚ) - c| = h := by
    have := congrArg (fun t : ℚ => t * 2 ^ 149) h2
    simpa [div_mul_cancel₀, hU.ne.symm] using this
  have h4 : |p - c| = h := by exact_mod_cast h3
  refine ⟨by simpa [is_float] using h1, ?_, h4⟩
  rw [← h4]
  exact abs_nonneg _

/-- In binary32, inside a box by the margin along an axis, the excess is negative. -/
theorem b32_excess_neg_of_inside (p c h : Int)
    (hm : inside_margin (num p) (num c) (num h)) :
    box_excess (num p) (num c) (num h) < (0 : binary32) :=
  b32_excess_neg_of_margin p c h (b32_inside_margin_units p c h hm).1
    (b32_inside_margin_units p c h hm).2

/-- In binary32, outside a box by the margin along an axis, the excess is at least
`2^-74`. -/
theorem b32_excess_pos_of_outside (p c h : Int)
    (hm : outside_margin (num p) (num c) (num h)) :
    num (2 ^ 75) ≤ box_excess (num p) (num c) (num h) :=
  b32_excess_pos_of_margin p c h (b32_outside_margin_units p c h hm)

/-- In binary32, exactly on the face of a box along an axis, the excess is zero. -/
theorem b32_excess_zero_of_face (p c h : Int) (hm : on_face (num p) (num c) (num h)) :
    box_excess (num p) (num c) (num h) = 0 :=
  b32_excess_zero_of_on p c h (b32_on_face_units p c h hm).1 (b32_on_face_units p c h hm).2.1
    (b32_on_face_units p c h hm).2.2

/-- In binary32, on the face of a box or inside it by the margin along an axis, the excess
is not positive. -/
theorem b32_excess_not_pos (p c h : Int)
    (hm : on_face (num p) (num c) (num h) ∨ inside_margin (num p) (num c) (num h)) :
    ¬ (0 : binary32) < box_excess (num p) (num c) (num h) := by
  rcases hm with h1 | h1
  · rw [b32_excess_zero_of_face p c h h1]
    decide!
  · exact b32_not_pos_of_neg _ (b32_excess_neg_of_inside p c h h1)

/-- The sign of the body of `sdf_box` from the signs of three excesses that are not
NaNs. -/
theorem b32_box_sign (ex ey ez : binary32) (nx : ex ≠ nan) (ny : ey ≠ nan) (nz : ez ≠ nan) :
    (vec3f_length (vec3f_make (maxf ex 0) (maxf ey 0) (maxf ez 0))
        + minf (maxf ex (maxf ey ez)) 0 < (0 : binary32) ↔
      ex < (0 : binary32) ∧ ey < (0 : binary32) ∧ ez < (0 : binary32)) ∧
    (¬ (0 : binary32) < ex → ¬ (0 : binary32) < ey → ¬ (0 : binary32) < ez →
      (ex = 0 ∨ ey = 0 ∨ ez = 0) →
      vec3f_length (vec3f_make (maxf ex 0) (maxf ey 0) (maxf ez 0))
        + minf (maxf ex (maxf ey ez)) 0 = (0 : binary32)) ∧
    (((0 : binary32) < ex ∨ (0 : binary32) < ey ∨ (0 : binary32) < ez) →
      (0 : binary32) ≤ vec3f_length (vec3f_make (maxf ex 0) (maxf ey 0) (maxf ez 0))
        + minf (maxf ex (maxf ey ez)) 0) ∧
    ((num (2 ^ 75) ≤ ex ∨ num (2 ^ 75) ≤ ey ∨ num (2 ^ 75) ≤ ez) →
      (0 : binary32) < vec3f_length (vec3f_make (maxf ex 0) (maxf ey 0) (maxf ez 0))
        + minf (maxf ex (maxf ey ez)) 0) := by
  refine ⟨⟨?_, ?_⟩, ?_, ?_, ?_⟩
  · intro h
    by_contra hc
    exact b32_not_neg_of_nonneg _ (b32_box_nonneg ex ey ez nx ny nz hc) h
  · rintro ⟨h1, h2, h3⟩
    exact b32_box_neg ex ey ez h1 h2 h3
  · intro h1 h2 h3 h0
    have hn : ¬ (ex < (0 : binary32) ∧ ey < (0 : binary32) ∧ ez < (0 : binary32)) := by
      rintro ⟨a1, a2, a3⟩
      rcases h0 with e | e | e
      · rw [e] at a1; exact absurd a1 (by decide!)
      · rw [e] at a2; exact absurd a2 (by decide!)
      · rw [e] at a3; exact absurd a3 (by decide!)
    rw [b32_box_outside_zero ex ey ez h1 h2 h3, b32_box_inside_zero ex ey ez nx ny nz hn]
    decide!
  · intro h
    apply b32_box_nonneg ex ey ez nx ny nz
    rintro ⟨a1, a2, a3⟩
    rcases h with e | e | e
    · exact b32_not_pos_of_neg _ a1 e
    · exact b32_not_pos_of_neg _ a2 e
    · exact b32_not_pos_of_neg _ a3 e
  · intro h
    have hn : ¬ (ex < (0 : binary32) ∧ ey < (0 : binary32) ∧ ez < (0 : binary32)) := by
      rintro ⟨a1, a2, a3⟩
      rcases h with e | e | e
      · exact b32_not_pos_of_neg _ a1 (b32_pos_of_ge _ e)
      · exact b32_not_pos_of_neg _ a2 (b32_pos_of_ge _ e)
      · exact b32_not_pos_of_neg _ a3 (b32_pos_of_ge _ e)
    rw [b32_box_inside_zero ex ey ez nx ny nz hn]
    exact b32_add_pos_left _ _ (b32_box_outside_pos ex ey ez h) b32_zero_nonneg

end MarginUnits

section ValueCalculus

open binary32

/-- Rounding in terms of values: an exact result `e` of magnitude at most `2^126` rounds to
a finite value within `|e| * 2^-24 + 2^-150` of it, with the sign of `e`. -/
theorem b32v_round (a : Int) (b : Nat) (hb : 0 < b) (e : ℚ) (he : e = (a : ℚ) / b / 2 ^ 149)
    (hB : |e| ≤ 2 ^ 126) :
    ∃ r : Int, round32 a b = num r ∧ |to_rat (num r) - e| ≤ |e| / 2 ^ 24 + 1 / 2 ^ 150 ∧
      (0 ≤ e → 0 ≤ to_rat (num r)) ∧ (e ≤ 0 → to_rat (num r) ≤ 0) := by
  have hU : (0 : ℚ) < 2 ^ 149 := by positivity
  have hbq : (0 : ℚ) < (b : ℚ) := by exact_mod_cast hb
  have hs : 4 * a.natAbs ≤ overflow_units * b := by
    rw [overflow_units_eq]
    have h1 : |(a : ℚ)| ≤ 2 ^ 275 * b := by
      rw [he, abs_div, abs_div, abs_of_pos hU, abs_of_pos hbq, div_le_iff₀ hU,
        div_le_iff₀ hbq] at hB
      have e2 : (2 : ℚ) ^ 126 * 2 ^ 149 = 2 ^ 275 := by rw [← pow_add]
      rw [e2] at hB
      exact hB
    have h2 : ((4 * a.natAbs : Nat) : ℚ) ≤ ((2 ^ 277 * b : Nat) : ℚ) := by
      rw [Nat.cast_mul, Nat.cast_mul, Nat.cast_natAbs, Int.cast_abs, Nat.cast_pow]
      have e3 : ((2 : Nat) : ℚ) ^ 277 = 4 * 2 ^ 275 := by
        rw [show (277 : Nat) = 2 + 275 from rfl, pow_add]
        norm_num
      rw [e3]
      push_cast
      linarith
    exact Nat.cast_le.mp h2
  obtain ⟨r, hr, p1, p2, herr⟩ := round32_err a b hb hs
  refine ⟨r, hr, ?_, ?_, ?_⟩
  · simp only [to_rat]
    rw [he]
    have e4 : (r : ℚ) / 2 ^ 149 - (a : ℚ) / b / 2 ^ 149 = ((r : ℚ) - (a : ℚ) / b) / 2 ^ 149 := by
      ring
    rw [e4, abs_div, abs_div, abs_of_pos hU]
    have e5 : |(a : ℚ) / b| / 2 ^ 149 / 2 ^ 24 + 1 / 2 ^ 150
        = (|(a : ℚ) / b| / 2 ^ 24 + 1 / 2) / 2 ^ 149 := by
      have e6 : (1 : ℚ) / 2 ^ 150 = 1 / 2 / 2 ^ 149 := by norm_num
      rw [e6]
      ring
    rw [e5]
    exact (div_le_div_iff_of_pos_right hU).mpr herr
  · intro h0
    simp only [to_rat]
    have ha : 0 ≤ a := by
      rw [he] at h0
      have h3 : (0 : ℚ) ≤ (a : ℚ) / b := by
        by_contra hc
        have := div_neg_of_neg_of_pos (not_le.mp hc) hU
        linarith
      have h4 : (0 : ℚ) ≤ (a : ℚ) := by
        by_contra hc
        have := div_neg_of_neg_of_pos (not_le.mp hc) hbq
        linarith
      exact_mod_cast h4
    have hr0 : (0 : ℚ) ≤ (r : ℚ) := by exact_mod_cast p1 ha
    exact div_nonneg hr0 hU.le
  · intro h0
    simp only [to_rat]
    have ha : a ≤ 0 := by
      rw [he] at h0
      have h3 : (a : ℚ) / b ≤ 0 := by
        by_contra hc
        have := div_pos (not_le.mp hc) hU
        linarith
      have h4 : (a : ℚ) ≤ 0 := by
        by_contra hc
        have := div_pos (not_le.mp hc) hbq
        linarith
      exact_mod_cast h4
    have hr0 : (r : ℚ) ≤ 0 := by exact_mod_cast p2 ha
    exact div_nonpos_of_nonpos_of_nonneg hr0 hU.le

/-- The product of two finite values whose exact product has magnitude at most `2^126`. -/
theorem b32v_mul (x y : Int) (hB : |to_rat (num x) * to_rat (num y)| ≤ 2 ^ 126) :
    ∃ r : Int, (num x * num y : binary32) = num r ∧
      |to_rat (num r) - to_rat (num x) * to_rat (num y)|
        ≤ |to_rat (num x) * to_rat (num y)| / 2 ^ 24 + 1 / 2 ^ 150 ∧
      (0 ≤ to_rat (num x) * to_rat (num y) → 0 ≤ to_rat (num r)) ∧
      (to_rat (num x) * to_rat (num y) ≤ 0 → to_rat (num r) ≤ 0) := by
  rw [b32_mul_num]
  apply b32v_round (x * y) (2 ^ 149) (by positivity) _ _ hB
  simp only [to_rat]
  rw [Int.cast_mul, Nat.cast_pow, Nat.cast_ofNat]
  have hU : (2 : ℚ) ^ 149 ≠ 0 := by positivity
  generalize (2 : ℚ) ^ 149 = U at hU ⊢
  field_simp

/-- The sum of two finite values whose exact sum has magnitude at most `2^126`. -/
theorem b32v_add (x y : Int) (hB : |to_rat (num x) + to_rat (num y)| ≤ 2 ^ 126) :
    ∃ r : Int, (num x + num y : binary32) = num r ∧
      |to_rat (num r) - (to_rat (num x) + to_rat (num y))|
        ≤ |to_rat (num x) + to_rat (num y)| / 2 ^ 24 + 1 / 2 ^ 150 ∧
      (0 ≤ to_rat (num x) + to_rat (num y) → 0 ≤ to_rat (num r)) ∧
      (to_rat (num x) + to_rat (num y) ≤ 0 → to_rat (num r) ≤ 0) := by
  rw [b32_add_num]
  apply b32v_round (x + y) 1 (by norm_num) _ _ hB
  simp only [to_rat]
  push_cast
  field_simp

/-- The difference of two finite values whose exact difference has magnitude at most
`2^126`. -/
theorem b32v_sub (x y : Int) (hB : |to_rat (num x) - to_rat (num y)| ≤ 2 ^ 126) :
    ∃ r : Int, (num x - num y : binary32) = num r ∧
      |to_rat (num r) - (to_rat (num x) - to_rat (num y))|
        ≤ |to_rat (num x) - to_rat (num y)| / 2 ^ 24 + 1 / 2 ^ 150 ∧
      (0 ≤ to_rat (num x) - to_rat (num y) → 0 ≤ to_rat (num r)) ∧
      (to_rat (num x) - to_rat (num y) ≤ 0 → to_rat (num r) ≤ 0) := by
  rw [b32_sub_num]
  apply b32v_round (x + -y) 1 (by norm_num) _ _ hB
  simp only [to_rat]
  push_cast
  field_simp
  ring

/-- The quotient of two finite values, the divisor not zero, whose exact quotient has
magnitude at most `2^126`. -/
theorem b32v_div (x y : Int) (hy : y ≠ 0)
    (hB : |to_rat (num x) / to_rat (num y)| ≤ 2 ^ 126) :
    ∃ r : Int, (num x / num y : binary32) = num r ∧
      |to_rat (num r) - to_rat (num x) / to_rat (num y)|
        ≤ |to_rat (num x) / to_rat (num y)| / 2 ^ 24 + 1 / 2 ^ 150 ∧
      (0 ≤ to_rat (num x) / to_rat (num y) → 0 ≤ to_rat (num r)) ∧
      (to_rat (num x) / to_rat (num y) ≤ 0 → to_rat (num r) ≤ 0) := by
  have e : (num x / num y : binary32) = round32 (x * 2 ^ 149 * Int.sign y) y.natAbs := by
    rw [b32_div_def]
    simp only [div, if_neg hy]
  rw [e]
  apply b32v_round (x * 2 ^ 149 * Int.sign y) y.natAbs (Int.natAbs_pos.mpr hy) _ _ hB
  simp only [to_rat]
  have hyq : (y : ℚ) ≠ 0 := by exact_mod_cast hy
  have hU : (2 : ℚ) ^ 149 ≠ 0 := by positivity
  rw [Nat.cast_natAbs, Int.cast_abs, Int.cast_mul, Int.cast_mul, Int.cast_pow, Int.cast_ofNat]
  rcases lt_or_gt_of_ne hy with h | h
  · have h1 : (y : ℚ) < 0 := by exact_mod_cast h
    rw [Int.sign_eq_neg_one_of_neg h, abs_of_neg h1, Int.cast_neg, Int.cast_one]
    generalize (2 : ℚ) ^ 149 = U at hU ⊢
    field_simp
    ring
  · have h1 : (0 : ℚ) < (y : ℚ) := by exact_mod_cast h
    rw [Int.sign_eq_one_of_pos h, abs_of_pos h1, Int.cast_one]
    generalize (2 : ℚ) ^ 149 = U at hU ⊢
    field_simp
    ring

/-- The conversion of an `int` of magnitude at most `2^126`. -/
theorem b32v_of_int (k : Int) (hB : |(k : ℚ)| ≤ 2 ^ 126) :
    ∃ r : Int, ((k : Int) : binary32) = num r ∧
      |to_rat (num r) - (k : ℚ)| ≤ |(k : ℚ)| / 2 ^ 24 + 1 / 2 ^ 150 ∧
      (0 ≤ (k : ℚ) → 0 ≤ to_rat (num r)) ∧ ((k : ℚ) ≤ 0 → to_rat (num r) ≤ 0) := by
  have e : ((k : Int) : binary32) = round32 (k * 2 ^ 149) 1 := rfl
  rw [e]
  apply b32v_round (k * 2 ^ 149) 1 (by norm_num) _ _ hB
  rw [Int.cast_mul, Int.cast_pow, Int.cast_ofNat, Nat.cast_one, div_one]
  have hU : (2 : ℚ) ^ 149 ≠ 0 := by positivity
  generalize (2 : ℚ) ^ 149 = U at hU ⊢
  field_simp

end ValueCalculus

section PixelCoordinates

open binary32

set_option maxRecDepth 100000

theorem b32_one_def : (1.0 : binary32) = num (2 ^ 149) := by decide!

theorem b32_two_def : (2.0 : binary32) = num (2 ^ 150) := by decide!

theorem b32v_one : to_rat (num (2 ^ 149)) = 1 := by
  simp only [to_rat]
  rw [Int.cast_pow, Int.cast_ofNat]
  exact div_self (by positivity)

theorem b32v_two : to_rat (num (2 ^ 150)) = 2 := by
  simp only [to_rat]
  rw [Int.cast_pow, Int.cast_ofNat, show (150 : Nat) = 149 + 1 from rfl, pow_succ]
  field_simp

theorem b32v_ne_zero (r : Int) (h : to_rat (num r) ≠ 0) : r ≠ 0 := by
  intro hc
  apply h
  rw [hc]
  simp [to_rat]

/-- The conversion `(float)k` of a positive `int`: a finite value within a factor
`1 +- 2^-23` of `k`. -/
theorem b32v_of_pos_int (k : Int) (h1 : 1 ≤ k) (hk : k < 2 ^ 31) :
    ∃ r : Int, ((k : Int) : binary32) = num r ∧ r ≠ 0 ∧
      (k : ℚ) * (1 - 1 / 2 ^ 23) ≤ to_rat (num r) ∧
      to_rat (num r) ≤ (k : ℚ) * (1 + 1 / 2 ^ 23) := by
  have k1 : (1 : ℚ) ≤ (k : ℚ) := by exact_mod_cast h1
  have k2 : (k : ℚ) ≤ 2 ^ 31 := by exact_mod_cast hk.le
  have ka : |(k : ℚ)| = k := abs_of_nonneg (by linarith)
  obtain ⟨r, hr, er, _, _⟩ := b32v_of_int k (by rw [ka]; linarith [show (2:ℚ)^31 ≤ 2^126 by norm_num])
  rw [ka] at er
  obtain ⟨e1, e2⟩ := abs_le.mp er
  have t0 : (1 : ℚ) / 2 ^ 150 ≤ 1 / 2 ^ 24 := by norm_num
  have lo : (k : ℚ) * (1 - 1 / 2 ^ 23) ≤ to_rat (num r) := by
    have : (k : ℚ) * (1 / 2 ^ 24) ≥ 1 / 2 ^ 24 := by
      have := mul_le_mul_of_nonneg_right k1 (show (0:ℚ) ≤ 1 / 2 ^ 24 by positivity)
      linarith
    linarith
  have hi : to_rat (num r) ≤ (k : ℚ) * (1 + 1 / 2 ^ 23) := by
    have : (k : ℚ) * (1 / 2 ^ 24) ≥ 1 / 2 ^ 24 := by
      have := mul_le_mul_of_nonneg_right k1 (show (0:ℚ) ≤ 1 / 2 ^ 24 by positivity)
      linarith
    linarith
  refine ⟨r, hr, ?_, lo, hi⟩
  apply b32v_ne_zero
  have : (0 : ℚ) < (k : ℚ) * (1 - 1 / 2 ^ 23) := by
    apply mul_pos (by linarith)
    norm_num
  linarith

/-- The conversion `(float)n` of an `int` that is not negative. -/
theorem b32v_of_nonneg_int (n : Int) (h0 : 0 ≤ n) (hn : n < 2 ^ 31) :
    ∃ r : Int, ((n : Int) : binary32) = num r ∧ 0 ≤ to_rat (num r) ∧
      to_rat (num r) ≤ (n : ℚ) * (1 + 1 / 2 ^ 24) + 1 / 2 ^ 150 := by
  have k1 : (0 : ℚ) ≤ (n : ℚ) := by exact_mod_cast h0
  have k2 : (n : ℚ) ≤ 2 ^ 31 := by exact_mod_cast hn.le
  have ka : |(n : ℚ)| = n := abs_of_nonneg k1
  obtain ⟨r, hr, er, p, _⟩ := b32v_of_int n (by rw [ka]; linarith [show (2:ℚ)^31 ≤ 2^126 by norm_num])
  rw [ka] at er
  obtain ⟨e1, e2⟩ := abs_le.mp er
  exact ⟨r, hr, p k1, by linarith⟩

end PixelCoordinates

section PixelFraction

open binary32

/-- The reciprocal `1.0f / (float)k` of a positive `int`: not negative, and at most
`(1 + 2^-21) / k`. -/
theorem b32v_inv_int (k : Int) (h1 : 1 ≤ k) (hk : k < 2 ^ 31) :
    ∃ r : Int, (1.0 : binary32) / ((k : Int) : binary32) = num r ∧ 0 ≤ to_rat (num r) ∧
      to_rat (num r) * (k : ℚ) ≤ 1 + 1 / 2 ^ 21 := by
  have k1 : (1 : ℚ) ≤ (k : ℚ) := by exact_mod_cast h1
  have k2 : (k : ℚ) ≤ 2 ^ 31 := by exact_mod_cast hk.le
  obtain ⟨K, hK, K0, lo, hi⟩ := b32v_of_pos_int k h1 hk
  have ha : (0 : ℚ) < to_rat (num K) := by
    have : (0 : ℚ) < (k : ℚ) * (1 - 1 / 2 ^ 23) := mul_pos (by linarith) (by norm_num)
    linarith
  have ha1 : (1 : ℚ) / 2 ≤ to_rat (num K) := by
    have := mul_le_mul_of_nonneg_right k1 (show (0 : ℚ) ≤ 1 - 1 / 2 ^ 23 by norm_num)
    have e : (1 : ℚ) * (1 - 1 / 2 ^ 23) ≥ 1 / 2 := by norm_num
    linarith
  have hia : (0 : ℚ) < 1 / to_rat (num K) := by positivity
  have hia2 : (1 : ℚ) / to_rat (num K) ≤ 2 := by
    rw [div_le_iff₀ ha]
    linarith
  have hq : 1 / to_rat (num K) * (k : ℚ) * (1 - 1 / 2 ^ 23) ≤ 1 := by
    have := mul_le_mul_of_nonneg_left lo hia.le
    have e : 1 / to_rat (num K) * to_rat (num K) = 1 := by field_simp
    rw [e] at this
    linarith [this]
  rw [hK, b32_one_def]
  have hB : |to_rat (num (2 ^ 149)) / to_rat (num K)| ≤ 2 ^ 126 := by
    rw [b32v_one, abs_of_pos hia]
    linarith [show (2 : ℚ) ≤ 2 ^ 126 by norm_num]
  obtain ⟨r, hr, er, p, _⟩ := b32v_div (2 ^ 149) K K0 hB
  rw [b32v_one] at er p
  rw [abs_of_pos hia] at er
  obtain ⟨e1, e2⟩ := abs_le.mp er
  refine ⟨r, hr, p hia.le, ?_⟩
  have h3 : to_rat (num r) ≤ 1 / to_rat (num K) * (1 + 1 / 2 ^ 24) + 1 / 2 ^ 150 := by linarith
  have h4 := mul_le_mul_of_nonneg_right h3 (show (0 : ℚ) ≤ (k : ℚ) by linarith)
  have h5 : (1 / to_rat (num K) * (1 + 1 / 2 ^ 24) + 1 / 2 ^ 150) * (k : ℚ)
      = 1 / to_rat (num K) * (k : ℚ) * (1 + 1 / 2 ^ 24) + 1 / 2 ^ 150 * (k : ℚ) := by ring
  rw [h5] at h4
  generalize 1 / to_rat (num K) * (k : ℚ) = q at hq h4
  have h6 : (1 : ℚ) / 2 ^ 150 * (k : ℚ) ≤ 1 / 2 ^ 150 * 2 ^ 31 :=
    mul_le_mul_of_nonneg_left k2 (by positivity)
  have h7 : (1 : ℚ) / 2 ^ 150 * 2 ^ 31 ≤ 1 / 2 ^ 100 := by norm_num
  linarith

/-- The quantity `(float)n * inv * 2.0f` with `inv = 1.0f / (float)k` and `0 <= n < k`: a
finite value between `0` and `2 + 2^-17`. -/
theorem b32v_frac (n k : Int) (hn : 0 ≤ n) (hnk : n < k) (hk : k < 2 ^ 31) :
    ∃ r : Int, ((n : Int) : binary32) * ((1.0 : binary32) / ((k : Int) : binary32)) * 2.0
        = num r ∧
      0 ≤ to_rat (num r) ∧ to_rat (num r) ≤ 2 + 1 / 2 ^ 17 := by
  have k1 : (1 : ℚ) ≤ (k : ℚ) := by
    have : 1 ≤ k := by omega
    exact_mod_cast this
  have k2 : (k : ℚ) ≤ 2 ^ 31 := by exact_mod_cast hk.le
  have n0 : (0 : ℚ) ≤ (n : ℚ) := by exact_mod_cast hn
  have nk : (n : ℚ) ≤ (k : ℚ) := by exact_mod_cast hnk.le
  obtain ⟨I, hI, I0, I1⟩ := b32v_inv_int k (by omega) hk
  obtain ⟨N, hN, N0, N1⟩ := b32v_of_nonneg_int n hn (by omega)
  rw [hI, hN, b32_two_def]
  -- the product `(float)n * inv`
  have hN2 : to_rat (num N) ≤ (k : ℚ) * (1 + 1 / 2 ^ 23) := by
    have h1 : (n : ℚ) * (1 + 1 / 2 ^ 24) ≤ (k : ℚ) * (1 + 1 / 2 ^ 24) :=
      mul_le_mul_of_nonneg_right nk (by norm_num)
    have h2 : (k : ℚ) * (1 / 2 ^ 24) ≥ 1 * (1 / 2 ^ 24) :=
      mul_le_mul_of_nonneg_right k1 (by norm_num)
    have h3 : (1 : ℚ) / 2 ^ 150 ≤ 1 * (1 / 2 ^ 24) := by norm_num
    linarith
  have hp0 : 0 ≤ to_rat (num N) * to_rat (num I) := mul_nonneg N0 I0
  have hp1 : to_rat (num N) * to_rat (num I) ≤ 1 + 1 / 2 ^ 20 := by
    have h1 := mul_le_mul_of_nonneg_right hN2 I0
    have h2 : (k : ℚ) * (1 + 1 / 2 ^ 23) * to_rat (num I)
        = to_rat (num I) * (k : ℚ) * (1 + 1 / 2 ^ 23) := by ring
    rw [h2] at h1
    have h3 := mul_le_mul_of_nonneg_right I1 (show (0 : ℚ) ≤ 1 + 1 / 2 ^ 23 by norm_num)
    have h4 : ((1 : ℚ) + 1 / 2 ^ 21) * (1 + 1 / 2 ^ 23) ≤ 1 + 1 / 2 ^ 20 := by norm_num
    linarith
  obtain ⟨m, hm, em, pm, _⟩ := b32v_mul N I (by
    rw [abs_of_nonneg hp0]
    exact le_trans hp1 (by norm_num))
  rw [abs_of_nonneg hp0] at em
  obtain ⟨_, em2⟩ := abs_le.mp em
  have m0 := pm hp0
  have m1 : to_rat (num m) ≤ 1 + 1 / 2 ^ 19 := by
    have h1 : to_rat (num N) * to_rat (num I) / 2 ^ 24 ≤ (1 + 1 / 2 ^ 20) / 2 ^ 24 :=
      div_le_div_of_nonneg_right hp1 (by positivity)
    have h2 : ((1 : ℚ) + 1 / 2 ^ 20) / 2 ^ 24 + 1 / 2 ^ 150 + (1 + 1 / 2 ^ 20)
        ≤ 1 + 1 / 2 ^ 19 := by norm_num
    linarith
  rw [hm]
  -- the doubling
  have hd0 : 0 ≤ to_rat (num m) * to_rat (num (2 ^ 150)) := by
    rw [b32v_two]
    linarith
  have hd1 : to_rat (num m) * to_rat (num (2 ^ 150)) ≤ 2 + 1 / 2 ^ 18 := by
    rw [b32v_two]
    have : ((1 : ℚ) + 1 / 2 ^ 19) * 2 ≤ 2 + 1 / 2 ^ 18 := by norm_num
    linarith
  obtain ⟨d, hd, ed, pd, _⟩ := b32v_mul m (2 ^ 150) (by
    rw [abs_of_nonneg hd0]
    exact le_trans hd1 (by norm_num))
  rw [abs_of_nonneg hd0] at ed
  obtain ⟨_, ed2⟩ := abs_le.mp ed
  refine ⟨d, hd, pd hd0, ?_⟩
  have h1 : to_rat (num m) * to_rat (num (2 ^ 150)) / 2 ^ 24
      ≤ (2 + 1 / 2 ^ 18) / 2 ^ 24 :=
    div_le_div_of_nonneg_right hd1 (by positivity)
  have h2 : ((2 : ℚ) + 1 / 2 ^ 18 - 1 / 2 ^ 20) / 2 ^ 24 + 1 / 2 ^ 150 ≤ 1 / 2 ^ 20 := by
    norm_num
  linarith

end PixelFraction

section RayCoordinates

open binary32

/-- A rounded value is at most its exact value's bound, enlarged by the rounding error. -/
theorem b32v_abs_le (v e B : ℚ) (h : |v - e| ≤ |e| / 2 ^ 24 + 1 / 2 ^ 150) (hB : |e| ≤ B) :
    |v| ≤ B * (1 + 1 / 2 ^ 24) + 1 / 2 ^ 150 := by
  have h1 := abs_sub_abs_le_abs_sub v e
  have h2 : |e| / 2 ^ 24 ≤ B / 2 ^ 24 := div_le_div_of_nonneg_right hB (by positivity)
  linarith

/-- A rounded value is within the bound's rounding error of its exact value. -/
theorem b32v_err_le (v e B : ℚ) (h : |v - e| ≤ |e| / 2 ^ 24 + 1 / 2 ^ 150) (hB : |e| ≤ B) :
    |v - e| ≤ B / 2 ^ 24 + 1 / 2 ^ 150 := by
  have h2 : |e| / 2 ^ 24 ≤ B / 2 ^ 24 := div_le_div_of_nonneg_right hB (by positivity)
  linarith

/-- The row coordinate `v` of line 179 is a finite value of magnitude at most
`1 + 2^-16`. -/
theorem b32v_row_v (height py : Int) (h0 : 0 ≤ py) (h1 : py < height) (hh : height < 2 ^ 31) :
    ∃ v : Int, (row_v height py : binary32) = num v ∧ |to_rat (num v)| ≤ 1 + 1 / 2 ^ 16 := by
  obtain ⟨d, hd, d0, d1⟩ := b32v_frac py height h0 h1 hh
  have e : (row_v height py : binary32)
      = 1.0 - ((py : Int) : binary32) * ((1.0 : binary32) / ((height : Int) : binary32)) * 2.0 :=
    rfl
  rw [e, hd, b32_one_def]
  have hB : |to_rat (num (2 ^ 149)) - to_rat (num d)| ≤ 1 + 1 / 2 ^ 17 := by
    rw [b32v_one, abs_le]
    constructor <;> linarith
  obtain ⟨v, hv, ev, _, _⟩ := b32v_sub (2 ^ 149) d (le_trans hB (by norm_num))
  refine ⟨v, hv, ?_⟩
  have := b32v_abs_le _ _ _ ev hB
  have e2 : ((1 : ℚ) + 1 / 2 ^ 17) * (1 + 1 / 2 ^ 24) + 1 / 2 ^ 150 ≤ 1 + 1 / 2 ^ 16 := by
    norm_num
  linarith

/-- The aspect ratio `(float)width / (float)height` is a finite value of magnitude at
most `2^33`. -/
theorem b32v_aspect (width height : Int) (hw : 0 < width) (hw2 : width < 2 ^ 31)
    (hh : 0 < height) (hh2 : height < 2 ^ 31) :
    ∃ a : Int, (((width : Int) : binary32) / ((height : Int) : binary32)) = num a ∧
      |to_rat (num a)| ≤ 2 ^ 33 := by
  obtain ⟨W, hW, _, W0, W1⟩ := b32v_of_pos_int width (by omega) hw2
  obtain ⟨H, hH, H0, H1, _⟩ := b32v_of_pos_int height (by omega) hh2
  have w2 : (width : ℚ) ≤ 2 ^ 31 := by exact_mod_cast hw2.le
  have w1 : (1 : ℚ) ≤ (width : ℚ) := by
    have : 1 ≤ width := by omega
    exact_mod_cast this
  have k1 : (1 : ℚ) ≤ (height : ℚ) := by
    have : 1 ≤ height := by omega
    exact_mod_cast this
  have hHp : (1 : ℚ) / 2 ≤ to_rat (num H) := by
    have := mul_le_mul_of_nonneg_right k1 (show (0 : ℚ) ≤ 1 - 1 / 2 ^ 23 by norm_num)
    have e : (1 : ℚ) * (1 - 1 / 2 ^ 23) ≥ 1 / 2 := by norm_num
    linarith
  have hWp : (0 : ℚ) ≤ to_rat (num W) ∧ to_rat (num W) ≤ 2 ^ 32 - 2 ^ 9 := by
    have := mul_le_mul_of_nonneg_right w2 (show (0 : ℚ) ≤ 1 + 1 / 2 ^ 23 by norm_num)
    have e : (2 : ℚ) ^ 31 * (1 + 1 / 2 ^ 23) ≤ 2 ^ 32 - 2 ^ 9 := by norm_num
    have e0 := mul_le_mul_of_nonneg_right w1 (show (0 : ℚ) ≤ 1 - 1 / 2 ^ 23 by norm_num)
    have e1 : (0 : ℚ) ≤ 1 * (1 - 1 / 2 ^ 23) := by norm_num
    constructor <;> linarith
  rw [hW, hH]
  have hq0 : 0 ≤ to_rat (num W) / to_rat (num H) := div_nonneg hWp.1 (by linarith)
  have hq : to_rat (num W) / to_rat (num H) ≤ 2 ^ 33 - 2 ^ 10 := by
    rw [div_le_iff₀ (by linarith)]
    have := mul_le_mul_of_nonneg_left hHp (show (0 : ℚ) ≤ 2 ^ 33 - 2 ^ 10 by norm_num)
    have e : ((2 : ℚ) ^ 33 - 2 ^ 10) * (1 / 2) ≥ 2 ^ 32 - 2 ^ 9 := by norm_num
    linarith
  have hB : |to_rat (num W) / to_rat (num H)| ≤ 2 ^ 33 - 2 ^ 10 := by
    rw [abs_of_nonneg hq0]
    exact hq
  obtain ⟨a, ha, ea, _, _⟩ := b32v_div W H H0 (le_trans hB (by norm_num))
  refine ⟨a, ha, ?_⟩
  have := b32v_abs_le _ _ _ ea hB
  have e2 : ((2 : ℚ) ^ 33 - 2 ^ 10) * (1 + 1 / 2 ^ 24) + 1 / 2 ^ 150 ≤ 2 ^ 33 := by norm_num
  linarith

/-- The column coordinate `u` of line 186 is a finite value of magnitude at most `2^34`. -/
theorem b32v_col_u (width height px : Int) (h0 : 0 ≤ px) (h1 : px < width)
    (hw2 : width < 2 ^ 31) (hh : 0 < height) (hh2 : height < 2 ^ 31) :
    ∃ u : Int, ((((px : Int) : binary32) * ((1.0 : binary32) / ((width : Int) : binary32)) * 2.0
        - 1.0) * (((width : Int) : binary32) / ((height : Int) : binary32))) = num u ∧
      |to_rat (num u)| ≤ 2 ^ 34 := by
  obtain ⟨d, hd, d0, d1⟩ := b32v_frac px width h0 h1 hw2
  obtain ⟨a, ha, a1⟩ := b32v_aspect width height (by omega) hw2 hh hh2
  rw [hd, ha, b32_one_def]
  have hB : |to_rat (num d) - to_rat (num (2 ^ 149))| ≤ 1 + 1 / 2 ^ 17 := by
    rw [b32v_one, abs_le]
    constructor <;> linarith
  obtain ⟨m, hm, em, _, _⟩ := b32v_sub d (2 ^ 149) (le_trans hB (by norm_num))
  rw [hm]
  have m1 : |to_rat (num m)| ≤ 1 + 1 / 2 ^ 16 := by
    have := b32v_abs_le _ _ _ em hB
    have e2 : ((1 : ℚ) + 1 / 2 ^ 17) * (1 + 1 / 2 ^ 24) + 1 / 2 ^ 150 ≤ 1 + 1 / 2 ^ 16 := by
      norm_num
    linarith
  have hP : |to_rat (num m) * to_rat (num a)| ≤ (1 + 1 / 2 ^ 16) * 2 ^ 33 := by
    rw [abs_mul]
    exact mul_le_mul m1 a1 (abs_nonneg _) (by norm_num)
  obtain ⟨u, hu, eu, _, _⟩ := b32v_mul m a (le_trans hP (by norm_num))
  refine ⟨u, hu, ?_⟩
  have := b32v_abs_le _ _ _ eu hP
  have e2 : ((1 : ℚ) + 1 / 2 ^ 16) * 2 ^ 33 * (1 + 1 / 2 ^ 24) + 1 / 2 ^ 150 ≤ 2 ^ 34 := by
    norm_num
  linarith

end RayCoordinates

section RayAlgebra

/-- A square changes by at most `2 * M * E` downwards when its base of magnitude at most
`M` moves by at most `E`. -/
theorem sq_lower_of_close (x y M E : ℚ) (h1 : |x - y| ≤ E) (h2 : |y| ≤ M) :
    y * y - 2 * M * E ≤ x * x := by
  obtain ⟨a1, a2⟩ := abs_le.mp h1
  obtain ⟨b1, b2⟩ := abs_le.mp h2
  nlinarith [mul_nonneg (sub_nonneg.mpr b2) (sub_nonneg.mpr a2),
    mul_nonneg (show 0 ≤ M + y by linarith) (show 0 ≤ E + (x - y) by linarith),
    mul_self_nonneg (x - y)]

/-- The magnitude of `a * c + b * s` with `|c|, |s| <= 1`. -/
theorem abs_rot_le (a b c s : ℚ) (hc : |c| ≤ 1) (hs : |s| ≤ 1) :
    |a * c + b * s| ≤ |a| + |b| := by
  have h1 : |a * c| ≤ |a| := by
    rw [abs_mul]
    exact mul_le_of_le_one_right (abs_nonneg a) hc
  have h2 : |b * s| ≤ |b| := by
    rw [abs_mul]
    exact mul_le_of_le_one_right (abs_nonneg b) hs
  exact le_trans (abs_add _ _) (add_le_add h1 h2)

/-- The pitch rotation keeps the squared length of `(v, -1)` up to the rounding errors:
with `ry`, `rz` within `2^-20` of `v * cp + sp` and `v * sp - cp`,
`ry^2 + rz^2 >= cp^2 + sp^2 - 2^-16`. -/
theorem pitch_sq_lower (v cp sp ry rz : ℚ) (hv : |v| ≤ 2) (hcp : |cp| ≤ 1) (hsp : |sp| ≤ 1)
    (hy : |ry - (v * cp + sp)| ≤ 1 / 2 ^ 20) (hz : |rz - (v * sp - cp)| ≤ 1 / 2 ^ 20) :
    cp * cp + sp * sp - 1 / 2 ^ 16 ≤ ry * ry + rz * rz := by
  have by1 : |v * cp + sp| ≤ 3 := by
    have := abs_rot_le v sp cp 1 hcp (by norm_num)
    rw [mul_one] at this
    linarith
  have bz1 : |v * sp - cp| ≤ 3 := by
    have := abs_rot_le v (-cp) sp 1 hsp (by norm_num)
    rw [mul_one, abs_neg] at this
    have e : v * sp + -cp = v * sp - cp := by ring
    rw [e] at this
    linarith
  have h1 := sq_lower_of_close ry (v * cp + sp) 3 (1 / 2 ^ 20) hy by1
  have h2 := sq_lower_of_close rz (v * sp - cp) 3 (1 / 2 ^ 20) hz bz1
  have e : (v * cp + sp) * (v * cp + sp) + (v * sp - cp) * (v * sp - cp)
      = (v * v + 1) * (cp * cp + sp * sp) := by ring
  have h3 : cp * cp + sp * sp ≤ (v * v + 1) * (cp * cp + sp * sp) := by
    nlinarith [mul_nonneg (mul_self_nonneg v) (add_nonneg (mul_self_nonneg cp)
      (mul_self_nonneg sp))]
  have e2 : (2 : ℚ) * 3 * (1 / 2 ^ 20) + 2 * 3 * (1 / 2 ^ 20) ≤ 1 / 2 ^ 16 := by norm_num
  linarith

/-- The yaw rotation keeps the squared length of `(u, rz)` up to the rounding errors:
with `X`, `Z` within `(|u| + |rz|) * 2^-22 + tau` of `u * cy + rz * sy` and
`-u * sy + rz * cy`, `X^2 + Z^2 >= (u^2 + rz^2) * (cy^2 + sy^2 - 2^-19) - 4 * tau * M`. -/
theorem yaw_sq_lower (u rz cy sy X Z M tau : ℚ) (hcy : |cy| ≤ 1) (hsy : |sy| ≤ 1)
    (hM : M = |u| + |rz|)
    (hX : |X - (u * cy + rz * sy)| ≤ M / 2 ^ 22 + tau)
    (hZ : |Z - (-u * sy + rz * cy)| ≤ M / 2 ^ 22 + tau) :
    (u * u + rz * rz) * (cy * cy + sy * sy - 1 / 2 ^ 19) - 4 * tau * M ≤ X * X + Z * Z := by
  have bX : |u * cy + rz * sy| ≤ M := by
    rw [hM]
    exact abs_rot_le u rz cy sy hcy hsy
  have bZ : |-u * sy + rz * cy| ≤ M := by
    rw [hM]
    have := abs_rot_le (-u) rz sy cy hsy hcy
    rwa [abs_neg] at this
  have h1 := sq_lower_of_close X _ M _ hX bX
  have h2 := sq_lower_of_close Z _ M _ hZ bZ
  have e : (u * cy + rz * sy) * (u * cy + rz * sy) + (-u * sy + rz * cy) * (-u * sy + rz * cy)
      = (u * u + rz * rz) * (cy * cy + sy * sy) := by ring
  have hMM : M * M ≤ 2 * (u * u + rz * rz) := by
    rw [hM]
    nlinarith [mul_self_nonneg (|u| - |rz|), abs_mul_abs_self u, abs_mul_abs_self rz]
  have e2 : 2 * M * (M / 2 ^ 22 + tau) + 2 * M * (M / 2 ^ 22 + tau)
      = M * M / 2 ^ 20 + 4 * tau * M := by ring
  have e3 : (u * u + rz * rz) * (cy * cy + sy * sy - 1 / 2 ^ 19)
      = (u * u + rz * rz) * (cy * cy + sy * sy) - 2 * (u * u + rz * rz) / 2 ^ 20 := by ring
  have h4 : M * M / 2 ^ 20 ≤ 2 * (u * u + rz * rz) / 2 ^ 20 :=
    div_le_div_of_nonneg_right hMM (by positivity)
  linarith

/-- The squared length of the rotated ray vector, from the two rotations: at least
`1 - 2^-15` when the cosine and sine pairs have squared sums at least `1 - 2^-20`. -/
theorem ray_sq_lower (u v cp sp cy sy ry rz X Z tau : ℚ) (hv : |v| ≤ 2) (hu : |u| ≤ 2 ^ 34)
    (hcp : |cp| ≤ 1) (hsp : |sp| ≤ 1) (hcy : |cy| ≤ 1) (hsy : |sy| ≤ 1)
    (hP : 1 - 1 / 2 ^ 20 ≤ cp * cp + sp * sp) (hY : 1 - 1 / 2 ^ 20 ≤ cy * cy + sy * sy)
    (htau : tau ≤ 1 / 2 ^ 100)
    (hy : |ry - (v * cp + sp)| ≤ 1 / 2 ^ 20) (hz : |rz - (v * sp - cp)| ≤ 1 / 2 ^ 20)
    (hX : |X - (u * cy + rz * sy)| ≤ (|u| + |rz|) / 2 ^ 22 + tau)
    (hZ : |Z - (-u * sy + rz * cy)| ≤ (|u| + |rz|) / 2 ^ 22 + tau) :
    1 - 1 / 2 ^ 15 ≤ X * X + ry * ry + Z * Z := by
  have h1 := pitch_sq_lower v cp sp ry rz hv hcp hsp hy hz
  have h2 := yaw_sq_lower u rz cy sy X Z (|u| + |rz|) tau hcy hsy rfl hX hZ
  have bz : |rz| ≤ 4 := by
    have bz1 : |v * sp - cp| ≤ 3 := by
      have := abs_rot_le v (-cp) sp 1 hsp (by norm_num)
      rw [mul_one, abs_neg] at this
      have e : v * sp + -cp = v * sp - cp := by ring
      rw [e] at this
      linarith
    have := abs_sub_abs_le_abs_sub rz (v * sp - cp)
    linarith [show (1 : ℚ) / 2 ^ 20 ≤ 1 by norm_num]
  have hM : 4 * tau * (|u| + |rz|) ≤ 1 / 2 ^ 60 := by
    have h3 : |u| + |rz| ≤ 2 ^ 35 := by
      linarith [show (2 : ℚ) ^ 34 + 4 ≤ 2 ^ 35 by norm_num]
    have h4 : 4 * tau * (|u| + |rz|) ≤ 4 * (1 / 2 ^ 100) * 2 ^ 35 :=
      mul_le_mul (by linarith) h3 (by positivity) (by norm_num)
    have h5 : (4 : ℚ) * (1 / 2 ^ 100) * 2 ^ 35 ≤ 1 / 2 ^ 60 := by norm_num
    linarith
  have hk : (u * u + rz * rz) * (cy * cy + sy * sy - 1 / 2 ^ 19)
      ≥ rz * rz * (1 - 1 / 2 ^ 18) := by
    have k1 : (1 : ℚ) - 1 / 2 ^ 18 ≤ cy * cy + sy * sy - 1 / 2 ^ 19 := by
      have : (1 : ℚ) - 1 / 2 ^ 18 ≤ 1 - 1 / 2 ^ 20 - 1 / 2 ^ 19 := by norm_num
      linarith
    have k2 : (0 : ℚ) ≤ 1 - 1 / 2 ^ 18 := by norm_num
    nlinarith [mul_nonneg (mul_self_nonneg u) k2, mul_nonneg (add_nonneg (mul_self_nonneg u)
      (mul_self_nonneg rz)) (sub_nonneg.mpr k1)]
  have hr : ry * ry + rz * rz * (1 - 1 / 2 ^ 18) ≥ (ry * ry + rz * rz) * (1 - 1 / 2 ^ 18) := by
    nlinarith [mul_self_nonneg ry]
  have hf : (ry * ry + rz * rz) * (1 - 1 / 2 ^ 18)
      ≥ (1 - 1 / 2 ^ 20 - 1 / 2 ^ 16) * (1 - 1 / 2 ^ 18) :=
    mul_le_mul_of_nonneg_right (by linarith) (by norm_num)
  have hn : ((1 : ℚ) - 1 / 2 ^ 20 - 1 / 2 ^ 16) * (1 - 1 / 2 ^ 18) - 1 / 2 ^ 60
      ≥ 1 - 1 / 2 ^ 15 := by norm_num
  linarith

end RayAlgebra

section RayRounding

open binary32

/-- The rounded sum of two finite values that approximate `e1` and `e2`. -/
theorem b32v_add_approx (p q : Int) (e1 e2 A B : ℚ)
    (h1 : |to_rat (num p) - e1| ≤ A / 2 ^ 24 + 1 / 2 ^ 150)
    (h2 : |to_rat (num q) - e2| ≤ B / 2 ^ 24 + 1 / 2 ^ 150)
    (hA : |e1| ≤ A) (hB : |e2| ≤ B) (hAB : A + B ≤ 2 ^ 100) :
    ∃ r : Int, (num p + num q : binary32) = num r ∧
      |to_rat (num r) - (e1 + e2)| ≤ (A + B) / 2 ^ 22 + 4 / 2 ^ 150 := by
  have hA0 : 0 ≤ A := le_trans (abs_nonneg _) hA
  have hB0 : 0 ≤ B := le_trans (abs_nonneg _) hB
  have hS : |to_rat (num p) + to_rat (num q)|
      ≤ (A + B) * (1 + 1 / 2 ^ 24) + 2 / 2 ^ 150 := by
    have t1 := abs_add (to_rat (num p)) (to_rat (num q))
    have t2 := abs_sub_abs_le_abs_sub (to_rat (num p)) e1
    have t3 := abs_sub_abs_le_abs_sub (to_rat (num q)) e2
    linarith
  have hS2 : (A + B) * (1 + 1 / 2 ^ 24) + 2 / 2 ^ 150 ≤ 2 ^ 126 := by
    have : (2 : ℚ) ^ 100 * (1 + 1 / 2 ^ 24) + 2 / 2 ^ 150 ≤ 2 ^ 126 := by norm_num
    have := mul_le_mul_of_nonneg_right hAB (show (0 : ℚ) ≤ 1 + 1 / 2 ^ 24 by norm_num)
    linarith
  obtain ⟨r, hr, er, _, _⟩ := b32v_add p q (le_trans hS hS2)
  refine ⟨r, hr, ?_⟩
  have er2 := b32v_err_le _ _ _ er hS
  have tri : |to_rat (num r) - (e1 + e2)|
      ≤ |to_rat (num r) - (to_rat (num p) + to_rat (num q))|
        + (|to_rat (num p) - e1| + |to_rat (num q) - e2|) := by
    have e : to_rat (num r) - (e1 + e2)
        = (to_rat (num r) - (to_rat (num p) + to_rat (num q)))
          + ((to_rat (num p) - e1) + (to_rat (num q) - e2)) := by ring
    rw [e]
    exact le_trans (abs_add _ _) (add_le_add le_rfl (abs_add _ _))
  have c1 : ((A + B) * (1 + 1 / 2 ^ 24) + 2 / 2 ^ 150) / 2 ^ 24 + 1 / 2 ^ 150
      + (A / 2 ^ 24 + 1 / 2 ^ 150 + (B / 2 ^ 24 + 1 / 2 ^ 150))
      ≤ (A + B) / 2 ^ 22 + 4 / 2 ^ 150 := by
    have e : (A + B) / 2 ^ 22 + 4 / 2 ^ 150
        - (((A + B) * (1 + 1 / 2 ^ 24) + 2 / 2 ^ 150) / 2 ^ 24 + 1 / 2 ^ 150
          + (A / 2 ^ 24 + 1 / 2 ^ 150 + (B / 2 ^ 24 + 1 / 2 ^ 150)))
        = (A + B) * (1 / 2 ^ 22 - (1 + 1 / 2 ^ 24) / 2 ^ 24 - 1 / 2 ^ 24)
          + (1 / 2 ^ 150 - 2 / 2 ^ 150 / 2 ^ 24) := by ring
    have p1 : (0 : ℚ) ≤ 1 / 2 ^ 22 - (1 + 1 / 2 ^ 24) / 2 ^ 24 - 1 / 2 ^ 24 := by norm_num
    have p2 : (0 : ℚ) ≤ 1 / 2 ^ 150 - 2 / 2 ^ 150 / 2 ^ 24 := by norm_num
    have p3 := mul_nonneg (add_nonneg hA0 hB0) p1
    linarith
  linarith

/-- The rounded product of two finite values, with a bound `A` on the exact product. -/
theorem b32v_mul_le (x y : Int) (A : ℚ) (hA : |to_rat (num x) * to_rat (num y)| ≤ A)
    (hA2 : A ≤ 2 ^ 126) :
    ∃ r : Int, (num x * num y : binary32) = num r ∧
      |to_rat (num r) - to_rat (num x) * to_rat (num y)| ≤ A / 2 ^ 24 + 1 / 2 ^ 150 := by
  obtain ⟨r, hr, er, _, _⟩ := b32v_mul x y (le_trans hA hA2)
  exact ⟨r, hr, b32v_err_le _ _ _ er hA⟩

/-- A finite value approximates itself. -/
theorem b32v_self (q : Int) (B : ℚ) (hB : |to_rat (num q)| ≤ B) :
    |to_rat (num q) - to_rat (num q)| ≤ B / 2 ^ 24 + 1 / 2 ^ 150 := by
  rw [sub_self, abs_zero]
  have : 0 ≤ B := le_trans (abs_nonneg _) hB
  positivity

/-- The rounded `a * b + c * d` (two rounded products, one rounded sum). -/
theorem b32v_dot2 (a b c d : Int) (A B : ℚ)
    (hA : |to_rat (num a) * to_rat (num b)| ≤ A) (hB : |to_rat (num c) * to_rat (num d)| ≤ B)
    (hAB : A + B ≤ 2 ^ 100) :
    ∃ r : Int, (num a * num b + num c * num d : binary32) = num r ∧
      |to_rat (num r) - (to_rat (num a) * to_rat (num b) + to_rat (num c) * to_rat (num d))|
        ≤ (A + B) / 2 ^ 22 + 4 / 2 ^ 150 := by
  have hA0 : 0 ≤ A := le_trans (abs_nonneg _) hA
  have hB0 : 0 ≤ B := le_trans (abs_nonneg _) hB
  have c1 : (2 : ℚ) ^ 100 ≤ 2 ^ 126 := by norm_num
  obtain ⟨p, hp, ep⟩ := b32v_mul_le a b A hA (by linarith)
  obtain ⟨q, hq, eq⟩ := b32v_mul_le c d B hB (by linarith)
  rw [hp, hq]
  exact b32v_add_approx p q _ _ A B ep eq hA hB hAB

/-- The rounded `a * b + c` (one rounded product, one rounded sum). -/
theorem b32v_mul_add (a b c : Int) (A B : ℚ)
    (hA : |to_rat (num a) * to_rat (num b)| ≤ A) (hB : |to_rat (num c)| ≤ B)
    (hAB : A + B ≤ 2 ^ 100) :
    ∃ r : Int, (num a * num b + num c : binary32) = num r ∧
      |to_rat (num r) - (to_rat (num a) * to_rat (num b) + to_rat (num c))|
        ≤ (A + B) / 2 ^ 22 + 4 / 2 ^ 150 := by
  have hA0 : 0 ≤ A := le_trans (abs_nonneg _) hA
  have hB0 : 0 ≤ B := le_trans (abs_nonneg _) hB
  have c1 : (2 : ℚ) ^ 100 ≤ 2 ^ 126 := by norm_num
  obtain ⟨p, hp, ep⟩ := b32v_mul_le a b A hA (by linarith)
  rw [hp]
  exact b32v_add_approx p c _ _ A B ep (b32v_self c B hB) hA hB hAB

/-- The rounded `a * b - c` (one rounded product, one rounded difference). -/
theorem b32v_mul_sub (a b c : Int) (A B : ℚ)
    (hA : |to_rat (num a) * to_rat (num b)| ≤ A) (hB : |to_rat (num c)| ≤ B)
    (hAB : A + B ≤ 2 ^ 100) :
    ∃ r : Int, (num a * num b - num c : binary32) = num r ∧
      |to_rat (num r) - (to_rat (num a) * to_rat (num b) - to_rat (num c))|
        ≤ (A + B) / 2 ^ 22 + 4 / 2 ^ 150 := by
  have hA0 : 0 ≤ A := le_trans (abs_nonneg _) hA
  have hB0 : 0 ≤ B := le_trans (abs_nonneg _) hB
  have c1 : (2 : ℚ) ^ 100 ≤ 2 ^ 126 := by norm_num
  obtain ⟨p, hp, ep⟩ := b32v_mul_le a b A hA (by linarith)
  rw [hp]
  have en : to_rat (num (-c)) = -to_rat (num c) := by
    simp only [to_rat]
    rw [Int.cast_neg, neg_div]
  have hB2 : |to_rat (num (-c))| ≤ B := by
    rw [en, abs_neg]
    exact hB
  have e : (num p - num c : binary32) = num p + num (-c) := rfl
  rw [e]
  obtain ⟨r, hr, er⟩ := b32v_add_approx p (-c) _ _ A B ep (b32v_self (-c) B hB2) hA hB2 hAB
  refine ⟨r, hr, ?_⟩
  rw [en] at er
  have e2 : to_rat (num a) * to_rat (num b) - to_rat (num c)
      = to_rat (num a) * to_rat (num b) + -to_rat (num c) := by ring
  rw [e2]
  exact er

end RayRounding

section RayLength32

open binary32

/-- The rounded square of a finite value of magnitude at most `2^40`: not negative, and
within a factor `1 +- 2^-24` (and `2^-150`) of the exact square. -/
theorem b32v_sq (a : Int) (ha : |to_rat (num a)| ≤ 2 ^ 40) :
    ∃ q : Int, (num a * num a : binary32) = num q ∧ 0 ≤ to_rat (num q) ∧
      to_rat (num a) * to_rat (num a) * (1 - 1 / 2 ^ 24) - 1 / 2 ^ 150 ≤ to_rat (num q) ∧
      to_rat (num q) ≤ to_rat (num a) * to_rat (num a) * (1 + 1 / 2 ^ 24) + 1 / 2 ^ 150 ∧
      to_rat (num a) * to_rat (num a) ≤ 2 ^ 80 := by
  have h0 : 0 ≤ to_rat (num a) * to_rat (num a) := mul_self_nonneg _
  have h1 : to_rat (num a) * to_rat (num a) ≤ 2 ^ 80 := by
    have := mul_le_mul ha ha (abs_nonneg _) (by positivity)
    rw [abs_mul_abs_self] at this
    have e : (2 : ℚ) ^ 40 * 2 ^ 40 = 2 ^ 80 := by norm_num
    linarith
  obtain ⟨q, hq, eq, pq, _⟩ := b32v_mul a a (by
    rw [abs_of_nonneg h0]
    exact le_trans h1 (by norm_num))
  rw [abs_of_nonneg h0] at eq
  obtain ⟨e1, e2⟩ := abs_le.mp eq
  exact ⟨q, hq, pq h0, by linarith, by linarith, h1⟩

/-- The rounded sum of two finite values that are not negative and at most `2^90`. -/
theorem b32v_add_nonneg (p q : Int) (hp : 0 ≤ to_rat (num p)) (hq : 0 ≤ to_rat (num q))
    (hp2 : to_rat (num p) ≤ 2 ^ 90) (hq2 : to_rat (num q) ≤ 2 ^ 90) :
    ∃ r : Int, (num p + num q : binary32) = num r ∧ 0 ≤ to_rat (num r) ∧
      (to_rat (num p) + to_rat (num q)) * (1 - 1 / 2 ^ 24) - 1 / 2 ^ 150 ≤ to_rat (num r) ∧
      to_rat (num r) ≤ (to_rat (num p) + to_rat (num q)) * (1 + 1 / 2 ^ 24) + 1 / 2 ^ 150 := by
  have h0 : 0 ≤ to_rat (num p) + to_rat (num q) := add_nonneg hp hq
  obtain ⟨r, hr, er, pr, _⟩ := b32v_add p q (by
    rw [abs_of_nonneg h0]
    have : (2 : ℚ) ^ 90 + 2 ^ 90 ≤ 2 ^ 126 := by norm_num
    linarith)
  rw [abs_of_nonneg h0] at er
  obtain ⟨e1, e2⟩ := abs_le.mp er
  exact ⟨r, hr, pr h0, by linarith, by linarith⟩

/-- The computed squared length of a finite vector with components of magnitude at most
`2^40`: within a factor `1 +- 2^-22` (and `2^-140`) of the exact squared length. -/
theorem b32v_length_sq (a b c : Int) (ha : |to_rat (num a)| ≤ 2 ^ 40)
    (hb : |to_rat (num b)| ≤ 2 ^ 40) (hc : |to_rat (num c)| ≤ 2 ^ 40) :
    ∃ l : Int, vec3f_length_sq (⟨num a, num b, num c⟩ : vec3f binary32) = num l ∧
      0 ≤ to_rat (num l) ∧
      (to_rat (num a) * to_rat (num a) + to_rat (num b) * to_rat (num b)
        + to_rat (num c) * to_rat (num c)) * (1 - 1 / 2 ^ 22) - 1 / 2 ^ 140 ≤ to_rat (num l) ∧
      to_rat (num l) ≤ (to_rat (num a) * to_rat (num a) + to_rat (num b) * to_rat (num b)
        + to_rat (num c) * to_rat (num c)) * (1 + 1 / 2 ^ 22) + 1 / 2 ^ 140 := by
  obtain ⟨q1, e1, p1, l1, u1, b1⟩ := b32v_sq a ha
  obtain ⟨q2, e2, p2, l2, u2, b2⟩ := b32v_sq b hb
  obtain ⟨q3, e3, p3, l3, u3, b3⟩ := b32v_sq c hc
  have A0 : 0 ≤ to_rat (num a) * to_rat (num a) := mul_self_nonneg _
  have B0 : 0 ≤ to_rat (num b) * to_rat (num b) := mul_self_nonneg _
  have C0 : 0 ≤ to_rat (num c) * to_rat (num c) := mul_self_nonneg _
  generalize to_rat (num a) * to_rat (num a) = A at *
  generalize to_rat (num b) * to_rat (num b) = B at *
  generalize to_rat (num c) * to_rat (num c) = C at *
  have k : (2 : ℚ) ^ 80 * (1 + 1 / 2 ^ 24) + 1 / 2 ^ 150 ≤ 2 ^ 81 := by norm_num
  have g1 : to_rat (num q1) ≤ 2 ^ 81 := by
    have := mul_le_mul_of_nonneg_right b1 (show (0 : ℚ) ≤ 1 + 1 / 2 ^ 24 by norm_num)
    linarith
  have g2 : to_rat (num q2) ≤ 2 ^ 81 := by
    have := mul_le_mul_of_nonneg_right b2 (show (0 : ℚ) ≤ 1 + 1 / 2 ^ 24 by norm_num)
    linarith
  have g3 : to_rat (num q3) ≤ 2 ^ 81 := by
    have := mul_le_mul_of_nonneg_right b3 (show (0 : ℚ) ≤ 1 + 1 / 2 ^ 24 by norm_num)
    linarith
  have k2 : (2 : ℚ) ^ 81 ≤ 2 ^ 90 := by norm_num
  obtain ⟨s1, e4, p4, l4, u4⟩ := b32v_add_nonneg q1 q2 p1 p2 (by linarith) (by linarith)
  have g4 : to_rat (num s1) ≤ 2 ^ 90 := by
    have k3 : ((2 : ℚ) ^ 81 + 2 ^ 81) * (1 + 1 / 2 ^ 24) + 1 / 2 ^ 150 ≤ 2 ^ 90 := by norm_num
    have := mul_le_mul_of_nonneg_right (add_le_add g1 g2)
      (show (0 : ℚ) ≤ 1 + 1 / 2 ^ 24 by norm_num)
    linarith
  obtain ⟨l, e5, p5, l5, u5⟩ := b32v_add_nonneg s1 q3 p4 p3 g4 (by linarith)
  refine ⟨l, ?_, p5, ?_, ?_⟩
  · unfold vec3f_length_sq
    dsimp only
    rw [e1, e2, e3, e4, e5]
  · have c1 : (1 : ℚ) - 1 / 2 ^ 22 ≤ (1 - 1 / 2 ^ 24) * (1 - 1 / 2 ^ 24) * (1 - 1 / 2 ^ 24) := by
      norm_num
    have c2 : (1 : ℚ) - 1 / 2 ^ 22 ≤ (1 - 1 / 2 ^ 24) * (1 - 1 / 2 ^ 24) := by norm_num
    have m1 := mul_le_mul_of_nonneg_right l1
      (show (0 : ℚ) ≤ (1 - 1 / 2 ^ 24) * (1 - 1 / 2 ^ 24) by norm_num)
    have m2 := mul_le_mul_of_nonneg_right l2
      (show (0 : ℚ) ≤ (1 - 1 / 2 ^ 24) * (1 - 1 / 2 ^ 24) by norm_num)
    have m3 := mul_le_mul_of_nonneg_right l3 (show (0 : ℚ) ≤ 1 - 1 / 2 ^ 24 by norm_num)
    have m4 := mul_le_mul_of_nonneg_right l4 (show (0 : ℚ) ≤ 1 - 1 / 2 ^ 24 by norm_num)
    have n1 := mul_le_mul_of_nonneg_left c1 A0
    have n2 := mul_le_mul_of_nonneg_left c1 B0
    have n3 := mul_le_mul_of_nonneg_left c2 C0
    have t1 : (1 : ℚ) / 2 ^ 150 * ((1 - 1 / 2 ^ 24) * (1 - 1 / 2 ^ 24)) ≤ 1 / 2 ^ 150 := by
      norm_num
    have t2 : (1 : ℚ) / 2 ^ 150 * (1 - 1 / 2 ^ 24) ≤ 1 / 2 ^ 150 := by norm_num
    have t3 : (5 : ℚ) * (1 / 2 ^ 150) ≤ 1 / 2 ^ 140 := by norm_num
    linarith
  · have c1 : ((1 : ℚ) + 1 / 2 ^ 24) * (1 + 1 / 2 ^ 24) * (1 + 1 / 2 ^ 24) ≤ 1 + 1 / 2 ^ 22 := by
      norm_num
    have c2 : ((1 : ℚ) + 1 / 2 ^ 24) * (1 + 1 / 2 ^ 24) ≤ 1 + 1 / 2 ^ 22 := by norm_num
    have m1 := mul_le_mul_of_nonneg_right u1
      (show (0 : ℚ) ≤ (1 + 1 / 2 ^ 24) * (1 + 1 / 2 ^ 24) by norm_num)
    have m2 := mul_le_mul_of_nonneg_right u2
      (show (0 : ℚ) ≤ (1 + 1 / 2 ^ 24) * (1 + 1 / 2 ^ 24) by norm_num)
    have m3 := mul_le_mul_of_nonneg_right u3 (show (0 : ℚ) ≤ 1 + 1 / 2 ^ 24 by norm_num)
    have m4 := mul_le_mul_of_nonneg_right u4 (show (0 : ℚ) ≤ 1 + 1 / 2 ^ 24 by norm_num)
    have n1 := mul_le_mul_of_nonneg_left c1 A0
    have n2 := mul_le_mul_of_nonneg_left c1 B0
    have n3 := mul_le_mul_of_nonneg_left c2 C0
    have t1 : (1 : ℚ) / 2 ^ 150 * ((1 + 1 / 2 ^ 24) * (1 + 1 / 2 ^ 24)) ≤ 2 / 2 ^ 150 := by
      norm_num
    have t2 : (1 : ℚ) / 2 ^ 150 * (1 + 1 / 2 ^ 24) ≤ 2 / 2 ^ 150 := by norm_num
    have t3 : (8 : ℚ) * (1 / 2 ^ 150) ≤ 1 / 2 ^ 140 := by norm_num
    linarith

end RayLength32

section RayVector32

open binary32

theorem b32_neg_of_num (a : Int) : (-(num a) : binary32) = num (-a) := rfl

theorem b32v_neg (a : Int) : to_rat (num (-a)) = -to_rat (num a) := by
  simp only [to_rat]
  rw [Int.cast_neg, neg_div]

/-- In binary32, with cosines and sines of magnitude at most `1` whose squared sums are at
least `1 - 2^-20`, the un-normalised ray vector of every pixel of an image is finite, and
its exact squared length is at least `1 - 2^-15`. -/
theorem b32v_pixel_ray_vec [Trig binary32] (width height : Int) (cam_yaw cam_pitch : binary32)
    (py px cy sy cp sp : Int)
    (hw2 : width < 2 ^ 31) (hh2 : height < 2 ^ 31)
    (hpx0 : 0 ≤ px) (hpx : px < width) (hpy0 : 0 ≤ py) (hpy : py < height)
    (hcy : Trig.cosf cam_yaw = num cy) (hsy : Trig.sinf cam_yaw = num sy)
    (hcp : Trig.cosf cam_pitch = num cp) (hsp : Trig.sinf cam_pitch = num sp)
    (bcy : |to_rat (num cy)| ≤ 1) (bsy : |to_rat (num sy)| ≤ 1)
    (bcp : |to_rat (num cp)| ≤ 1) (bsp : |to_rat (num sp)| ≤ 1)
    (hY : 1 - 1 / 2 ^ 20 ≤ to_rat (num cy) * to_rat (num cy) + to_rat (num sy) * to_rat (num sy))
    (hP : 1 - 1 / 2 ^ 20 ≤ to_rat (num cp) * to_rat (num cp) + to_rat (num sp) * to_rat (num sp)) :
    ∃ X Y Z : Int,
      pixel_ray_vec width height cam_yaw cam_pitch py px = ⟨num X, num Y, num Z⟩ ∧
      |to_rat (num X)| ≤ 2 ^ 36 ∧ |to_rat (num Y)| ≤ 2 ^ 36 ∧ |to_rat (num Z)| ≤ 2 ^ 36 ∧
      1 - 1 / 2 ^ 15 ≤ to_rat (num X) * to_rat (num X) + to_rat (num Y) * to_rat (num Y)
        + to_rat (num Z) * to_rat (num Z) := by
  obtain ⟨v, hv, bv⟩ := b32v_row_v height py hpy0 hpy hh2
  obtain ⟨u, hu, bu⟩ := b32v_col_u width height px hpx0 hpx hw2 (by omega) hh2
  have bv2 : |to_rat (num v)| ≤ 2 := le_trans bv (by norm_num)
  -- the pitch rotation
  have pA : ∀ c : Int, |to_rat (num c)| ≤ 1 → |to_rat (num v) * to_rat (num c)| ≤ 2 := by
    intro c hc
    rw [abs_mul]
    have := mul_le_mul bv2 hc (abs_nonneg _) (by norm_num)
    linarith
  have k3 : ((2 : ℚ) + 1) / 2 ^ 22 + 4 / 2 ^ 150 ≤ 1 / 2 ^ 20 := by norm_num
  obtain ⟨ry, hry, ery⟩ := b32v_mul_add v cp sp 2 1 (pA cp bcp) bsp (by norm_num)
  obtain ⟨rz, hrz, erz⟩ := b32v_mul_sub v sp cp 2 1 (pA sp bsp) bcp (by norm_num)
  have ery2 := le_trans ery k3
  have erz2 := le_trans erz k3
  have brz : |to_rat (num rz)| ≤ 4 := by
    have b1 : |to_rat (num v) * to_rat (num sp) - to_rat (num cp)| ≤ 3 := by
      have := abs_sub (to_rat (num v) * to_rat (num sp)) (to_rat (num cp))
      linarith [pA sp bsp]
    have := abs_sub_abs_le_abs_sub (to_rat (num rz))
      (to_rat (num v) * to_rat (num sp) - to_rat (num cp))
    linarith [show (1 : ℚ) / 2 ^ 20 ≤ 1 by norm_num]
  have bry : |to_rat (num ry)| ≤ 4 := by
    have b1 : |to_rat (num v) * to_rat (num cp) + to_rat (num sp)| ≤ 3 := by
      have := abs_add (to_rat (num v) * to_rat (num cp)) (to_rat (num sp))
      linarith [pA cp bcp]
    have := abs_sub_abs_le_abs_sub (to_rat (num ry))
      (to_rat (num v) * to_rat (num cp) + to_rat (num sp))
    linarith [show (1 : ℚ) / 2 ^ 20 ≤ 1 by norm_num]
  -- the yaw rotation
  have yA : ∀ a c : Int, |to_rat (num c)| ≤ 1 →
      |to_rat (num a) * to_rat (num c)| ≤ |to_rat (num a)| := by
    intro a c hc
    rw [abs_mul]
    exact mul_le_of_le_one_right (abs_nonneg _) hc
  have hM : |to_rat (num u)| + |to_rat (num rz)| ≤ 2 ^ 100 := by
    have : (2 : ℚ) ^ 34 + 4 ≤ 2 ^ 100 := by norm_num
    linarith
  obtain ⟨X, hX, eX⟩ := b32v_dot2 u cy rz sy _ _ (yA u cy bcy) (yA rz sy bsy) hM
  have hM2 : |to_rat (num (-u))| + |to_rat (num rz)| ≤ 2 ^ 100 := by
    rw [b32v_neg, abs_neg]
    exact hM
  obtain ⟨Z, hZ, eZ⟩ := b32v_dot2 (-u) sy rz cy _ _ (yA (-u) sy bsy) (yA rz cy bcy) hM2
  rw [b32v_neg, abs_neg] at eZ
  have bXZ : ∀ (W e : ℚ), |e| ≤ |to_rat (num u)| + |to_rat (num rz)| →
      |W - e| ≤ (|to_rat (num u)| + |to_rat (num rz)|) / 2 ^ 22 + 4 / 2 ^ 150 →
      |W| ≤ 2 ^ 36 := by
    intro W e h1 h2
    have := abs_sub_abs_le_abs_sub W e
    have h3 : (|to_rat (num u)| + |to_rat (num rz)|) / 2 ^ 22 ≤ (2 ^ 34 + 4) / 2 ^ 22 :=
      div_le_div_of_nonneg_right (by linarith) (by positivity)
    have h4 : (2 : ℚ) ^ 34 + 4 + ((2 ^ 34 + 4) / 2 ^ 22 + 4 / 2 ^ 150) ≤ 2 ^ 36 := by norm_num
    linarith
  have bX := bXZ _ _ (abs_rot_le _ _ _ _ bcy bsy) eX
  have bZ := bXZ _ _ (by
    have := abs_rot_le (-to_rat (num u)) (to_rat (num rz)) _ _ bsy bcy
    rwa [abs_neg] at this) eZ
  refine ⟨X, ry, Z, ?_, bX, le_trans bry (by norm_num), bZ, ?_⟩
  · unfold pixel_ray_vec
    dsimp only
    rw [hv, hu, hcy, hsy, hcp, hsp, hry, hrz, b32_neg_of_num, hX, hZ]
    rfl
  · exact ray_sq_lower (to_rat (num u)) (to_rat (num v)) (to_rat (num cp)) (to_rat (num sp))
      (to_rat (num cy)) (to_rat (num sy)) (to_rat (num ry)) (to_rat (num rz)) (to_rat (num X))
      (to_rat (num Z)) (4 / 2 ^ 150) bv2 bu bcp bsp bcy bsy hP hY (by norm_num) ery2 erz2 eX eZ

end RayVector32

section SqrtValue

open binary32

/-- A value `vs` within the rounding error of `e > 0`, whose square is within `2^-100` of
`vn >= 1/4`, has a square within `2^-22` of `vn`, and is at least `1/4`. -/
theorem sqrt_round_core (vn e vs : ℚ) (hn : 1 / 4 ≤ vn) (he0 : 0 < e)
    (hev : |e * e - vn| ≤ vn / 2 ^ 100) (hs : |vs - e| ≤ e / 2 ^ 24 + 1 / 2 ^ 150) :
    |vs * vs - vn| ≤ vn / 2 ^ 22 ∧ 1 / 4 ≤ vs := by
  obtain ⟨v1, v2⟩ := abs_le.mp hev
  obtain ⟨s1, s2⟩ := abs_le.mp hs
  have e1 : 1 / 4 ≤ e := by
    by_contra hc
    have hc2 : e < 1 / 4 := not_le.mp hc
    have : e * e < 1 / 4 * (1 / 4) := mul_lt_mul'' hc2 hc2 he0.le he0.le
    have k : vn / 2 ^ 100 ≤ vn / 2 := by
      apply div_le_div_of_nonneg_left (by linarith) (by norm_num) (by norm_num)
    linarith
  have t1 : (1 : ℚ) / 2 ^ 150 ≤ e / 2 ^ 148 := by
    rw [le_div_iff₀ (by positivity)]
    have : (1 : ℚ) / 2 ^ 150 * 2 ^ 148 = 1 / 4 := by norm_num
    linarith
  have lo : e * (1 - 1 / 2 ^ 24 - 1 / 2 ^ 148) ≤ vs := by
    have : e * (1 - 1 / 2 ^ 24 - 1 / 2 ^ 148) = e - e / 2 ^ 24 - e / 2 ^ 148 := by ring
    linarith
  have hi : vs ≤ e * (1 + 1 / 2 ^ 24 + 1 / 2 ^ 148) := by
    have : e * (1 + 1 / 2 ^ 24 + 1 / 2 ^ 148) = e + e / 2 ^ 24 + e / 2 ^ 148 := by ring
    linarith
  have lo0 : 0 ≤ e * (1 - 1 / 2 ^ 24 - 1 / 2 ^ 148) := mul_nonneg he0.le (by norm_num)
  have vs0 : 0 ≤ vs := le_trans lo0 lo
  have q1 := mul_self_le_mul_self lo0 lo
  have q2 := mul_self_le_mul_self vs0 hi
  have r1 : e * (1 - 1 / 2 ^ 24 - 1 / 2 ^ 148) * (e * (1 - 1 / 2 ^ 24 - 1 / 2 ^ 148))
      = e * e * ((1 - 1 / 2 ^ 24 - 1 / 2 ^ 148) * (1 - 1 / 2 ^ 24 - 1 / 2 ^ 148)) := by ring
  have r2 : e * (1 + 1 / 2 ^ 24 + 1 / 2 ^ 148) * (e * (1 + 1 / 2 ^ 24 + 1 / 2 ^ 148))
      = e * e * ((1 + 1 / 2 ^ 24 + 1 / 2 ^ 148) * (1 + 1 / 2 ^ 24 + 1 / 2 ^ 148)) := by ring
  rw [r1] at q1
  rw [r2] at q2
  have c1 : (1 : ℚ) - 1 / 2 ^ 23 - 1 / 2 ^ 100
      ≤ (1 - 1 / 2 ^ 24 - 1 / 2 ^ 148) * (1 - 1 / 2 ^ 24 - 1 / 2 ^ 148) := by norm_num
  have c2 : ((1 : ℚ) + 1 / 2 ^ 24 + 1 / 2 ^ 148) * (1 + 1 / 2 ^ 24 + 1 / 2 ^ 148)
      ≤ 1 + 1 / 2 ^ 23 + 1 / 2 ^ 40 := by norm_num
  have ee0 : 0 ≤ e * e := mul_self_nonneg e
  have q3 := mul_le_mul_of_nonneg_left c1 ee0
  have q4 := mul_le_mul_of_nonneg_left c2 ee0
  have w1 : vn * (1 - 1 / 2 ^ 100) ≤ e * e := by
    have : vn * (1 - 1 / 2 ^ 100) = vn - vn / 2 ^ 100 := by ring
    linarith
  have w2 : e * e ≤ vn * (1 + 1 / 2 ^ 100) := by
    have : vn * (1 + 1 / 2 ^ 100) = vn + vn / 2 ^ 100 := by ring
    linarith
  have w3 := mul_le_mul_of_nonneg_right w1
    (show (0 : ℚ) ≤ 1 - 1 / 2 ^ 23 - 1 / 2 ^ 100 by norm_num)
  have w4 := mul_le_mul_of_nonneg_right w2
    (show (0 : ℚ) ≤ 1 + 1 / 2 ^ 23 + 1 / 2 ^ 40 by norm_num)
  have d1 : (1 : ℚ) - 1 / 2 ^ 22 ≤ (1 - 1 / 2 ^ 100) * (1 - 1 / 2 ^ 23 - 1 / 2 ^ 100) := by
    norm_num
  have d2 : ((1 : ℚ) + 1 / 2 ^ 100) * (1 + 1 / 2 ^ 23 + 1 / 2 ^ 40) ≤ 1 + 1 / 2 ^ 22 := by
    norm_num
  have vn0 : 0 ≤ vn := by linarith
  have w5 := mul_le_mul_of_nonneg_left d1 vn0
  have w6 := mul_le_mul_of_nonneg_left d2 vn0
  refine ⟨?_, ?_⟩
  · rw [abs_le]
    have x1 : vn * (1 - 1 / 2 ^ 22) = vn - vn / 2 ^ 22 := by ring
    have x2 : vn * (1 + 1 / 2 ^ 22) = vn + vn / 2 ^ 22 := by ring
    constructor <;> linarith
  · by_contra hc
    have hc2 : vs < 1 / 4 := not_le.mp hc
    have : vs * vs < 1 / 4 * (1 / 4) := mul_lt_mul'' hc2 hc2 vs0 vs0
    linarith

/-- The integer square root in rational terms: with `R = isqrt m` and `m >= U^2 / 4`, the
value `R` or `R + 1/2` from which `sqrt` rounds has a square within `R` of `m`, and
`R * 2^100 <= m`, `R <= 2^40 * U` when `m <= 2^80 * U^2`. -/
theorem isqrt_rat (m : Nat) (hm : m < 2 ^ 428) (U : ℚ) (hU : 2 ^ 102 ≤ U)
    (h1 : U * U / 4 ≤ (m : ℚ)) (h2 : (m : ℚ) ≤ 2 ^ 80 * (U * U)) :
    |((2 * isqrt m + (if isqrt m * isqrt m = m then 0 else 1) : Nat) : ℚ) / 2
        * (((2 * isqrt m + (if isqrt m * isqrt m = m then 0 else 1) : Nat) : ℚ) / 2) - (m : ℚ)|
      ≤ (m : ℚ) / 2 ^ 100 ∧
    0 < ((2 * isqrt m + (if isqrt m * isqrt m = m then 0 else 1) : Nat) : ℚ) / 2 ∧
    ((2 * isqrt m + (if isqrt m * isqrt m = m then 0 else 1) : Nat) : ℚ) / 2 ≤ 2 ^ 41 * U := by
  obtain ⟨s1, s2⟩ := isqrt_spec m hm
  generalize isqrt m = r at s1 s2 ⊢
  have q1 : (r : ℚ) * r ≤ (m : ℚ) := by exact_mod_cast s1
  have q2 : (m : ℚ) < ((r : ℚ) + 1) * ((r : ℚ) + 1) := by exact_mod_cast s2
  have r0 : (0 : ℚ) ≤ (r : ℚ) := Nat.cast_nonneg r
  have U0 : (0 : ℚ) < U := lt_of_lt_of_le (by norm_num) hU
  have rU : U / 2 ≤ (r : ℚ) + 1 := by
    by_contra hc
    have hc2 : (r : ℚ) + 1 < U / 2 := not_le.mp hc
    have := mul_self_le_mul_self (by linarith) hc2.le
    have e : U / 2 * (U / 2) = U * U / 4 := by ring
    linarith
  have r100 : (2 : ℚ) ^ 100 ≤ (r : ℚ) := by
    have : (2 : ℚ) ^ 100 + 1 ≤ 2 ^ 102 / 2 := by norm_num
    linarith
  have rm : (r : ℚ) * 2 ^ 100 ≤ (m : ℚ) := by
    have := mul_le_mul_of_nonneg_left r100 r0
    linarith
  have rU2 : (r : ℚ) ≤ 2 ^ 40 * U := by
    by_contra hc
    have hc2 : 2 ^ 40 * U < (r : ℚ) := not_le.mp hc
    have := mul_self_le_mul_self (by positivity) hc2.le
    have e : (2 : ℚ) ^ 40 * U * (2 ^ 40 * U) = 2 ^ 80 * (U * U) := by ring
    have := mul_lt_mul'' hc2 hc2 (by positivity) (by positivity)
    linarith
  have rd : (r : ℚ) ≤ (m : ℚ) / 2 ^ 100 := by
    rw [le_div_iff₀ (by positivity)]
    exact rm
  by_cases hsq : r * r = m
  · rw [if_pos hsq]
    have e : ((2 * r + 0 : Nat) : ℚ) / 2 = (r : ℚ) := by
      push_cast
      ring
    rw [e]
    have hq : (r : ℚ) * r = (m : ℚ) := by exact_mod_cast hsq
    refine ⟨?_, by linarith [show (0:ℚ) < 2 ^ 100 by positivity], ?_⟩
    · rw [hq, sub_self, abs_zero]
      exact div_nonneg (Nat.cast_nonneg m) (by positivity)
    · have : (2 : ℚ) ^ 40 * U ≤ 2 ^ 41 * U := by
        apply mul_le_mul_of_nonneg_right (by norm_num) U0.le
      linarith
  · rw [if_neg hsq]
    have e : ((2 * r + 1 : Nat) : ℚ) / 2 = (r : ℚ) + 1 / 2 := by
      push_cast
      ring
    rw [e]
    have n1 : r * r + 1 ≤ m := by
      have : r * r < m := lt_of_le_of_ne s1 hsq
      omega
    have n2 : m + 1 ≤ (r + 1) * (r + 1) := s2
    have q3 : (r : ℚ) * r + 1 ≤ (m : ℚ) := by exact_mod_cast n1
    have q4 : (m : ℚ) + 1 ≤ ((r : ℚ) + 1) * ((r : ℚ) + 1) := by exact_mod_cast n2
    refine ⟨?_, by linarith, ?_⟩
    · rw [abs_le]
      have x : ((r : ℚ) + 1 / 2) * ((r : ℚ) + 1 / 2) = (r : ℚ) * r + r + 1 / 4 := by ring
      have y : ((r : ℚ) + 1) * ((r : ℚ) + 1) = (r : ℚ) * r + 2 * r + 1 := by ring
      constructor <;> linarith
    · have : (2 : ℚ) ^ 40 * U + 1 / 2 ≤ 2 ^ 41 * U := by
        have e1 : (2 : ℚ) ^ 41 * U = 2 ^ 40 * U + 2 ^ 40 * U := by ring
        have e2 : (1 : ℚ) / 2 ≤ 2 ^ 40 * U := by
          have : (1 : ℚ) ≤ 2 ^ 40 * 2 ^ 102 := by norm_num
          have := mul_le_mul_of_nonneg_left hU (show (0 : ℚ) ≤ 2 ^ 40 by positivity)
          linarith
        linarith
      linarith

/-- The square root of a finite value between `1/4` and `2^80`: a finite value, at least
`1/4`, whose square is within a factor `1 +- 2^-22` of the argument. -/
theorem b32v_sqrt (n : Int) (h1 : 1 / 4 ≤ to_rat (num n)) (h2 : to_rat (num n) ≤ 2 ^ 80) :
    ∃ s : Int, sqrt (num n) = num s ∧ s ≠ 0 ∧ 1 / 4 ≤ to_rat (num s) ∧
      |to_rat (num s) * to_rat (num s) - to_rat (num n)| ≤ to_rat (num n) / 2 ^ 22 := by
  have hU : (0 : ℚ) < 2 ^ 149 := by positivity
  have hv : to_rat (num n) = (n : ℚ) / 2 ^ 149 := rfl
  have n0 : 0 ≤ n := by
    by_contra hc
    have : (n : ℚ) < 0 := by exact_mod_cast not_le.mp hc
    have := div_neg_of_neg_of_pos this hU
    rw [hv] at h1
    linarith
  have nq : ((n.toNat : Nat) : ℚ) = (n : ℚ) := by
    have : ((n.toNat : Nat) : Int) = n := Int.toNat_of_nonneg n0
    exact_mod_cast congrArg (fun z : Int => (z : ℚ)) this
  rw [b32_sqrt_num n n0]
  have mq : ((n.toNat * 2 ^ 149 : Nat) : ℚ) = (n : ℚ) * 2 ^ 149 := by
    rw [Nat.cast_mul, nq, Nat.cast_pow, Nat.cast_ofNat]
  have m1 : (2 : ℚ) ^ 149 * 2 ^ 149 / 4 ≤ ((n.toNat * 2 ^ 149 : Nat) : ℚ) := by
    rw [mq]
    rw [hv, le_div_iff₀ hU] at h1
    have := mul_le_mul_of_nonneg_right h1 hU.le
    linarith
  have m2 : ((n.toNat * 2 ^ 149 : Nat) : ℚ) ≤ 2 ^ 80 * ((2 : ℚ) ^ 149 * 2 ^ 149) := by
    rw [mq]
    rw [hv, div_le_iff₀ hU] at h2
    have := mul_le_mul_of_nonneg_right h2 hU.le
    linarith
  have m3 : n.toNat * 2 ^ 149 < 2 ^ 428 := by
    have h : ((n.toNat * 2 ^ 149 : Nat) : ℚ) < ((2 ^ 428 : Nat) : ℚ) := by
      rw [Nat.cast_pow, Nat.cast_ofNat]
      have e : (2 : ℚ) ^ 428 = 2 ^ 130 * (2 ^ 149 * 2 ^ 149) := by
        rw [← pow_add, ← pow_add]
      rw [e]
      have : (2 : ℚ) ^ 80 * (2 ^ 149 * 2 ^ 149) < 2 ^ 130 * (2 ^ 149 * 2 ^ 149) := by
        apply mul_lt_mul_of_pos_right (by norm_num) (by positivity)
      linarith
    exact Nat.cast_lt.mp h
  obtain ⟨a1, a2, a3⟩ := isqrt_rat (n.toNat * 2 ^ 149) m3 (2 ^ 149) (by norm_num) m1 m2
  generalize (2 * isqrt (n.toNat * 2 ^ 149)
    + (if isqrt (n.toNat * 2 ^ 149) * isqrt (n.toNat * 2 ^ 149) = n.toNat * 2 ^ 149
        then 0 else 1) : Nat) = E2 at a1 a2 a3 ⊢
  rw [mq] at a1
  have he : (E2 : ℚ) / 2 / 2 ^ 149 = (((E2 : Nat) : Int) : ℚ) / ((2 : Nat) : ℚ) / 2 ^ 149 := by
    rw [Int.cast_natCast, Nat.cast_ofNat]
  have e0 : 0 < (E2 : ℚ) / 2 / 2 ^ 149 := div_pos a2 hU
  have hB : |(E2 : ℚ) / 2 / 2 ^ 149| ≤ 2 ^ 126 := by
    rw [abs_of_pos e0, div_le_iff₀ hU]
    have : (2 : ℚ) ^ 41 * 2 ^ 149 ≤ 2 ^ 126 * 2 ^ 149 := by
      apply mul_le_mul_of_nonneg_right (by norm_num) hU.le
    linarith
  obtain ⟨s, hs, es, _, _⟩ := b32v_round (E2 : Int) 2 (by norm_num) _ he hB
  rw [abs_of_pos e0] at es
  have hev : |(E2 : ℚ) / 2 / 2 ^ 149 * ((E2 : ℚ) / 2 / 2 ^ 149) - to_rat (num n)|
      ≤ to_rat (num n) / 2 ^ 100 := by
    rw [hv]
    have x : (E2 : ℚ) / 2 / 2 ^ 149 * ((E2 : ℚ) / 2 / 2 ^ 149) - (n : ℚ) / 2 ^ 149
        = ((E2 : ℚ) / 2 * ((E2 : ℚ) / 2) - (n : ℚ) * 2 ^ 149) / (2 ^ 149 * 2 ^ 149) := by
      field_simp
      ring
    have y : (n : ℚ) / 2 ^ 149 / 2 ^ 100 = (n : ℚ) * 2 ^ 149 / 2 ^ 100 / (2 ^ 149 * 2 ^ 149) := by
      field_simp
      ring
    rw [x, y, abs_div, abs_of_pos (show (0 : ℚ) < 2 ^ 149 * 2 ^ 149 by positivity)]
    exact div_le_div_of_nonneg_right a1 (by positivity)
  obtain ⟨c1, c2⟩ := sqrt_round_core _ _ _ h1 e0 hev es
  refine ⟨s, hs, ?_, c2, c1⟩
  apply b32v_ne_zero
  linarith

end SqrtValue

section NormalizeValue

open binary32

/-- A square changes by at most `2 * M * E + E^2` upwards when its base of magnitude at
most `M` moves by at most `E`. -/
theorem sq_upper_of_close (x y M E : ℚ) (h1 : |x - y| ≤ E) (h2 : |y| ≤ M) :
    x * x ≤ y * y + 2 * M * E + E * E := by
  obtain ⟨a1, a2⟩ := abs_le.mp h1
  obtain ⟨b1, b2⟩ := abs_le.mp h2
  nlinarith [mul_nonneg (sub_nonneg.mpr b2) (show 0 ≤ E + (x - y) by linarith),
    mul_nonneg (show 0 ≤ M + y by linarith) (sub_nonneg.mpr a2),
    mul_nonneg (sub_nonneg.mpr a2) (show 0 ≤ E + (x - y) by linarith)]

/-- A number whose square is at most `4` has magnitude at most `2`. -/
theorem abs_le_two_of_sq (a : ℚ) (h : a * a ≤ 4) : |a| ≤ 2 := by
  rw [abs_le]
  constructor
  · by_contra hc
    have hc2 : a < -2 := not_le.mp hc
    nlinarith
  · by_contra hc
    have hc2 : 2 < a := not_le.mp hc
    nlinarith

/-- The reciprocal `1.0f / s` of a finite value between `1/4` and `2^50`. -/
theorem b32v_recip (s : Int) (hs : s ≠ 0) (h1 : 1 / 4 ≤ to_rat (num s))
    (h2 : to_rat (num s) ≤ 2 ^ 50) :
    ∃ i : Int, (1.0 : binary32) / num s = num i ∧
      |to_rat (num i) * to_rat (num s) - 1| ≤ 1 / 2 ^ 23 := by
  have s0 : 0 < to_rat (num s) := by linarith
  have hia : 0 < 1 / to_rat (num s) := by positivity
  have hia2 : 1 / to_rat (num s) ≤ 4 := by
    rw [div_le_iff₀ s0]
    linarith
  rw [b32_one_def]
  have hB : |to_rat (num (2 ^ 149)) / to_rat (num s)| ≤ 2 ^ 126 := by
    rw [b32v_one, abs_of_pos hia]
    exact le_trans hia2 (by norm_num)
  obtain ⟨i, hi, ei, _, _⟩ := b32v_div (2 ^ 149) s hs hB
  rw [b32v_one, abs_of_pos hia] at ei
  refine ⟨i, hi, ?_⟩
  have e : to_rat (num i) * to_rat (num s) - 1
      = (to_rat (num i) - 1 / to_rat (num s)) * to_rat (num s) := by
    field_simp
  rw [e, abs_mul, abs_of_pos s0]
  have k1 := mul_le_mul_of_nonneg_right ei s0.le
  have k2 : (1 / to_rat (num s) / 2 ^ 24 + 1 / 2 ^ 150) * to_rat (num s)
      = 1 / 2 ^ 24 + to_rat (num s) / 2 ^ 150 := by
    field_simp
    ring
  rw [k2] at k1
  have k3 : to_rat (num s) / 2 ^ 150 ≤ 2 ^ 50 / 2 ^ 150 :=
    div_le_div_of_nonneg_right h2 (by positivity)
  have k4 : (1 : ℚ) / 2 ^ 24 + 2 ^ 50 / 2 ^ 150 ≤ 1 / 2 ^ 23 := by norm_num
  linarith

/-- The squared length of a normalised vector, from the rounding errors of the squared
length `l`, of its root `s`, of the reciprocal `i` and of the three products. -/
theorem normalize_sq_close (X Y Z S l s i dx dy dz : ℚ) (hS : S = X * X + Y * Y + Z * Z)
    (hS1 : 1 / 2 ≤ S)
    (hl : S * (1 - 1 / 2 ^ 22) - 1 / 2 ^ 140 ≤ l) (hl2 : l ≤ S * (1 + 1 / 2 ^ 22) + 1 / 2 ^ 140)
    (hs : |s * s - l| ≤ l / 2 ^ 22) (hi : |i * s - 1| ≤ 1 / 2 ^ 23)
    (hx : |dx - X * i| ≤ |X * i| / 2 ^ 24 + 1 / 2 ^ 150)
    (hy : |dy - Y * i| ≤ |Y * i| / 2 ^ 24 + 1 / 2 ^ 150)
    (hz : |dz - Z * i| ≤ |Z * i| / 2 ^ 24 + 1 / 2 ^ 150) :
    |dx * dx + dy * dy + dz * dz - 1| ≤ 4 / 10 ^ 6 ∧ |dx| ≤ 3 ∧ |dy| ≤ 3 ∧ |dz| ≤ 3 := by
  obtain ⟨s1, s2⟩ := abs_le.mp hs
  obtain ⟨i1, i2⟩ := abs_le.mp hi
  have S0 : 0 < S := by linarith
  have t0 : (1 : ℚ) / 2 ^ 140 ≤ S * (1 / 2 ^ 139) := by
    have := mul_le_mul_of_nonneg_right hS1 (show (0 : ℚ) ≤ 1 / 2 ^ 139 by positivity)
    have e : (1 : ℚ) / 2 * (1 / 2 ^ 139) = 1 / 2 ^ 140 := by norm_num
    linarith
  -- the square of the root
  have ss1 : S * (1 - 1 / 2 ^ 20) ≤ s * s := by
    have a := mul_le_mul_of_nonneg_right hl (show (0 : ℚ) ≤ 1 - 1 / 2 ^ 22 by norm_num)
    have b : l * (1 - 1 / 2 ^ 22) = l - l / 2 ^ 22 := by ring
    have c : (1 : ℚ) - 1 / 2 ^ 20 ≤ (1 - 1 / 2 ^ 22 - 1 / 2 ^ 139) * (1 - 1 / 2 ^ 22) := by
      norm_num
    have d := mul_le_mul_of_nonneg_left c S0.le
    have e : (S * (1 - 1 / 2 ^ 22) - S * (1 / 2 ^ 139)) * (1 - 1 / 2 ^ 22)
        = S * ((1 - 1 / 2 ^ 22 - 1 / 2 ^ 139) * (1 - 1 / 2 ^ 22)) := by ring
    have f := mul_le_mul_of_nonneg_right t0 (show (0 : ℚ) ≤ 1 - 1 / 2 ^ 22 by norm_num)
    linarith
  have ss2 : s * s ≤ S * (1 + 1 / 2 ^ 20) := by
    have a := mul_le_mul_of_nonneg_right hl2 (show (0 : ℚ) ≤ 1 + 1 / 2 ^ 22 by norm_num)
    have b : l * (1 + 1 / 2 ^ 22) = l + l / 2 ^ 22 := by ring
    have c : ((1 : ℚ) + 1 / 2 ^ 22 + 1 / 2 ^ 139) * (1 + 1 / 2 ^ 22) ≤ 1 + 1 / 2 ^ 20 := by
      norm_num
    have d := mul_le_mul_of_nonneg_left c S0.le
    have e : (S * (1 + 1 / 2 ^ 22) + S * (1 / 2 ^ 139)) * (1 + 1 / 2 ^ 22)
        = S * ((1 + 1 / 2 ^ 22 + 1 / 2 ^ 139) * (1 + 1 / 2 ^ 22)) := by ring
    have f := mul_le_mul_of_nonneg_right t0 (show (0 : ℚ) ≤ 1 + 1 / 2 ^ 22 by norm_num)
    linarith
  -- the square of `i * s`
  have w1 : (1 - 1 / 2 ^ 23) * (1 - 1 / 2 ^ 23) ≤ i * s * (i * s) :=
    mul_self_le_mul_self (by norm_num) (by linarith)
  have w2 : i * s * (i * s) ≤ (1 + 1 / 2 ^ 23) * (1 + 1 / 2 ^ 23) :=
    mul_self_le_mul_self (by linarith [show (0 : ℚ) ≤ 1 - 1 / 2 ^ 23 by norm_num])
      (by linarith)
  -- the exact squared length of the scaled vector
  have hQ : (X * i * (X * i) + Y * i * (Y * i) + Z * i * (Z * i)) * (s * s)
      = i * s * (i * s) * S := by
    rw [hS]
    ring
  have Q0 : 0 ≤ X * i * (X * i) + Y * i * (Y * i) + Z * i * (Z * i) :=
    add_nonneg (add_nonneg (mul_self_nonneg _) (mul_self_nonneg _)) (mul_self_nonneg _)
  have eA : ∀ (d W : ℚ), W * i * (W * i) ≤ 4 → |d - W * i| ≤ |W * i| / 2 ^ 24 + 1 / 2 ^ 150 →
      W * i * (W * i) - (1 / 2 ^ 21 + 1 / 2 ^ 40) ≤ d * d ∧
        d * d ≤ W * i * (W * i) + (1 / 2 ^ 21 + 1 / 2 ^ 40) ∧
        |d| ≤ 3 := by
    intro d W h4 hd
    have b := abs_le_two_of_sq _ h4
    have hE : |d - W * i| ≤ 2 / 2 ^ 24 + 1 / 2 ^ 150 := by
      have : |W * i| / 2 ^ 24 ≤ 2 / 2 ^ 24 := div_le_div_of_nonneg_right b (by positivity)
      linarith
    have lo := sq_lower_of_close d (W * i) 2 _ hE b
    have hi2 := sq_upper_of_close d (W * i) 2 _ hE b
    have c1 : (2 : ℚ) * 2 * (2 / 2 ^ 24 + 1 / 2 ^ 150)
        + (2 / 2 ^ 24 + 1 / 2 ^ 150) * (2 / 2 ^ 24 + 1 / 2 ^ 150) ≤ 1 / 2 ^ 21 + 1 / 2 ^ 40 := by
      norm_num
    have c2 : (0 : ℚ) ≤ (2 / 2 ^ 24 + 1 / 2 ^ 150) * (2 / 2 ^ 24 + 1 / 2 ^ 150) := by positivity
    refine ⟨by linarith, by linarith, ?_⟩
    have := abs_sub_abs_le_abs_sub d (W * i)
    have c3 : (2 : ℚ) / 2 ^ 24 + 1 / 2 ^ 150 ≤ 1 := by norm_num
    linarith
  have a0 := mul_self_nonneg (X * i)
  have b0 := mul_self_nonneg (Y * i)
  have c0 := mul_self_nonneg (Z * i)
  have hQu : X * i * (X * i) + Y * i * (Y * i) + Z * i * (Z * i) ≤ 1 + 1 / 2 ^ 19 := by
    have h := mul_le_mul_of_nonneg_left ss1 Q0
    rw [hQ] at h
    have h2 := mul_le_mul_of_nonneg_right w2 S0.le
    have h3 : (X * i * (X * i) + Y * i * (Y * i) + Z * i * (Z * i)) * (1 - 1 / 2 ^ 20) * S
        ≤ (1 + 1 / 2 ^ 23) * (1 + 1 / 2 ^ 23) * S := by
      have e : (X * i * (X * i) + Y * i * (Y * i) + Z * i * (Z * i)) * (1 - 1 / 2 ^ 20) * S
          = (X * i * (X * i) + Y * i * (Y * i) + Z * i * (Z * i)) * (S * (1 - 1 / 2 ^ 20)) := by
        ring
      rw [e]
      exact le_trans h h2
    have h4 := le_of_mul_le_mul_right h3 S0
    have c : ((1 : ℚ) + 1 / 2 ^ 23) * (1 + 1 / 2 ^ 23)
        ≤ (1 + 1 / 2 ^ 19) * (1 - 1 / 2 ^ 20) := by norm_num
    have h5 : (X * i * (X * i) + Y * i * (Y * i) + Z * i * (Z * i)) * (1 - 1 / 2 ^ 20)
        ≤ (1 + 1 / 2 ^ 19) * (1 - 1 / 2 ^ 20) := le_trans h4 c
    exact le_of_mul_le_mul_right h5 (by norm_num)
  have hQl : 1 - 1 / 2 ^ 19 ≤ X * i * (X * i) + Y * i * (Y * i) + Z * i * (Z * i) := by
    have h := mul_le_mul_of_nonneg_left ss2 Q0
    rw [hQ] at h
    have h2 := mul_le_mul_of_nonneg_right w1 S0.le
    have h3 : (1 - 1 / 2 ^ 23) * (1 - 1 / 2 ^ 23) * S
        ≤ (X * i * (X * i) + Y * i * (Y * i) + Z * i * (Z * i)) * (1 + 1 / 2 ^ 20) * S := by
      have e : (X * i * (X * i) + Y * i * (Y * i) + Z * i * (Z * i)) * (1 + 1 / 2 ^ 20) * S
          = (X * i * (X * i) + Y * i * (Y * i) + Z * i * (Z * i)) * (S * (1 + 1 / 2 ^ 20)) := by
        ring
      rw [e]
      exact le_trans h2 h
    have h4 := le_of_mul_le_mul_right h3 S0
    have c : ((1 : ℚ) - 1 / 2 ^ 19) * (1 + 1 / 2 ^ 20)
        ≤ (1 - 1 / 2 ^ 23) * (1 - 1 / 2 ^ 23) := by norm_num
    have h5 : (1 - 1 / 2 ^ 19) * (1 + 1 / 2 ^ 20)
        ≤ (X * i * (X * i) + Y * i * (Y * i) + Z * i * (Z * i)) * (1 + 1 / 2 ^ 20) :=
      le_trans c h4
    exact le_of_mul_le_mul_right h5 (by norm_num)
  have k19 : (1 : ℚ) + 1 / 2 ^ 19 ≤ 4 := by norm_num
  obtain ⟨x1, x2, x3⟩ := eA dx X (by linarith) hx
  obtain ⟨y1, y2, y3⟩ := eA dy Y (by linarith) hy
  obtain ⟨z1, z2, z3⟩ := eA dz Z (by linarith) hz
  refine ⟨?_, x3, y3, z3⟩
  rw [abs_le]
  have c : (3 : ℚ) * (1 / 2 ^ 21 + 1 / 2 ^ 40) + 1 / 2 ^ 19 ≤ 4 / 10 ^ 6 := by norm_num
  constructor <;> linarith

end NormalizeValue

section RayClaim32a

open binary32

set_option maxRecDepth 100000

theorem b32_tiny_def : (1e-12 : binary32) = num (0x1197998 * 2 ^ 85) := by decide!

/-- A finite value of at least `1/4` is above the constant `1e-12f`. -/
theorem b32v_gt_tiny (l : Int) (h : 1 / 4 ≤ to_rat (num l)) : (num l : binary32) > 1e-12 := by
  rw [b32_tiny_def, b32_gt_def]
  simp only [lt, decide_eq_true_eq]
  have hU : (0 : ℚ) < 2 ^ 149 := by positivity
  have h1 : (2 : ℚ) ^ 149 / 4 ≤ (l : ℚ) := by
    have hv : to_rat (num l) = (l : ℚ) / 2 ^ 149 := rfl
    rw [hv, le_div_iff₀ hU] at h
    linarith
  have h2 : ((0x1197998 * 2 ^ 85 : Int) : ℚ) < (l : ℚ) := by
    have : ((0x1197998 * 2 ^ 85 : Int) : ℚ) < 2 ^ 149 / 4 := by norm_num
    exact lt_of_lt_of_le this h1
  exact_mod_cast h2

/-- In binary32 the normalised copy of a finite vector with components of magnitude at
most `2^36` and exact squared length at least `1/2` is the vector times
`1 / sqrtf(len_sq)`, and its computed squared length is within `10^-5` of `1`. -/
theorem b32v_normalize (X Y Z : Int) (bX : |to_rat (num X)| ≤ 2 ^ 36)
    (bY : |to_rat (num Y)| ≤ 2 ^ 36) (bZ : |to_rat (num Z)| ≤ 2 ^ 36)
    (hS : 1 / 2 ≤ to_rat (num X) * to_rat (num X) + to_rat (num Y) * to_rat (num Y)
      + to_rat (num Z) * to_rat (num Z)) :
    vec3f_length_sq (⟨num X, num Y, num Z⟩ : vec3f binary32) > 1e-12 ∧
    vec3f_normalize (⟨num X, num Y, num Z⟩ : vec3f binary32)
      = vec3f_make
          (num X * (1.0 / Sqrtf.sqrtf (vec3f_length_sq (⟨num X, num Y, num Z⟩ : vec3f binary32))))
          (num Y * (1.0 / Sqrtf.sqrtf (vec3f_length_sq (⟨num X, num Y, num Z⟩ : vec3f binary32))))
          (num Z * (1.0 / Sqrtf.sqrtf (vec3f_length_sq (⟨num X, num Y, num Z⟩ : vec3f binary32))))
      ∧
    ∃ d : Int, vec3f_length_sq (vec3f_normalize (⟨num X, num Y, num Z⟩ : vec3f binary32)) = num d ∧
      |to_rat (num d) - 1| ≤ 1 / 10 ^ 5 := by
  have k40 : (2 : ℚ) ^ 36 ≤ 2 ^ 40 := by norm_num
  obtain ⟨l, hl, l0, l1, l2⟩ := b32v_length_sq X Y Z (le_trans bX k40) (le_trans bY k40)
    (le_trans bZ k40)
  have sqb : ∀ W : Int, |to_rat (num W)| ≤ 2 ^ 36 → to_rat (num W) * to_rat (num W) ≤ 2 ^ 72 := by
    intro W hW
    have := mul_le_mul hW hW (abs_nonneg _) (by positivity)
    rw [abs_mul_abs_self] at this
    have e : (2 : ℚ) ^ 36 * 2 ^ 36 = 2 ^ 72 := by norm_num
    linarith
  have sX := sqb X bX
  have sY := sqb Y bY
  have sZ := sqb Z bZ
  generalize hSd : to_rat (num X) * to_rat (num X) + to_rat (num Y) * to_rat (num Y)
      + to_rat (num Z) * to_rat (num Z) = S at hS l1 l2
  have S2 : S ≤ 3 * 2 ^ 72 := by linarith
  have lq : 1 / 4 ≤ to_rat (num l) := by
    have := mul_le_mul_of_nonneg_right hS (show (0 : ℚ) ≤ 1 - 1 / 2 ^ 22 by norm_num)
    have e : (1 : ℚ) / 2 * (1 - 1 / 2 ^ 22) - 1 / 2 ^ 140 ≥ 1 / 4 := by norm_num
    linarith
  have lu : to_rat (num l) ≤ 2 ^ 75 := by
    have := mul_le_mul_of_nonneg_right S2 (show (0 : ℚ) ≤ 1 + 1 / 2 ^ 22 by norm_num)
    have e : (3 : ℚ) * 2 ^ 72 * (1 + 1 / 2 ^ 22) + 1 / 2 ^ 140 ≤ 2 ^ 75 := by norm_num
    linarith
  have hgt : vec3f_length_sq (⟨num X, num Y, num Z⟩ : vec3f binary32) > 1e-12 := by
    rw [hl]
    exact b32v_gt_tiny l lq
  obtain ⟨s, hs, s0, s1, s2⟩ := b32v_sqrt l lq (le_trans lu (by norm_num))
  have su : to_rat (num s) ≤ 2 ^ 50 := by
    by_contra hc
    have hc2 : 2 ^ 50 < to_rat (num s) := not_le.mp hc
    have := mul_lt_mul'' hc2 hc2 (by positivity) (by positivity)
    obtain ⟨_, s3⟩ := abs_le.mp s2
    have e : to_rat (num l) / 2 ^ 22 ≤ to_rat (num l) := by
      apply div_le_self l0
      norm_num
    have e2 : (2 : ℚ) ^ 50 * 2 ^ 50 ≥ 2 ^ 75 + 2 ^ 75 := by norm_num
    linarith
  obtain ⟨i, hi, i1⟩ := b32v_recip s s0 s1 su
  have ib : |to_rat (num i)| ≤ 8 := by
    obtain ⟨a1, a2⟩ := abs_le.mp i1
    have sp : 0 < to_rat (num s) := by linarith
    rw [abs_le]
    constructor
    · by_contra hc
      have hc2 : to_rat (num i) < -8 := not_le.mp hc
      have := mul_lt_mul_of_pos_right hc2 sp
      nlinarith
    · by_contra hc
      have hc2 : 8 < to_rat (num i) := not_le.mp hc
      have := mul_lt_mul_of_pos_right hc2 sp
      nlinarith
  have pb : ∀ W : Int, |to_rat (num W)| ≤ 2 ^ 36 →
      |to_rat (num W) * to_rat (num i)| ≤ 2 ^ 126 := by
    intro W hW
    rw [abs_mul]
    have := mul_le_mul hW ib (abs_nonneg _) (by positivity)
    have e : (2 : ℚ) ^ 36 * 8 ≤ 2 ^ 126 := by norm_num
    linarith
  obtain ⟨dx, hdx, edx, _, _⟩ := b32v_mul X i (pb X bX)
  obtain ⟨dy, hdy, edy, _, _⟩ := b32v_mul Y i (pb Y bY)
  obtain ⟨dz, hdz, edz, _, _⟩ := b32v_mul Z i (pb Z bZ)
  obtain ⟨c1, c2, c3, c4⟩ := normalize_sq_close (to_rat (num X)) (to_rat (num Y))
    (to_rat (num Z)) S (to_rat (num l)) (to_rat (num s)) (to_rat (num i)) (to_rat (num dx))
    (to_rat (num dy)) (to_rat (num dz)) hSd.symm hS l1 l2 s2 i1 edx edy edz
  have k3 : (3 : ℚ) ≤ 2 ^ 40 := by norm_num
  obtain ⟨d, hd, d0, d1, d2⟩ := b32v_length_sq dx dy dz (le_trans c2 k3) (le_trans c3 k3)
    (le_trans c4 k3)
  have hn : vec3f_normalize (⟨num X, num Y, num Z⟩ : vec3f binary32)
      = vec3f_make
          (num X * (1.0 / Sqrtf.sqrtf (vec3f_length_sq (⟨num X, num Y, num Z⟩ : vec3f binary32))))
          (num Y * (1.0 / Sqrtf.sqrtf (vec3f_length_sq (⟨num X, num Y, num Z⟩ : vec3f binary32))))
          (num Z * (1.0 / Sqrtf.sqrtf (vec3f_length_sq (⟨num X, num Y, num Z⟩ : vec3f binary32)))) := by
    simp only [vec3f_normalize, if_pos hgt]
  refine ⟨hgt, hn, d, ?_, ?_⟩
  · rw [hn, hl, b32_sqrtf_def, hs, hi, hdx, hdy, hdz]
    exact hd
  · obtain ⟨a1, a2⟩ := abs_le.mp c1
    generalize to_rat (num dx) * to_rat (num dx) + to_rat (num dy) * to_rat (num dy)
      + to_rat (num dz) * to_rat (num dz) = D at a1 a2 d1 d2
    have D1 : 1 - 4 / 10 ^ 6 ≤ D := by linarith
    have D2 : D ≤ 1 + 4 / 10 ^ 6 := by linarith
    have m1 := mul_le_mul_of_nonneg_right D1 (show (0 : ℚ) ≤ 1 - 1 / 2 ^ 22 by norm_num)
    have m2 := mul_le_mul_of_nonneg_right D2 (show (0 : ℚ) ≤ 1 + 1 / 2 ^ 22 by norm_num)
    have n1 : ((1 : ℚ) - 4 / 10 ^ 6) * (1 - 1 / 2 ^ 22) - 1 / 2 ^ 140 ≥ 1 - 1 / 10 ^ 5 := by
      norm_num
    have n2 : ((1 : ℚ) + 4 / 10 ^ 6) * (1 + 1 / 2 ^ 22) + 1 / 2 ^ 140 ≤ 1 + 1 / 10 ^ 5 := by
      norm_num
    rw [abs_le]
    constructor <;> linarith

end RayClaim32a

section BoxClaim

open binary32

/-- C10 (amended). In binary32, for finite `p`, `c` and half-extents, `sdf_box` has the
sign of a signed distance outside a thin layer around the faces. It is negative when `p`
is inside by the margin on all three axes, `|p_i - c_i| * (1 + 2^-23) + 2^-149 <= half_i`
with `half_i <= 2^126`; it is zero when each axis is exactly on its face,
`|p_i - c_i| = half_i`, or inside by that margin, and one axis is on its face; it is
positive when `p` is outside by the margin on some axis,
`|p_i - c_i| * (1 - 2^-23) >= half_i + 2^-73 + 2^-149`. Everywhere, the layer included,
the sign is decided by the three excesses `absf(p_i - c_i) - half_i` as lines 102-104
compute them: `sdf_box` is negative exactly when all three are negative; it is zero when
none is positive and one is zero; it is not negative (and not a NaN) when one is positive;
it is positive when one is at least `2^-74`, so that its square does not underflow. -/
theorem sdf_box_sign_computed (px py pz cx cy cz hx hy hz : Int) :
    (sdf_box (⟨num px, num py, num pz⟩ : vec3f binary32) ⟨num cx, num cy, num cz⟩
        ⟨num hx, num hy, num hz⟩ < 0 ↔
      box_excess (num px) (num cx) (num hx) < 0 ∧ box_excess (num py) (num cy) (num hy) < 0 ∧
        box_excess (num pz) (num cz) (num hz) < 0) ∧
    (¬ 0 < box_excess (num px) (num cx) (num hx) → ¬ 0 < box_excess (num py) (num cy) (num hy) →
      ¬ 0 < box_excess (num pz) (num cz) (num hz) →
      (box_excess (num px) (num cx) (num hx) = 0 ∨ box_excess (num py) (num cy) (num hy) = 0 ∨
        box_excess (num pz) (num cz) (num hz) = 0) →
      sdf_box (⟨num px, num py, num pz⟩ : vec3f binary32) ⟨num cx, num cy, num cz⟩
        ⟨num hx, num hy, num hz⟩ = 0) ∧
    ((0 < box_excess (num px) (num cx) (num hx) ∨ 0 < box_excess (num py) (num cy) (num hy) ∨
        0 < box_excess (num pz) (num cz) (num hz)) →
      0 ≤ sdf_box (⟨num px, num py, num pz⟩ : vec3f binary32) ⟨num cx, num cy, num cz⟩
        ⟨num hx, num hy, num hz⟩) ∧
    ((num (2 ^ 75) ≤ box_excess (num px) (num cx) (num hx) ∨
        num (2 ^ 75) ≤ box_excess (num py) (num cy) (num hy) ∨
        num (2 ^ 75) ≤ box_excess (num pz) (num cz) (num hz)) →
      0 < sdf_box (⟨num px, num py, num pz⟩ : vec3f binary32) ⟨num cx, num cy, num cz⟩
        ⟨num hx, num hy, num hz⟩) ∧
    (inside_margin (num px) (num cx) (num hx) → inside_margin (num py) (num cy) (num hy) →
      inside_margin (num pz) (num cz) (num hz) →
      sdf_box (⟨num px, num py, num pz⟩ : vec3f binary32) ⟨num cx, num cy, num cz⟩
        ⟨num hx, num hy, num hz⟩ < 0) ∧
    ((on_face (num px) (num cx) (num hx) ∨ inside_margin (num px) (num cx) (num hx)) →
      (on_face (num py) (num cy) (num hy) ∨ inside_margin (num py) (num cy) (num hy)) →
      (on_face (num pz) (num cz) (num hz) ∨ inside_margin (num pz) (num cz) (num hz)) →
      (on_face (num px) (num cx) (num hx) ∨ on_face (num py) (num cy) (num hy) ∨
        on_face (num pz) (num cz) (num hz)) →
      sdf_box (⟨num px, num py, num pz⟩ : vec3f binary32) ⟨num cx, num cy, num cz⟩
        ⟨num hx, num hy, num hz⟩ = 0) ∧
    ((outside_margin (num px) (num cx) (num hx) ∨ outside_margin (num py) (num cy) (num hy) ∨
        outside_margin (num pz) (num cz) (num hz)) →
      0 < sdf_box (⟨num px, num py, num pz⟩ : vec3f binary32) ⟨num cx, num cy, num cz⟩
        ⟨num hx, num hy, num hz⟩) := by
  have key := b32_box_sign _ _ _ (b32_box_excess_ne_nan px cx hx)
    (b32_box_excess_ne_nan py cy hy) (b32_box_excess_ne_nan pz cz hz)
  rw [b32_sdf_box_eq]
  dsimp only
  refine ⟨key.1, key.2.1, key.2.2.1, key.2.2.2, ?_, ?_, ?_⟩
  · intro h1 h2 h3
    exact key.1.mpr ⟨b32_excess_neg_of_inside px cx hx h1, b32_excess_neg_of_inside py cy hy h2,
      b32_excess_neg_of_inside pz cz hz h3⟩
  · intro h1 h2 h3 h0
    refine key.2.1 (b32_excess_not_pos px cx hx h1) (b32_excess_not_pos py cy hy h2)
      (b32_excess_not_pos pz cz hz h3) ?_
    rcases h0 with e | e | e
    · exact Or.inl (b32_excess_zero_of_face px cx hx e)
    · exact Or.inr (Or.inl (b32_excess_zero_of_face py cy hy e))
    · exact Or.inr (Or.inr (b32_excess_zero_of_face pz cz hz e))
  · intro h
    apply key.2.2.2
    rcases h with e | e | e
    · exact Or.inl (b32_excess_pos_of_outside px cx hx e)
    · exact Or.inr (Or.inl (b32_excess_pos_of_outside py cy hy e))
    · exact Or.inr (Or.inr (b32_excess_pos_of_outside pz cz hz e))

end BoxClaim

section SphereClaim

open binary32

/-- C5 (amended). In binary32, every point whose distance to the unit sphere as the code
computes it, `sdf_sphere(p, (0,0,0), 1.0f) = sqrtf(len_sq) - 1.0f`, is negative has a
negative scene distance: neither the box, nor the blend, nor the ground raises it to
zero or above, or turns it into a NaN. This is the case of every binary32 point inside
the unit sphere by the margin `|p|^2 <= 1 - 2^-21`: its scene distance is negative. -/
theorem scene_sdf_neg_of_sphere_neg (p : vec3f binary32) :
    (sdf_sphere p (vec3f_make 0 0 0) 1.0 < (0 : binary32) → scene_sdf p < (0 : binary32)) ∧
    (is_float p.x = true → is_float p.y = true → is_float p.z = true →
      to_rat p.x * to_rat p.x + to_rat p.y * to_rat p.y + to_rat p.z * to_rat p.z
        ≤ 1 - 1 / 2 ^ 21 →
      scene_sdf p < (0 : binary32)) := by
  refine ⟨b32_scene_neg_of_sphere_neg p, ?_⟩
  intro fx fy fz h
  obtain ⟨x, y, z⟩ := p
  obtain ⟨a, ea, fa⟩ := b32_of_is_float x fx
  obtain ⟨b, eb, fb⟩ := b32_of_is_float y fy
  obtain ⟨c, ec, fc⟩ := b32_of_is_float z fz
  subst ea eb ec
  exact b32_scene_neg_of_sphere_neg _ (b32_sphere_neg_of_margin a b c fa fb fc h)

end SphereClaim

section SmoothMinZero

open binary32

/-- C12 (amended). The smooth minimum has no fallback for a zero blend radius: for `k = 0`
and all binary32 `a`, `b`, finite or not, line 116 evaluates the quotient `0 / 0` and the
function returns a NaN. -/
theorem sdf_smooth_min_zero_is_nan (a b : binary32) : sdf_smooth_min a b 0 = nan := by
  unfold sdf_smooth_min
  have h1 : maxf ((0 : binary32) - absf (a - b)) 0.0 = num 0 := by
    unfold maxf
    rw [if_neg (b32_zero_sub_absf_not_pos _), b32_scientific_zero]
  simp only [h1]
  have h2 : (num 0 : binary32) / 0 = nan := by decide!
  rw [h2]
  simp only [b32_mul_def, b32_sub_def, b32_nan_mul, neg, b32_add_nan]

/-- C12, counterexample. In binary32, `sdf_smooth_min(1, 2, 0)` is a NaN and not the
minimum `1`: the argument of `maxf` is `0 - 1 = -1`, the numerator is `0`, and `0 / 0`
is evaluated. -/
theorem sdf_smooth_min_zero_counterexample :
    sdf_smooth_min (1.0 : binary32) 2.0 0 = nan ∧
    sdf_smooth_min (1.0 : binary32) 2.0 0 ≠ minf (1.0 : binary32) 2.0 ∧
    maxf ((0 : binary32) - absf ((1.0 : binary32) - 2.0)) 0.0 = 0 ∧
    ((0 : binary32) / 0 = nan) := by
  decide!

end SmoothMinZero

section NormalizeClaim

open binary32

/-- C4 (amended). In binary32, `vec3f_normalize` returns `(0, 1, 0)` for the zero vector
and for every vector whose squared length, as `vec3f_length_sq` computes it (three rounded
products, two rounded sums), is not above the binary32 constant `1e-12f` (this includes a
NaN); this is the case of every binary32 vector whose exact squared length
`x*x + y*y + z*z` is at most `1e-12 * (1 - 1e-6)`. Whenever it divides, the computed
squared length is above `1e-12f` and the divisor `sqrtf(len_sq)` is positive, so it never
divides by zero. -/
theorem vec3f_normalize_fallback (v : vec3f binary32) :
    vec3f_normalize (vec3f_make 0 0 0 : vec3f binary32) = vec3f_make 0.0 1.0 0.0 ∧
    (¬ vec3f_length_sq v > 1e-12 → vec3f_normalize v = vec3f_make 0.0 1.0 0.0) ∧
    (is_float v.x = true → is_float v.y = true → is_float v.z = true →
      to_rat v.x * to_rat v.x + to_rat v.y * to_rat v.y + to_rat v.z * to_rat v.z
        ≤ (1 - 1 / 10 ^ 6) / 10 ^ 12 →
      vec3f_normalize v = vec3f_make 0.0 1.0 0.0) ∧
    (vec3f_length_sq v > 1e-12 →
      (0 : binary32) < Sqrtf.sqrtf (vec3f_length_sq v) ∧
      vec3f_normalize v
        = vec3f_make (v.x * (1.0 / Sqrtf.sqrtf (vec3f_length_sq v)))
            (v.y * (1.0 / Sqrtf.sqrtf (vec3f_length_sq v)))
            (v.z * (1.0 / Sqrtf.sqrtf (vec3f_length_sq v)))) := by
  refine ⟨?_, ?_, ?_, ?_⟩
  · have h : ¬ vec3f_length_sq (vec3f_make 0 0 0 : vec3f binary32) > 1e-12 := by decide!
    simp only [vec3f_normalize, if_neg h]
  · intro h
    simp only [vec3f_normalize, if_neg h]
  · intro fx fy fz h
    obtain ⟨x, y, z⟩ := v
    obtain ⟨a, ea, _⟩ := b32_of_is_float x fx
    obtain ⟨b, eb, _⟩ := b32_of_is_float y fy
    obtain ⟨c, ec, _⟩ := b32_of_is_float z fz
    subst ea eb ec
    have hs := b32_length_sq_short a b c h
    simp only [vec3f_normalize, if_neg hs]
  · intro h
    refine ⟨?_, ?_⟩
    · rw [b32_sqrtf_def]
      exact b32_sqrt_pos _ (b32_pos_of_lt 1e-12 _ (by decide!) h)
    · simp only [vec3f_normalize, if_pos h]

end NormalizeClaim

section ClaimInstances32

open binary32

set_option maxRecDepth 100000

/-- C4, witness. In binary32: the vector `(2^-24, 0, 0)` has exact and computed squared
length `2^-48`, below `1e-12 * (1 - 1e-6)` and not above `1e-12f`, and is sent to
`(0, 1, 0)`; the vector `(3, 0, 4)` has computed squared length `25`, and its divisor
`sqrtf(25) = 5` is positive. -/
theorem vec3f_normalize_fallback_witness :
    (¬ vec3f_length_sq (⟨num (2 ^ 125), 0, 0⟩ : vec3f binary32) > 1e-12 ∧
      vec3f_normalize (⟨num (2 ^ 125), 0, 0⟩ : vec3f binary32) = vec3f_make 0.0 1.0 0.0) ∧
    ((is_float (num (2 ^ 125)) = true ∧ is_float (num 0) = true ∧
      to_rat (num (2 ^ 125)) * to_rat (num (2 ^ 125)) + to_rat (num 0) * to_rat (num 0)
        + to_rat (num 0) * to_rat (num 0) ≤ (1 - 1 / 10 ^ 6) / 10 ^ 12) ∧
      vec3f_normalize (⟨num (2 ^ 125), num 0, num 0⟩ : vec3f binary32)
        = vec3f_make 0.0 1.0 0.0) ∧
    (vec3f_length_sq (⟨3, 0, 4⟩ : vec3f binary32) > 1e-12 ∧
      (0 : binary32) < Sqrtf.sqrtf (vec3f_length_sq (⟨3, 0, 4⟩ : vec3f binary32))) :=
  ⟨⟨by decide!, (vec3f_normalize_fallback ⟨num (2 ^ 125), 0, 0⟩).2.1 (by decide!)⟩,
    ⟨⟨by decide!, by decide!, by simp only [to_rat]; norm_num⟩,
      (vec3f_normalize_fallback ⟨num (2 ^ 125), num 0, num 0⟩).2.2.1 (by decide!)
        (by decide!) (by decide!) (by simp only [to_rat]; norm_num)⟩,
    ⟨by decide!, ((vec3f_normalize_fallback ⟨3, 0, 4⟩).2.2.2 (by decide!)).1⟩⟩

/-- C4, counterexample. The binary32 vector
`v = (0x1.77a8eep-23, 0x1.07d1eep-20, 0x1.fb8e7ep-25)` has exact squared length
`x*x + y*y + z*z` below `1e-12`, but the three rounded products and two rounded sums of
`vec3f_length_sq` give `0x1.19799ap-40`, one unit in the last place above the constant
`1e-12f = 0x1.197998p-40`; `vec3f_normalize` divides and returns
`(0x1.6641d6p-3, 0x1.f7326p-1, 0x1.e40b3p-5)`, not `(0, 1, 0)`. -/
theorem vec3f_normalize_fallback_counterexample :
    (is_float (num (0x177a8ee * 2 ^ 102)) = true ∧ is_float (num (0x107d1ee * 2 ^ 105)) = true ∧
      is_float (num (0x1fb8e7e * 2 ^ 100)) = true) ∧
    to_rat (num (0x177a8ee * 2 ^ 102)) * to_rat (num (0x177a8ee * 2 ^ 102))
      + to_rat (num (0x107d1ee * 2 ^ 105)) * to_rat (num (0x107d1ee * 2 ^ 105))
      + to_rat (num (0x1fb8e7e * 2 ^ 100)) * to_rat (num (0x1fb8e7e * 2 ^ 100))
      ≤ 1 / 10 ^ 12 ∧
    vec3f_length_sq (⟨num (0x177a8ee * 2 ^ 102), num (0x107d1ee * 2 ^ 105),
      num (0x1fb8e7e * 2 ^ 100)⟩ : vec3f binary32) = num (0x119799a * 2 ^ 85) ∧
    (1e-12 : binary32) = num (0x1197998 * 2 ^ 85) ∧
    (vec3f_normalize (⟨num (0x177a8ee * 2 ^ 102), num (0x107d1ee * 2 ^ 105),
      num (0x1fb8e7e * 2 ^ 100)⟩ : vec3f binary32)).x = num (0x16641d6 * 2 ^ 122) ∧
    (vec3f_normalize (⟨num (0x177a8ee * 2 ^ 102), num (0x107d1ee * 2 ^ 105),
      num (0x1fb8e7e * 2 ^ 100)⟩ : vec3f binary32)).y = num (0x1f73260 * 2 ^ 124) ∧
    (vec3f_normalize (⟨num (0x177a8ee * 2 ^ 102), num (0x107d1ee * 2 ^ 105),
      num (0x1fb8e7e * 2 ^ 100)⟩ : vec3f binary32)).z = num (0x1e40b30 * 2 ^ 120) ∧
    vec3f_normalize (⟨num (0x177a8ee * 2 ^ 102), num (0x107d1ee * 2 ^ 105),
      num (0x1fb8e7e * 2 ^ 100)⟩ : vec3f binary32) ≠ vec3f_make 0.0 1.0 0.0 := by
  refine ⟨by decide!, ?_, by decide!, by decide!, by decide!, by decide!, by decide!, ?_⟩
  · simp only [to_rat]
    norm_num
  · intro h
    exact absurd (congrArg vec3f.x h) (by decide!)

/-- C5, witness. In binary32 the centre of the sphere has computed sphere distance `-1`,
and the point `(1/2, 1/2, 1/2)` has `|p|^2 = 3/4 <= 1 - 2^-21`; both have a negative
scene distance. -/
theorem scene_sdf_neg_of_sphere_neg_witness :
    (sdf_sphere (⟨0, 0, 0⟩ : vec3f binary32) (vec3f_make 0 0 0) 1.0 < (0 : binary32) ∧
      scene_sdf (⟨0, 0, 0⟩ : vec3f binary32) < (0 : binary32)) ∧
    ((is_float (num (2 ^ 148)) = true ∧
      to_rat (num (2 ^ 148)) * to_rat (num (2 ^ 148))
        + to_rat (num (2 ^ 148)) * to_rat (num (2 ^ 148))
        + to_rat (num (2 ^ 148)) * to_rat (num (2 ^ 148)) ≤ 1 - 1 / 2 ^ 21) ∧
      scene_sdf (⟨num (2 ^ 148), num (2 ^ 148), num (2 ^ 148)⟩ : vec3f binary32)
        < (0 : binary32)) :=
  ⟨⟨by decide!, (scene_sdf_neg_of_sphere_neg ⟨0, 0, 0⟩).1 (by decide!)⟩,
    ⟨⟨by decide!, by simp only [to_rat]; norm_num⟩,
      (scene_sdf_neg_of_sphere_neg ⟨num (2 ^ 148), num (2 ^ 148), num (2 ^ 148)⟩).2
        (by decide!) (by decide!) (by decide!) (by simp only [to_rat]; norm_num)⟩⟩

/-- C5, counterexample. The binary32 point
`p = (0x1.084352p-1, 0x1.a3da88p-1, 0x1.fa7854p-3)` is strictly inside the unit sphere
(exact `|p|^2 < 1`), but its computed squared length rounds to `1`, its computed sphere
distance is `0`, and `scene_sdf(p)` is `0`, not negative. -/
theorem scene_sdf_neg_inside_sphere_counterexample :
    (is_float (num (0x1084352 * 2 ^ 124)) = true ∧ is_float (num (0x1a3da88 * 2 ^ 124)) = true ∧
      is_float (num (0x1fa7854 * 2 ^ 122)) = true) ∧
    to_rat (num (0x1084352 * 2 ^ 124)) * to_rat (num (0x1084352 * 2 ^ 124))
      + to_rat (num (0x1a3da88 * 2 ^ 124)) * to_rat (num (0x1a3da88 * 2 ^ 124))
      + to_rat (num (0x1fa7854 * 2 ^ 122)) * to_rat (num (0x1fa7854 * 2 ^ 122)) < 1 ∧
    vec3f_length_sq (⟨num (0x1084352 * 2 ^ 124), num (0x1a3da88 * 2 ^ 124),
      num (0x1fa7854 * 2 ^ 122)⟩ : vec3f binary32) = 1.0 ∧
    sdf_sphere (⟨num (0x1084352 * 2 ^ 124), num (0x1a3da88 * 2 ^ 124),
      num (0x1fa7854 * 2 ^ 122)⟩ : vec3f binary32) (vec3f_make 0 0 0) 1.0 = 0 ∧
    scene_sdf (⟨num (0x1084352 * 2 ^ 124), num (0x1a3da88 * 2 ^ 124),
      num (0x1fa7854 * 2 ^ 122)⟩ : vec3f binary32) = 0 ∧
    ¬ scene_sdf (⟨num (0x1084352 * 2 ^ 124), num (0x1a3da88 * 2 ^ 124),
      num (0x1fa7854 * 2 ^ 122)⟩ : vec3f binary32) < (0 : binary32) := by
  refine ⟨by decide!, ?_, by decide!, by decide!, by decide!, by decide!⟩
  simp only [to_rat]
  norm_num

/-- C10, witness. In binary32, box of centre `(2, 0, 0)` and half-extents `(1, 1, 1)`:
at the centre the three excesses are `-1`, the point is inside by the margin on the three
axes, and `sdf_box` is negative; at `(3, 0, 0)` the excesses are `(0, -1, -1)`, the point
is on the face along `x` and inside by the margin along `y` and `z`, and `sdf_box` is
zero; at the origin the excess along `x` is `1`, the point is outside by the margin along
`x`, and `sdf_box` is positive. -/
theorem sdf_box_sign_computed_witness :
    sdf_box (⟨num (2 ^ 150), num 0, num 0⟩ : vec3f binary32) ⟨num (2 ^ 150), num 0, num 0⟩
      ⟨num (2 ^ 149), num (2 ^ 149), num (2 ^ 149)⟩ < 0 ∧
    sdf_box (⟨num (3 * 2 ^ 149), num 0, num 0⟩ : vec3f binary32) ⟨num (2 ^ 150), num 0, num 0⟩
      ⟨num (2 ^ 149), num (2 ^ 149), num (2 ^ 149)⟩ = 0 ∧
    0 ≤ sdf_box (⟨num 0, num 0, num 0⟩ : vec3f binary32) ⟨num (2 ^ 150), num 0, num 0⟩
      ⟨num (2 ^ 149), num (2 ^ 149), num (2 ^ 149)⟩ ∧
    0 < sdf_box (⟨num 0, num 0, num 0⟩ : vec3f binary32) ⟨num (2 ^ 150), num 0, num 0⟩
      ⟨num (2 ^ 149), num (2 ^ 149), num (2 ^ 149)⟩ ∧
    ((inside_margin (num (2 ^ 150)) (num (2 ^ 150)) (num (2 ^ 149)) ∧
        inside_margin (num 0) (num 0) (num (2 ^ 149))) ∧
      sdf_box (⟨num (2 ^ 150), num 0, num 0⟩ : vec3f binary32) ⟨num (2 ^ 150), num 0, num 0⟩
        ⟨num (2 ^ 149), num (2 ^ 149), num (2 ^ 149)⟩ < 0) ∧
    (on_face (num (3 * 2 ^ 149)) (num (2 ^ 150)) (num (2 ^ 149)) ∧
      sdf_box (⟨num (3 * 2 ^ 149), num 0, num 0⟩ : vec3f binary32)
        ⟨num (2 ^ 150), num 0, num 0⟩ ⟨num (2 ^ 149), num (2 ^ 149), num (2 ^ 149)⟩ = 0) ∧
    (outside_margin (num 0) (num (2 ^ 150)) (num (2 ^ 149)) ∧
      0 < sdf_box (⟨num 0, num 0, num 0⟩ : vec3f binary32) ⟨num (2 ^ 150), num 0, num 0⟩
        ⟨num (2 ^ 149), num (2 ^ 149), num (2 ^ 149)⟩) :=
  have i1 : inside_margin (num (2 ^ 150)) (num (2 ^ 150)) (num (2 ^ 149)) := by
    constructor <;> simp only [to_rat] <;> norm_num
  have i2 : inside_margin (num 0) (num 0) (num (2 ^ 149)) := by
    constructor <;> simp only [to_rat] <;> norm_num
  have f1 : on_face (num (3 * 2 ^ 149)) (num (2 ^ 150)) (num (2 ^ 149)) := by
    refine ⟨by decide!, ?_⟩
    simp only [to_rat]
    norm_num [abs_of_pos]
  have o1 : outside_margin (num 0) (num (2 ^ 150)) (num (2 ^ 149)) := by
    unfold outside_margin
    simp only [to_rat]
    norm_num [abs_of_pos]
  ⟨(sdf_box_sign_computed (2 ^ 150) 0 0 (2 ^ 150) 0 0 (2 ^ 149) (2 ^ 149) (2 ^ 149)).1.mpr
      (by decide!),
    (sdf_box_sign_computed (3 * 2 ^ 149) 0 0 (2 ^ 150) 0 0 (2 ^ 149) (2 ^ 149)
      (2 ^ 149)).2.1 (by decide!) (by decide!) (by decide!) (by decide!),
    (sdf_box_sign_computed 0 0 0 (2 ^ 150) 0 0 (2 ^ 149) (2 ^ 149) (2 ^ 149)).2.2.1
      (by decide!),
    (sdf_box_sign_computed 0 0 0 (2 ^ 150) 0 0 (2 ^ 149) (2 ^ 149) (2 ^ 149)).2.2.2.1
      (by decide!),
    ⟨⟨i1, i2⟩,
      (sdf_box_sign_computed (2 ^ 150) 0 0 (2 ^ 150) 0 0 (2 ^ 149) (2 ^ 149)
        (2 ^ 149)).2.2.2.2.1 i1 i2 i2⟩,
    ⟨f1,
      (sdf_box_sign_computed (3 * 2 ^ 149) 0 0 (2 ^ 150) 0 0 (2 ^ 149) (2 ^ 149)
        (2 ^ 149)).2.2.2.2.2.1 (Or.inl f1) (Or.inr i2) (Or.inr i2) (Or.inl f1)⟩,
    ⟨o1,
      (sdf_box_sign_computed 0 0 0 (2 ^ 150) 0 0 (2 ^ 149) (2 ^ 149) (2 ^ 149)).2.2.2.2.2.2
        (Or.inl o1)⟩⟩

/-- C10, counterexample. Binary32 box with half-extents `(1, 1, 1)` and the point
`p = (1, 0, 0)`. With centre `(-2^-25, 0, 0)` the point is strictly outside
(`|p.x - c.x| = 1 + 2^-25 > 1`), with centre `(2^-25, 0, 0)` it is strictly inside
(`|p.x - c.x| = 1 - 2^-25 < 1`); in both cases `p.x - c.x` rounds to `1`, the excess
along `x` is `0`, and `sdf_box` returns `0`: it is neither positive outside nor negative
inside. -/
theorem sdf_box_sign_counterexample :
    (is_float (num (2 ^ 149)) = true ∧ is_float (num (2 ^ 124)) = true ∧
      is_float (num (-(2 ^ 124))) = true) ∧
    (|to_rat (num (2 ^ 149)) - to_rat (num (-(2 ^ 124)))| > to_rat (num (2 ^ 149)) ∧
      sdf_box (⟨num (2 ^ 149), num 0, num 0⟩ : vec3f binary32) ⟨num (-(2 ^ 124)), num 0, num 0⟩
        ⟨num (2 ^ 149), num (2 ^ 149), num (2 ^ 149)⟩ = 0 ∧
      ¬ 0 < sdf_box (⟨num (2 ^ 149), num 0, num 0⟩ : vec3f binary32)
        ⟨num (-(2 ^ 124)), num 0, num 0⟩ ⟨num (2 ^ 149), num (2 ^ 149), num (2 ^ 149)⟩) ∧
    (|to_rat (num (2 ^ 149)) - to_rat (num (2 ^ 124))| < to_rat (num (2 ^ 149)) ∧
      |to_rat (num 0) - to_rat (num 0)| < to_rat (num (2 ^ 149)) ∧
      sdf_box (⟨num (2 ^ 149), num 0, num 0⟩ : vec3f binary32) ⟨num (2 ^ 124), num 0, num 0⟩
        ⟨num (2 ^ 149), num (2 ^ 149), num (2 ^ 149)⟩ = 0 ∧
      ¬ sdf_box (⟨num (2 ^ 149), num 0, num 0⟩ : vec3f binary32) ⟨num (2 ^ 124), num 0, num 0⟩
        ⟨num (2 ^ 149), num (2 ^ 149), num (2 ^ 149)⟩ < 0) := by
  refine ⟨by decide!, ⟨?_, by decide!, by decide!⟩, ⟨?_, ?_, by decide!, by decide!⟩⟩
  · simp only [to_rat]
    norm_num [abs_of_pos]
  · simp only [to_rat]
    norm_num [abs_of_pos]
  · simp only [to_rat]
    norm_num

end ClaimInstances32

section RayClaim32

open binary32

set_option maxRecDepth 100000

/-- C13 (amended). In binary32, for every image size within `int` range, every pixel of
the image, and every yaw and pitch at which `cosf` and `sinf` return binary32 numbers of
magnitude at most `1` with `cos^2 + sin^2 >= 1 - 2^-20` (any libm accurate to a few units
in the last place, at any finite angle): the un-normalised ray vector of lines 194-198 has
a finite computed squared length of at least `1 - 10^-4`, above the threshold `1e-12f` of
line 84; so `vec3f_normalize` takes the dividing branch, the ray direction is that vector
times `1 / sqrtf(len_sq)`, not the fallback, and the computed squared length of the ray
direction is within `10^-5` of `1`. -/
theorem pixel_ray_dir_rounded [Trig binary32] (width height : Int)
    (cam_yaw cam_pitch : binary32) (py px : Int)
    (_hw : 0 < width) (hw2 : width < 2 ^ 31) (_hh : 0 < height) (hh2 : height < 2 ^ 31)
    (hpx0 : 0 ≤ px) (hpx : px < width) (hpy0 : 0 ≤ py) (hpy : py < height)
    (fcy : is_float (Trig.cosf cam_yaw) = true) (fsy : is_float (Trig.sinf cam_yaw) = true)
    (fcp : is_float (Trig.cosf cam_pitch) = true) (fsp : is_float (Trig.sinf cam_pitch) = true)
    (bcy : |to_rat (Trig.cosf cam_yaw)| ≤ 1) (bsy : |to_rat (Trig.sinf cam_yaw)| ≤ 1)
    (bcp : |to_rat (Trig.cosf cam_pitch)| ≤ 1) (bsp : |to_rat (Trig.sinf cam_pitch)| ≤ 1)
    (hY : 1 - 1 / 2 ^ 20 ≤ to_rat (Trig.cosf cam_yaw) * to_rat (Trig.cosf cam_yaw)
      + to_rat (Trig.sinf cam_yaw) * to_rat (Trig.sinf cam_yaw))
    (hP : 1 - 1 / 2 ^ 20 ≤ to_rat (Trig.cosf cam_pitch) * to_rat (Trig.cosf cam_pitch)
      + to_rat (Trig.sinf cam_pitch) * to_rat (Trig.sinf cam_pitch)) :
    (∃ l : Int, vec3f_length_sq (pixel_ray_vec width height cam_yaw cam_pitch py px) = num l ∧
      1 - 1 / 10 ^ 4 ≤ to_rat (num l)) ∧
    vec3f_length_sq (pixel_ray_vec width height cam_yaw cam_pitch py px) > 1e-12 ∧
    pixel_ray_dir width height cam_yaw cam_pitch py px
      = vec3f_make
          ((pixel_ray_vec width height cam_yaw cam_pitch py px).x
            * (1.0 / Sqrtf.sqrtf
                (vec3f_length_sq (pixel_ray_vec width height cam_yaw cam_pitch py px))))
          ((pixel_ray_vec width height cam_yaw cam_pitch py px).y
            * (1.0 / Sqrtf.sqrtf
                (vec3f_length_sq (pixel_ray_vec width height cam_yaw cam_pitch py px))))
          ((pixel_ray_vec width height cam_yaw cam_pitch py px).z
            * (1.0 / Sqrtf.sqrtf
                (vec3f_length_sq (pixel_ray_vec width height cam_yaw cam_pitch py px)))) ∧
    (∃ d : Int, vec3f_length_sq (pixel_ray_dir width height cam_yaw cam_pitch py px) = num d ∧
      |to_rat (num d) - 1| ≤ 1 / 10 ^ 5) := by
  obtain ⟨cy, hcy, _⟩ := b32_of_is_float _ fcy
  obtain ⟨sy, hsy, _⟩ := b32_of_is_float _ fsy
  obtain ⟨cp, hcp, _⟩ := b32_of_is_float _ fcp
  obtain ⟨sp, hsp, _⟩ := b32_of_is_float _ fsp
  rw [hcy] at bcy hY
  rw [hsy] at bsy hY
  rw [hcp] at bcp hP
  rw [hsp] at bsp hP
  obtain ⟨X, Y, Z, hv, bX, bY, bZ, hS⟩ := b32v_pixel_ray_vec width height cam_yaw cam_pitch
    py px cy sy cp sp hw2 hh2 hpx0 hpx hpy0 hpy hcy hsy hcp hsp bcy bsy bcp bsp hY hP
  have hS2 : 1 / 2 ≤ to_rat (num X) * to_rat (num X) + to_rat (num Y) * to_rat (num Y)
      + to_rat (num Z) * to_rat (num Z) := le_trans (by norm_num) hS
  have k40 : (2 : ℚ) ^ 36 ≤ 2 ^ 40 := by norm_num
  obtain ⟨l, hl, _, l1, _⟩ := b32v_length_sq X Y Z (le_trans bX k40) (le_trans bY k40)
    (le_trans bZ k40)
  obtain ⟨n1, n2, d, hd, ed⟩ := b32v_normalize X Y Z bX bY bZ hS2
  have hdir : pixel_ray_dir width height cam_yaw cam_pitch py px
      = vec3f_normalize (pixel_ray_vec width height cam_yaw cam_pitch py px) := rfl
  rw [hdir, hv]
  refine ⟨⟨l, hl, ?_⟩, n1, n2, d, hd, ed⟩
  have m := mul_le_mul_of_nonneg_right hS (show (0 : ℚ) ≤ 1 - 1 / 2 ^ 22 by norm_num)
  have c : ((1 : ℚ) - 1 / 2 ^ 15) * (1 - 1 / 2 ^ 22) - 1 / 2 ^ 140 ≥ 1 - 1 / 10 ^ 4 := by
    norm_num
  linarith

theorem trig_sample_values :
    @Trig.cosf binary32 trig_sample 1.0 = num (0x114a280 * 2 ^ 124) ∧
    @Trig.sinf binary32 trig_sample 1.0 = num (0x1aed548 * 2 ^ 124) ∧
    @Trig.cosf binary32 trig_sample 2.0 = num (-(0x1aa2266 * 2 ^ 123)) ∧
    @Trig.sinf binary32 trig_sample 2.0 = num (0x1d18f6e * 2 ^ 124) := by
  decide!

/-- Witness of C13: the centre pixel `(32, 32)` of a 64 x 64 image with yaw `1` and pitch
`2`, with the values of `cosf` and `sinf` that glibc returns there. Their squared sums
are within `2^-20` of `1`; the computed squared length of the un-normalised vector is at
least `1 - 10^-4` and that of the ray direction is within `10^-5` of `1`. -/
theorem pixel_ray_dir_rounded_witness :
    (1 - 1 / 2 ^ 20 ≤ to_rat (@Trig.cosf binary32 trig_sample 1.0)
        * to_rat (@Trig.cosf binary32 trig_sample 1.0)
      + to_rat (@Trig.sinf binary32 trig_sample 1.0)
        * to_rat (@Trig.sinf binary32 trig_sample 1.0)) ∧
    (1 - 1 / 2 ^ 20 ≤ to_rat (@Trig.cosf binary32 trig_sample 2.0)
        * to_rat (@Trig.cosf binary32 trig_sample 2.0)
      + to_rat (@Trig.sinf binary32 trig_sample 2.0)
        * to_rat (@Trig.sinf binary32 trig_sample 2.0)) ∧
    (∃ l : Int, vec3f_length_sq (sample_ray_vec 64 64 32 32) = num l ∧
      1 - 1 / 10 ^ 4 ≤ to_rat (num l)) ∧
    vec3f_length_sq (sample_ray_vec 64 64 32 32) > 1e-12 ∧
    (∃ d : Int, vec3f_length_sq (sample_ray_dir 64 64 32 32) = num d ∧
      |to_rat (num d) - 1| ≤ 1 / 10 ^ 5) :=
  have e1 := trig_sample_values.1
  have e2 := trig_sample_values.2.1
  have e3 := trig_sample_values.2.2.1
  have e4 := trig_sample_values.2.2.2
  have hY : 1 - 1 / 2 ^ 20 ≤ to_rat (@Trig.cosf binary32 trig_sample 1.0)
        * to_rat (@Trig.cosf binary32 trig_sample 1.0)
      + to_rat (@Trig.sinf binary32 trig_sample 1.0)
        * to_rat (@Trig.sinf binary32 trig_sample 1.0) := by
    rw [e1, e2]
    simp only [to_rat]
    norm_num
  have hP : 1 - 1 / 2 ^ 20 ≤ to_rat (@Trig.cosf binary32 trig_sample 2.0)
        * to_rat (@Trig.cosf binary32 trig_sample 2.0)
      + to_rat (@Trig.sinf binary32 trig_sample 2.0)
        * to_rat (@Trig.sinf binary32 trig_sample 2.0) := by
    rw [e3, e4]
    simp only [to_rat]
    norm_num
  have w := @pixel_ray_dir_rounded trig_sample 64 64 1.0 2.0 32 32 (by norm_num) (by norm_num)
    (by norm_num) (by norm_num) (by norm_num) (by norm_num) (by norm_num) (by norm_num)
    (by decide!) (by decide!) (by decide!) (by decide!)
    (by rw [e1]; simp only [to_rat]; rw [abs_le]; constructor <;> norm_num)
    (by rw [e2]; simp only [to_rat]; rw [abs_le]; constructor <;> norm_num)
    (by rw [e3]; simp only [to_rat]; rw [abs_le]; constructor <;> norm_num)
    (by rw [e4]; simp only [to_rat]; rw [abs_le]; constructor <;> norm_num)
    hY hP
  ⟨hY, hP, w.1, w.2.1, w.2.2.2⟩

/-- C13, counterexample. In binary32, the centre pixel `(32, 32)` of a 64 x 64 image with
yaw `1` and pitch `2` (glibc's `cosf` and `sinf`): the un-normalised vector has computed
squared length `0x1.fffffcp-1`, below `1`. The corner pixel `(0, 0)` of a 2 x 2 image with
yaw and pitch zero: the un-normalised vector is `(-1, 1, -1)`, of squared length `3`, and
the ray direction is `(-i, i, -i)` with `i = 0x1.279a74p-1`, the rounded `1 / sqrtf(3)`.
Its exact squared length `3 * i * i` is not `1`, its computed squared length is
`0x1.fffffep-1` and its computed length is `0x1.fffffep-1`: the ray direction does not
have length `1`. -/
theorem pixel_ray_dir_unit_counterexample :
    vec3f_length_sq (sample_ray_vec 64 64 32 32) = num (0x1fffffc * 2 ^ 124) ∧
    vec3f_length_sq (sample_ray_vec 64 64 32 32) < (1.0 : binary32) ∧
    (level_ray_dir 2 2 0 0).x = num (-(0x1279a74 * 2 ^ 124)) ∧
    (level_ray_dir 2 2 0 0).y = num (0x1279a74 * 2 ^ 124) ∧
    (level_ray_dir 2 2 0 0).z = num (-(0x1279a74 * 2 ^ 124)) ∧
    to_rat (level_ray_dir 2 2 0 0).x * to_rat (level_ray_dir 2 2 0 0).x
      + to_rat (level_ray_dir 2 2 0 0).y * to_rat (level_ray_dir 2 2 0 0).y
      + to_rat (level_ray_dir 2 2 0 0).z * to_rat (level_ray_dir 2 2 0 0).z ≠ 1 ∧
    vec3f_length_sq (level_ray_dir 2 2 0 0) = num (0x1fffffe * 2 ^ 124) ∧
    vec3f_length (level_ray_dir 2 2 0 0) = num (0x1fffffe * 2 ^ 124) ∧
    vec3f_length (level_ray_dir 2 2 0 0) ≠ 1.0 := by
  have hx : (level_ray_dir 2 2 0 0).x = num (-(0x1279a74 * 2 ^ 124)) := by decide!
  have hy : (level_ray_dir 2 2 0 0).y = num (0x1279a74 * 2 ^ 124) := by decide!
  have hz : (level_ray_dir 2 2 0 0).z = num (-(0x1279a74 * 2 ^ 124)) := by decide!
  refine ⟨by decide!, by decide!, hx, hy, hz, ?_, by decide!, by decide!, by decide!⟩
  rw [hx, hy, hz]
  simp only [to_rat]
  norm_num

end RayClaim32

end SimpleSdf
